import Mathlib

/-!
Verification development for the `toml_pretty` serializer
(`src/src/lib.rs`).  The library converts a JSON-like value tree into a
TOML-like text document: objects are flattened to dotted keys
(`flatten_map` / `flatten_map_rec`), and the flattened mapping is then
formatted entry by entry (`to_string`), with objects nested inside
arrays rendered through `to_array_object_string`.

Strings are modelled as `List Char` (`Str`), so that every text
operation of the source (escaping, splitting on `" = "`, trimming,
joining) is an ordinary structural list function amenable to proof and
to kernel evaluation.  The recursion of `to_string` into itself through
`to_array_object_string` (for an object nested inside an array) is
given an explicit fuel parameter; `to_string` applies it at a provably
sufficient fuel, so the wrapper agrees with the source semantics on
every input.
-/

/-- Characters of a Rust `String`, in order. -/
abbrev Str := List Char

/-- The value tree of `serde_json::Value` (numbers are modelled as
integers; their rendered text is the canonical decimal form, matching
`Display` for JSON integer numbers).  Object fields keep insertion
order, as `serde_json` with the `preserve_order` feature and
`OrderedHashMap` do. -/
inductive Value where
  | null : Value
  | bool : Bool → Value
  | num : Int → Value
  | str : Str → Value
  | arr : List Value → Value
  | obj : List (Str × Value) → Value

instance : Inhabited Value := ⟨Value.null⟩

/-- `Error` of `src/src/lib.rs` (lines 10-20).  The serde and format
variants are not modelled: serialization of an already-built value tree
and writing into an in-memory `String` cannot fail. -/
inductive Error where
  | tripleNestedArray : Error
  | objectReached : Error
deriving DecidableEq

/-- `Options` of `src/src/lib.rs` (lines 22-29). -/
structure Options where
  tab : Str
  skip_empty_string : Bool
  skip_empty_object : Bool
  inline_array : Bool
  max_inline_array_length : Nat

/-- `Options::default` (lines 31-41). -/
def Options.default : Options :=
  { tab := "\t".data
    skip_empty_string := false
    skip_empty_object := false
    inline_array := false
    max_inline_array_length := 50 }

mutual
/-- Number of nodes of a value (computable structural measure used to
bound the formatter's recursion depth). -/
def sizeV : Value → Nat
  | .null => 1
  | .bool _ => 1
  | .num _ => 1
  | .str _ => 1
  | .arr vs => 1 + sizeL vs
  | .obj fs => 1 + sizeF fs
termination_by structural v => v
/-- Node count of a list of values. -/
def sizeL : List Value → Nat
  | [] => 0
  | v :: rest => 1 + sizeV v + sizeL rest
termination_by structural l => l
/-- Node count of a field list. -/
def sizeF : List (Str × Value) → Nat
  | [] => 0
  | (_, v) :: rest => 1 + sizeV v + sizeF rest
termination_by structural l => l
end

/-- Decimal digit character, `48 + n` in code points. -/
def digitChar (n : Nat) : Char := Char.ofNat (48 + n)

/-- Decimal digits of a natural number (fuelled; `natToStr` applies it
with sufficient fuel). -/
def natToStrAux : Nat → Nat → Str
  | 0, _ => []
  | fuel + 1, n =>
    if n < 10 then [digitChar n]
    else natToStrAux fuel (n / 10) ++ [digitChar (n % 10)]

/-- Canonical decimal rendering of a natural number. -/
def natToStr (n : Nat) : Str := natToStrAux (n + 1) n

/-- Canonical decimal rendering of an integer, as `Display` prints a
JSON integer number. -/
def intToStr : Int → Str
  | .ofNat n => natToStr n
  | .negSucc n => '-' :: natToStr (n + 1)

/-- Rendering of a boolean, as `Display` prints it. -/
def boolStr (b : Bool) : Str := if b then "true".data else "false".data

/-- `val.replace('"', "\\\"")` of the source (lines 111, 135, 144):
every `"` becomes `\"`, all other characters are kept. -/
def esc : Str → Str
  | [] => []
  | c :: rest => (if c = '"' then ['\\', '"'] else [c]) ++ esc rest

/-- Rust `String::len`: the length in UTF-8 bytes (used by the
`max_inline_array_length` comparison at line 153). -/
def byteLen (s : Str) : Nat := s.foldl (fun n c => n + c.utf8Size) 0

/-- Rust `char::is_whitespace`: the Unicode White_Space property
(U+0009-U+000D, U+0020, U+0085, U+00A0, U+1680, U+2000-U+200A, U+2028,
U+2029, U+202F, U+205F, U+3000), as used by `str::trim` at line 253. -/
def rustIsWhitespace (c : Char) : Bool :=
  (0x09 ≤ c.val && c.val ≤ 0x0D) || c.val = 0x20 || c.val = 0x85 || c.val = 0xA0 ||
  c.val = 0x1680 || (0x2000 ≤ c.val && c.val ≤ 0x200A) ||
  c.val = 0x2028 || c.val = 0x2029 || c.val = 0x202F || c.val = 0x205F ||
  c.val = 0x3000

/-- Rust `str::trim` (Unicode whitespace stripped from both ends). -/
def trim (s : Str) : Str :=
  ((s.dropWhile rustIsWhitespace).reverse.dropWhile rustIsWhitespace).reverse

/-- First occurrence of `sep` in `s`: `some (before, after)` with
`s = before ++ sep ++ after`, `before` shortest possible. -/
def findSub (sep : Str) : Str → Option (Str × Str)
  | [] => if sep.isEmpty then some ([], []) else none
  | c :: cs =>
    if sep.isPrefixOf (c :: cs) then some ([], (c :: cs).drop sep.length)
    else (findSub sep cs).map fun p => (c :: p.1, p.2)

/-- Rust `str::split(sep)` for a non-empty `sep` (fuelled; each step
removes one separator occurrence, `splitSep` supplies ample fuel). -/
def splitAux (sep : Str) : Nat → Str → List Str
  | 0, s => [s]
  | fuel + 1, s =>
    match findSub sep s with
    | none => [s]
    | some (before, after) => before :: splitAux sep fuel after

/-- Rust `str::split(sep)` for a non-empty `sep`. -/
def splitSep (sep s : Str) : List Str := splitAux sep (s.length + 1) s

/-- Rust `str::rsplit_once(c)`: split at the last occurrence of `c`. -/
def rsplitOnce (c : Char) : Str → Option (Str × Str)
  | [] => none
  | x :: xs =>
    match rsplitOnce c xs with
    | some p => some (x :: p.1, p.2)
    | none => if x = c then some ([], xs) else none

/-- The token loop of `to_array_object_string` (lines 250-274): `res`
accumulates the single-line reassembly of the split sub-document. -/
def surgeryGo : List Str → Str → Str
  | [], res => res
  | token :: rest, res =>
    match rsplitOnce '\n' token with
    | some (val, nextKey) =>
      surgeryGo rest (res ++ " = ".data ++ trim val ++ ", ".data ++ trim nextKey)
    | none =>
      if res.isEmpty then surgeryGo rest token
      else surgeryGo rest (res ++ " = ".data ++ token)

/-- The string post-processing of `to_array_object_string`
(lines 246-276) applied to the already formatted sub-document: split on
`" = "`, trim the tokens, reassemble on one line, wrap in braces. -/
def surgery (sub : Str) : Str :=
  "\x7b ".data ++ surgeryGo ((splitSep " = ".data sub).map trim) [] ++ " \x7d".data

/-- `OrderedHashMap::insert`: replace the value in place if the key is
present, otherwise append at the back. -/
def insertOrd (t : List (Str × Value)) (k : Str) (v : Value) : List (Str × Value) :=
  if t.any (fun p => p.1 = k) then t.map (fun p => if p.1 = k then (k, v) else p)
  else t ++ [(k, v)]

mutual
/-- The field loop of `flatten_map_rec` (source lines 217-236):
`target` is the accumulated ordered mapping, `parent` the dotted path
so far. -/
def flatten_map_rec (target : List (Str × Value)) (parent : Option Str)
    (source : List (Str × Value)) (skip : Bool) : List (Str × Value) :=
  match source with
  | [] => target
  | (field, v) :: rest =>
    let pf := match parent with
      | some p => p ++ '.' :: field
      | none => field
    flatten_map_rec (flatten_map_val target pf v skip) parent rest skip
termination_by structural source
/-- Flattening of a single field value at dotted path `pf`.  The
empty-object test of the source (lines 208-216, taken at entry of
`flatten_map_rec` where `parent` is always `Some` for recursive calls)
appears here as the guard of the object case; at the root the source's
test writes nothing, which `flatten_map` reproduces by starting
directly in the field loop. -/
def flatten_map_val (target : List (Str × Value)) (pf : Str) (v : Value) (skip : Bool) :
    List (Str × Value) :=
  match v with
  | .obj src =>
    if src.isEmpty && !skip then insertOrd target pf (.obj [])
    else flatten_map_rec target (some pf) src skip
  | v => insertOrd target pf v
termination_by structural v
end

/-- `flatten_map` of the source (lines 193-200). -/
def flatten_map (m : List (Str × Value)) (skip : Bool) : List (Str × Value) :=
  flatten_map_rec [] none m skip

/-- The depth-2 element loop of `to_string` (lines 139-148): elements of
an array nested inside an array.  `render` is the recursive entry into
the full pipeline, used by `to_array_object_string` for object
elements; a `none` result signals exhausted fuel inside `render`.
Note that, unlike the depth-1 loop, empty strings are pushed even when
`skip_empty_string` is set (line 144 has no emptiness check). -/
def elems2Loop (render : List (Str × Value) → Options → Option (Except Error Str))
    (opts : Options) : List Value → Option (Except Error (List Str))
  | [] => some (.ok [])
  | v :: rest =>
    match v with
    | .null => elems2Loop render opts rest
    | .bool b =>
      (elems2Loop render opts rest).map (Except.map fun out => boolStr b :: out)
    | .num n =>
      (elems2Loop render opts rest).map (Except.map fun out => intToStr n :: out)
    | .str s =>
      (elems2Loop render opts rest).map
        (Except.map fun out => ('"' :: esc s ++ ['"']) :: out)
    | .obj flds =>
      match render flds { opts with inline_array := true } with
      | none => none
      | some (.error e) => some (.error e)
      | some (.ok sub) =>
        (elems2Loop render opts rest).map (Except.map fun out => surgery sub :: out)
    | .arr _ => some (.error .tripleNestedArray)

/-- The depth-1 element loop of `to_string` (lines 127-152), producing
the rendered element strings `strs` of a top-level array value. -/
def elemsLoop (render : List (Str × Value) → Options → Option (Except Error Str))
    (opts : Options) : List Value → Option (Except Error (List Str))
  | [] => some (.ok [])
  | v :: rest =>
    match v with
    | .null => elemsLoop render opts rest
    | .bool b =>
      (elemsLoop render opts rest).map (Except.map fun strs => boolStr b :: strs)
    | .num n =>
      (elemsLoop render opts rest).map (Except.map fun strs => intToStr n :: strs)
    | .str s =>
      if opts.skip_empty_string && s.isEmpty then elemsLoop render opts rest
      else (elemsLoop render opts rest).map
        (Except.map fun strs => ('"' :: esc s ++ ['"']) :: strs)
    | .obj flds =>
      match render flds { opts with inline_array := true } with
      | none => none
      | some (.error e) => some (.error e)
      | some (.ok sub) =>
        (elemsLoop render opts rest).map (Except.map fun strs => surgery sub :: strs)
    | .arr vs =>
      match elems2Loop render opts vs with
      | none => none
      | some (.error e) => some (.error e)
      | some (.ok out) =>
        (elemsLoop render opts rest).map
          (Except.map fun strs =>
            ('[' :: List.intercalate ", ".data out ++ [']']) :: strs)

/-- Rendering of one flattened entry, following the per-variant `match`
of `to_string` (lines 86-188).  `ok none` means the entry is skipped
(a `Null` value, or an empty string under `skip_empty_string`);
`ok (some piece)` is the text written for the entry (the `\n`
separator before it is added by the caller, `entriesLoop`). -/
def renderEntry (render : List (Str × Value) → Options → Option (Except Error Str))
    (opts : Options) (k : Str) (v : Value) : Option (Except Error (Option Str)) :=
  match v with
  | .null => some (.ok none)
  | .bool b => some (.ok (some (k ++ " = ".data ++ boolStr b)))
  | .num n => some (.ok (some (k ++ " = ".data ++ intToStr n)))
  | .str s =>
    if opts.skip_empty_string && s.isEmpty then some (.ok none)
    else if s.contains '\n' then
      some (.ok (some (k ++ " = \"\"\"\n".data ++ s ++ "\"\"\"".data)))
    else some (.ok (some (k ++ " = \"".data ++ esc s ++ ['"'])))
  | .arr vs =>
    if vs.isEmpty then some (.ok (some (k ++ " = []".data)))
    else
      match elemsLoop render opts vs with
      | none => none
      | some (.error e) => some (.error e)
      | some (.ok strs) =>
        let total := strs.foldl (fun t c => t + byteLen c) 0
        if opts.inline_array || decide (total ≤ opts.max_inline_array_length) then
          some (.ok (some (k ++ " = [".data ++ List.intercalate ", ".data strs ++ [']'])))
        else
          some (.ok (some (k ++ " = [\n".data ++ opts.tab ++
            List.intercalate (",\n".data ++ opts.tab) strs ++ "\n]".data)))
  | .obj flds =>
    if !opts.skip_empty_object && flds.isEmpty then
      some (.ok (some (k ++ " = {}".data)))
    else some (.error .objectReached)

/-- The entry loop of `to_string` (lines 85-189): `i` is the index in
the flattened mapping (`enumerate`), `res` the accumulated output.  A
newline is written before an emitted entry whenever `i != 0` — the
index counts skipped entries too, exactly as in the source. -/
def entriesLoop (render : List (Str × Value) → Options → Option (Except Error Str))
    (opts : Options) : List (Str × Value) → Nat → Str → Option (Except Error Str)
  | [], _, res => some (.ok res)
  | (k, v) :: rest, i, res =>
    match renderEntry render opts k v with
    | none => none
    | some (.error e) => some (.error e)
    | some (.ok none) => entriesLoop render opts rest (i + 1) res
    | some (.ok (some piece)) =>
      entriesLoop render opts rest (i + 1)
        (res ++ (if i ≠ 0 then ['\n'] else []) ++ piece)

/-- `to_string` of the source (lines 74-191), fuelled: one unit of fuel
is consumed each time the pipeline re-enters itself through
`to_array_object_string` for an object nested inside an array
(`none` = fuel exhausted, which `to_string` avoids by construction). -/
def toStringFuel : Nat → List (Str × Value) → Options → Option (Except Error Str)
  | 0, _, _ => none
  | fuel + 1, m, opts =>
    entriesLoop (fun flds o => toStringFuel fuel flds o) opts
      (flatten_map m opts.skip_empty_object) 0 []

/-- `to_string` of the source (lines 74-191), at a provably sufficient
fuel. -/
def to_string (m : List (Str × Value)) (opts : Options) : Except Error Str :=
  (toStringFuel (sizeF m + 1) m opts).getD (.ok [])

/-- `to_array_object_string` of the source (lines 246-276): format the
object as its own document with `inline_array` forced on, then collapse
the result onto one line with `surgery`. -/
def to_array_object_string (m : List (Str × Value)) (opts : Options) :
    Except Error Str :=
  match toStringFuel (sizeF m + 1) m { opts with inline_array := true } with
  | none => .ok []
  | some (.error e) => .error e
  | some (.ok sub) => .ok (surgery sub)

mutual
/-- The entries of `flatten_map_rec` in emission order, without the
interposed `OrderedHashMap`: the depth-first pre-order list of
`(dotted path, value)` pairs, including the `key = {}` markers for
empty objects when `skip` is off.  `flatten_map` is exactly a left fold
of `insertOrd` over this list (proved below). -/
def dfsFields (parent : Option Str) (source : List (Str × Value)) (skip : Bool) :
    List (Str × Value) :=
  match source with
  | [] => []
  | (field, v) :: rest =>
    let pf := match parent with
      | some p => p ++ '.' :: field
      | none => field
    dfsVal pf v skip ++ dfsFields parent rest skip
termination_by structural source
/-- Depth-first entries contributed by one field value at path `pf`. -/
def dfsVal (pf : Str) (v : Value) (skip : Bool) : List (Str × Value) :=
  match v with
  | .obj src =>
    if src.isEmpty && !skip then [(pf, .obj [])]
    else dfsFields (some pf) src skip
  | v => [(pf, v)]
termination_by structural v
end

/-- Depth-first entry list of a whole input mapping. -/
def dfsEntries (m : List (Str × Value)) (skip : Bool) : List (Str × Value) :=
  dfsFields none m skip

/-- One `OrderedHashMap::insert` step of the flattening fold. -/
def insStep (t : List (Str × Value)) (kv : Str × Value) : List (Str × Value) :=
  insertOrd t kv.1 kv.2

/-- Keys of an ordered mapping, in order. -/
def keysOf (l : List (Str × Value)) : List Str := l.map Prod.fst

/-- Value bound to `k` (first binding wins, as in a map). -/
def getVal (l : List (Str × Value)) (k : Str) : Option Value :=
  (l.find? (fun p => p.1 = k)).map Prod.snd

/-- Value of the last entry with key `k` in a plain entry list
(later bindings win, mirroring repeated `insert`). -/
def lastVal : List (Str × Value) → Str → Option Value
  | [], _ => none
  | (k0, v0) :: rest, k =>
    match lastVal rest k with
    | some v => some v
    | none => if k0 = k then some v0 else none

/-- First-defined choice of two optional values. -/
def myOr (a b : Option Value) : Option Value :=
  match a with
  | some x => some x
  | none => b

/-- A fuelled formatter result that is not the `ObjectReached` error. -/
def noObjErr {α : Type} : Option (Except Error α) → Prop
  | some (.error .objectReached) => False
  | _ => True

/-- `SubVal v w`: `v` is `w` itself, or a value reachable from `w` by
descending through object fields (the positions the flattener
traverses). -/
inductive SubVal : Value → Value → Prop where
  | refl (v : Value) : SubVal v v
  | inObj (v : Value) (k : Str) (w : Value) (fs : List (Str × Value)) :
      (k, w) ∈ fs → SubVal v w → SubVal v (Value.obj fs)

/-- The lines of a string: segments separated by newline characters. -/
def lines : Str → List Str
  | [] => [[]]
  | c :: rest =>
    match lines rest with
    | [] => [[]]
    | l :: ls => if c = '\n' then [] :: l :: ls else (c :: l) :: ls

/-- Test for the empty-object value. -/
def isEmptyObjB : Value → Bool
  | .obj [] => true
  | _ => false

/-- Test for an array value. -/
def isArr : Value → Bool
  | .arr _ => true
  | _ => false

/-- Test for the empty-string value. -/
def isEmptyStrB : Value → Bool
  | .str [] => true
  | _ => false

/-- A two-level array head: an array that directly contains an array.
A value satisfying `arrInArr` as an array *element* is exactly what
makes the element's rendering reach the source's depth-2 loop with a
further nested array. -/
def arrInArr : Value → Bool
  | .arr ws => ws.any isArr
  | _ => false

/-- Head of a triple-nested-array chain: an array with an element that
is itself an array containing an array. -/
def tripleHead : Value → Bool
  | .arr vs => vs.any arrInArr
  | _ => false

mutual
/-- Some node of the value tree (the value itself, or any value
reachable through object fields and array elements) satisfies `p`. -/
def anyV (p : Value → Bool) : Value → Bool
  | .arr vs => p (.arr vs) || anyL p vs
  | .obj fs => p (.obj fs) || anyF p fs
  | v => p v
termination_by structural v => v
/-- Some node under one of the listed values satisfies `p`. -/
def anyL (p : Value → Bool) : List Value → Bool
  | [] => false
  | v :: rest => anyV p v || anyL p rest
termination_by structural l => l
/-- Some node under one of the listed field values satisfies `p`. -/
def anyF (p : Value → Bool) : List (Str × Value) → Bool
  | [] => false
  | (_, v) :: rest => anyV p v || anyF p rest
termination_by structural l => l
end

/-- The input mapping contains an array nested three or more levels
deep (an array, directly containing an array, directly containing an
array), anywhere in the tree. -/
def mapHasTriple (m : List (Str × Value)) : Bool := anyF tripleHead m

mutual
/-- Hereditary collision-freedom of a value inside one pipeline level:
arrays are inspected elementwise, and objects that will be flattened at
this level are descended into. -/
def ncV : Value → Bool
  | .arr vs => ncL vs
  | .obj fs => ncF fs
  | _ => true
termination_by structural v => v
/-- Collision-freedom of array elements: an object element starts its
own formatting pipeline, so its own depth-first paths must be
collision-free (and so on hereditarily); a nested array is inspected
elementwise. -/
def ncL : List Value → Bool
  | [] => true
  | .obj fs :: rest =>
    (decide (keysOf (dfsFields none fs false)).Nodup && ncF fs) && ncL rest
  | .arr ws :: rest => ncL ws && ncL rest
  | _ :: rest => ncL rest
termination_by structural l => l
/-- Collision-freedom of the values of a field list. -/
def ncF : List (Str × Value) → Bool
  | [] => true
  | (_, v) :: rest => ncV v && ncF rest
termination_by structural l => l
end

/-- Collision-freedom of an input mapping: its own depth-first dotted
paths are pairwise distinct, and hereditarily so for every object that
is formatted through its own pipeline (objects nested inside arrays). -/
def NCm (m : List (Str × Value)) : Bool :=
  decide (keysOf (dfsFields none m false)).Nodup && ncF m

mutual
/-- Modelled from the spec: the depth-first pre-order list of the
leaves of an object tree, each leaf keyed by its ancestor field names
joined with a dot (spec section 8, first testable property).  Unlike
`dfsFields`, empty objects leave no marker here: the spec's property
quantifies over trees without empty objects, where the two agree. -/
def specLeavesF (parent : Option Str) (m : List (Str × Value)) : List (Str × Value) :=
  match m with
  | [] => []
  | (field, v) :: rest =>
    let pf := match parent with
      | some p => p ++ '.' :: field
      | none => field
    specLeavesV pf v ++ specLeavesF parent rest
termination_by structural m
/-- Modelled from the spec: leaves contributed by one field value. -/
def specLeavesV (pf : Str) (v : Value) : List (Str × Value) :=
  match v with
  | .obj fs => specLeavesF (some pf) fs
  | v => [(pf, v)]
termination_by structural v
end

/-- Modelled from the spec: depth-first pre-order leaves of the input
object tree with dotted-path keys. -/
def specLeaves (m : List (Str × Value)) : List (Str × Value) := specLeavesF none m

/-- Each newline replaced by `", "`. -/
def replaceNl : Str → Str
  | [] => []
  | c :: rest => (if c = '\n' then ", ".data else [c]) ++ replaceNl rest

/-- Modelled from the spec: the claimed collapse of an
object-in-array's sub-document onto one line — wrap in braces and
replace the sub-document's newlines with `", "` (spec section 4.2,
depth-1 Object element rendering). -/
def specCollapse (sub : Str) : Str :=
  "\x7b ".data ++ replaceNl sub ++ " \x7d".data

/-- A rendered sub-document line `key = value`. -/
def mkLine (kv : Str × Str) : Str := kv.1 ++ " = ".data ++ kv.2

/-- The sub-document with the given keys and rendered values, one line
per entry. -/
def mkDoc (entries : List (Str × Str)) : Str :=
  List.intercalate ['\n'] (entries.map mkLine)

/-- A clean key for the collapse equivalence: non-empty, and without
whitespace or equals signs (so no spurious `" = "` match can start
inside or at the end of the key). -/
def cleanKey (k : Str) : Prop :=
  k ≠ [] ∧ ∀ c ∈ k, ¬rustIsWhitespace c ∧ c ≠ '='

/-- A clean rendered value for the collapse equivalence: non-empty,
not starting or ending with whitespace, containing no newline and not
containing `" = "` as a substring. -/
def cleanVal (v : Str) : Prop :=
  v ≠ [] ∧ trim v = v ∧ '\n' ∉ v ∧ ∀ u w, v ≠ u ++ " = ".data ++ w

/-- The sub-document after its first `key = ` prefix: the first value,
then one `\n key = ` block per further entry (`mkDoc ((k, v) :: rest) =
k ++ " = " ++ docTail v rest`). -/
def docTail (v : Str) : List (Str × Str) → Str
  | [] => v
  | (k2, v2) :: rest => v ++ '\n' :: k2 ++ " = ".data ++ docTail v2 rest

/-- The tokens produced by splitting `docTail v rest` on `" = "`: each
token after the first key carries a value together with the key of the
next line. -/
def tokAfter (v : Str) : List (Str × Str) → List Str
  | [] => [v]
  | (k2, v2) :: rest => (v ++ '\n' :: k2) :: tokAfter v2 rest

/-- The single-line collapse of `docTail v rest`: each line break
replaced by `", "`. -/
def collapseTail (v : Str) : List (Str × Str) → Str
  | [] => v
  | (k2, v2) :: rest => v ++ ',' :: ' ' :: k2 ++ " = ".data ++ collapseTail v2 rest

/-! ## Basic properties of `insertOrd` and the flattening fold -/

theorem any_key_iff (t : List (Str × Value)) (k : Str) :
    (t.any fun p => p.1 = k) = true ↔ k ∈ keysOf t := by
  simp [List.any_eq_true, keysOf, List.mem_map]

theorem insertOrd_eq (t : List (Str × Value)) (k : Str) (v : Value) :
    insertOrd t k v =
      if k ∈ keysOf t then t.map (fun p => if p.1 = k then (k, v) else p)
      else t ++ [(k, v)] := by
  unfold insertOrd
  by_cases h : k ∈ keysOf t
  · rw [if_pos ((any_key_iff t k).mpr h), if_pos h]
  · rw [if_neg (fun hc => h ((any_key_iff t k).mp hc)), if_neg h]

theorem keysOf_map_replace (t : List (Str × Value)) (k : Str) (v : Value) :
    keysOf (t.map (fun p => if p.1 = k then (k, v) else p)) = keysOf t := by
  induction t with
  | nil => rfl
  | cons p rest ih =>
    by_cases hp : p.1 = k
    · simp [keysOf, hp] at ih ⊢
      exact ih
    · simp [keysOf, hp] at ih ⊢
      exact ih

theorem keysOf_insertOrd (t : List (Str × Value)) (k : Str) (v : Value) :
    keysOf (insertOrd t k v) = if k ∈ keysOf t then keysOf t else keysOf t ++ [k] := by
  rw [insertOrd_eq]
  by_cases h : k ∈ keysOf t
  · rw [if_pos h, if_pos h, keysOf_map_replace]
  · rw [if_neg h, if_neg h]
    simp [keysOf]

theorem keysOf_insertOrd_nodup (t : List (Str × Value)) (k : Str) (v : Value)
    (h : (keysOf t).Nodup) : (keysOf (insertOrd t k v)).Nodup := by
  rw [keysOf_insertOrd]
  by_cases hk : k ∈ keysOf t
  · rwa [if_pos hk]
  · rw [if_neg hk]
    simpa [List.nodup_append] using ⟨h, hk⟩

theorem keysOf_foldl_insStep_nodup (l : List (Str × Value)) :
    ∀ t, (keysOf t).Nodup → (keysOf (l.foldl insStep t)).Nodup := by
  induction l with
  | nil => intro t h; simpa using h
  | cons kv rest ih =>
    intro t h
    exact ih _ (keysOf_insertOrd_nodup t kv.1 kv.2 h)

theorem getVal_nil (q : Str) : getVal [] q = none := rfl

theorem getVal_cons (p : Str × Value) (t : List (Str × Value)) (q : Str) :
    getVal (p :: t) q = if p.1 = q then some p.2 else getVal t q := by
  by_cases h : p.1 = q <;> simp [getVal, List.find?_cons, h]

theorem getVal_map_replace (t : List (Str × Value)) (k : Str) (v : Value) (q : Str)
    (hq : q ≠ k) :
    getVal (t.map (fun p => if p.1 = k then (k, v) else p)) q = getVal t q := by
  induction t with
  | nil => rfl
  | cons p rest ih =>
    by_cases hp : p.1 = k
    · have h1 : k ≠ q := fun h => hq h.symm
      have h2 : p.1 ≠ q := fun h => hq (h.symm.trans hp)
      simp only [List.map_cons, if_pos hp, getVal_cons, if_neg h1, if_neg h2]
      exact ih
    · simp only [List.map_cons, if_neg hp, getVal_cons]
      by_cases h : p.1 = q
      · simp [h]
      · simp only [if_neg h]
        exact ih

theorem getVal_map_replace_self (t : List (Str × Value)) (k : Str) (v : Value)
    (h : k ∈ keysOf t) :
    getVal (t.map (fun p => if p.1 = k then (k, v) else p)) k = some v := by
  induction t with
  | nil => simp [keysOf] at h
  | cons p rest ih =>
    by_cases hp : p.1 = k
    · simp [List.map_cons, if_pos hp, getVal_cons]
    · have hrest : k ∈ keysOf rest := by
        rcases (by simpa [keysOf] using h : k = p.1 ∨ ∃ x, (k, x) ∈ rest) with h1 | h1
        · exact absurd h1.symm hp
        · obtain ⟨x, hx⟩ := h1
          exact List.mem_map.mpr ⟨(k, x), hx, rfl⟩
      simp only [List.map_cons, if_neg hp, getVal_cons, if_neg hp]
      exact ih hrest

theorem getVal_append (t₁ t₂ : List (Str × Value)) (q : Str) :
    getVal (t₁ ++ t₂) q = myOr (getVal t₁ q) (getVal t₂ q) := by
  induction t₁ with
  | nil => simp [getVal_nil, myOr]
  | cons p rest ih =>
    rw [List.cons_append, getVal_cons, getVal_cons]
    by_cases h : p.1 = q
    · simp [h, myOr]
    · simp only [if_neg h]
      exact ih

theorem getVal_eq_none_of_not_mem (t : List (Str × Value)) (q : Str)
    (h : q ∉ keysOf t) : getVal t q = none := by
  induction t with
  | nil => rfl
  | cons p rest ih =>
    rw [getVal_cons]
    have h1 : p.1 ≠ q := fun he => h (by simp [keysOf, he])
    rw [if_neg h1]
    exact ih (fun hc => h (by simp [keysOf]; right; simpa [keysOf] using hc))

theorem getVal_insertOrd (t : List (Str × Value)) (k : Str) (v : Value) (q : Str) :
    getVal (insertOrd t k v) q = if k = q then some v else getVal t q := by
  rw [insertOrd_eq]
  by_cases h : k ∈ keysOf t
  · rw [if_pos h]
    by_cases hq : k = q
    · subst hq
      rw [if_pos rfl]
      exact getVal_map_replace_self t k v h
    · rw [if_neg hq]
      exact getVal_map_replace t k v q (fun he => hq he.symm)
  · rw [if_neg h, getVal_append]
    by_cases hq : k = q
    · subst hq
      rw [if_pos rfl, getVal_eq_none_of_not_mem t k h]
      simp [myOr, getVal_cons]
    · rw [if_neg hq]
      have : getVal [(k, v)] q = none := by
        rw [getVal_cons]
        simp [hq, getVal_nil]
      rw [this]
      cases getVal t q <;> simp [myOr]

theorem getVal_foldl_insStep (l : List (Str × Value)) :
    ∀ t q, getVal (l.foldl insStep t) q = myOr (lastVal l q) (getVal t q) := by
  induction l with
  | nil => intro t q; simp [lastVal, myOr]
  | cons kv rest ih =>
    intro t q
    rcases kv with ⟨k0, v0⟩
    rw [List.foldl_cons]
    rw [ih (insStep t (k0, v0)) q]
    show myOr (lastVal rest q) (getVal (insertOrd t k0 v0) q) =
      myOr (lastVal ((k0, v0) :: rest) q) (getVal t q)
    rw [getVal_insertOrd,
      show lastVal ((k0, v0) :: rest) q =
        (match lastVal rest q with
          | some v => some v
          | none => if k0 = q then some v0 else none) from rfl]
    cases lastVal rest q with
    | none =>
      by_cases h : k0 = q <;> simp [myOr, h]
    | some v => simp [myOr]

theorem flatten_rec_eq_dfs :
    ∀ (target : List (Str × Value)) (parent : Option Str) (source : List (Str × Value))
      (skip : Bool),
      flatten_map_rec target parent source skip =
        (dfsFields parent source skip).foldl insStep target := by
  refine flatten_map_rec.induct
    (fun target parent source skip =>
      flatten_map_rec target parent source skip =
        (dfsFields parent source skip).foldl insStep target)
    (fun target pf v skip =>
      flatten_map_val target pf v skip = (dfsVal pf v skip).foldl insStep target)
    ?_ ?_ ?_ ?_ ?_
  · intro target pf skip src h
    simp [flatten_map_val, dfsVal, h, insStep]
  · intro target pf skip src h ih
    simp [flatten_map_val, dfsVal, h, ih]
  · intro target pf skip v h
    cases v with
    | obj src => exact absurd rfl (fun he => h src he)
    | null => simp [flatten_map_val, dfsVal, insStep]
    | bool b => simp [flatten_map_val, dfsVal, insStep]
    | num n => simp [flatten_map_val, dfsVal, insStep]
    | str s => simp [flatten_map_val, dfsVal, insStep]
    | arr vs => simp [flatten_map_val, dfsVal, insStep]
  · intro target parent skip
    simp [flatten_map_rec, dfsFields]
  · intro target parent skip f v rest pf ih2 ih1
    show flatten_map_rec target parent ((f, v) :: rest) skip = _
    rw [show flatten_map_rec target parent ((f, v) :: rest) skip =
        flatten_map_rec (flatten_map_val target pf v skip) parent rest skip from rfl]
    rw [show dfsFields parent ((f, v) :: rest) skip =
        dfsVal pf v skip ++ dfsFields parent rest skip from rfl]
    rw [List.foldl_append, ih1, ih2]

theorem flatten_val_eq_dfs (target : List (Str × Value)) (pf : Str) (v : Value)
    (skip : Bool) :
    flatten_map_val target pf v skip = (dfsVal pf v skip).foldl insStep target := by
  cases v with
  | obj src =>
    by_cases h : (src.isEmpty && !skip) = true
    · simp [flatten_map_val, dfsVal, h, insStep]
    · simp [flatten_map_val, dfsVal, h, flatten_rec_eq_dfs]
  | null => simp [flatten_map_val, dfsVal, insStep]
  | bool b => simp [flatten_map_val, dfsVal, insStep]
  | num n => simp [flatten_map_val, dfsVal, insStep]
  | str s => simp [flatten_map_val, dfsVal, insStep]
  | arr vs => simp [flatten_map_val, dfsVal, insStep]

theorem flatten_map_eq_foldl (m : List (Str × Value)) (skip : Bool) :
    flatten_map m skip = (dfsEntries m skip).foldl insStep [] :=
  flatten_rec_eq_dfs [] none m skip

/-- C10: the mapping produced by `flatten_map` binds each dotted-path
key at most once, and the value bound to a key is the value of the
*last* entry with that key in the depth-first traversal order — when
two distinct leaves flatten to the same dotted path, the
later-encountered leaf's value overwrites the earlier one, so one of
the two leaves is absent from the flattened mapping. -/
theorem claim_C10 (m : List (Str × Value)) (skip : Bool) :
    (keysOf (flatten_map m skip)).Nodup ∧
      ∀ k, getVal (flatten_map m skip) k = lastVal (dfsEntries m skip) k := by
  constructor
  · rw [flatten_map_eq_foldl]
    exact keysOf_foldl_insStep_nodup _ [] (by simp [keysOf])
  · intro k
    rw [flatten_map_eq_foldl, getVal_foldl_insStep]
    rw [getVal_nil]
    cases lastVal (dfsEntries m skip) k <;> simp [myOr]

/-! ## Depth-first entries versus the spec's leaf list (C7) -/

theorem anyF_cons_false (p : Value → Bool) (f : Str) (v : Value)
    (rest : List (Str × Value)) :
    anyF p ((f, v) :: rest) = false ↔ anyV p v = false ∧ anyF p rest = false := by
  simp [anyF]

theorem dfs_eq_specLeaves (skip : Bool) :
    ∀ (parent : Option Str) (m : List (Str × Value)),
      anyF isEmptyObjB m = false →
      dfsFields parent m skip = specLeavesF parent m := by
  refine specLeavesF.induct
    (fun parent m => anyF isEmptyObjB m = false →
      dfsFields parent m skip = specLeavesF parent m)
    (fun pf v => anyV isEmptyObjB v = false →
      dfsVal pf v skip = specLeavesV pf v)
    ?_ ?_ ?_ ?_
  · intro pf src ih h
    have h1 : isEmptyObjB (.obj src) = false ∧ anyF isEmptyObjB src = false := by
      simpa [anyV] using h
    have hne : src ≠ [] := by
      intro he
      subst he
      simp [isEmptyObjB] at h1
    have hguard : (src.isEmpty && !skip) = false := by
      simp [List.isEmpty_iff, hne]
    simp only [dfsVal, specLeavesV, hguard]
    simp only [Bool.false_eq_true, if_false]
    exact ih h1.2
  · intro pf v hno _
    cases v with
    | obj fs => exact absurd rfl (fun he => hno fs he)
    | null => simp [dfsVal, specLeavesV]
    | bool b => simp [dfsVal, specLeavesV]
    | num n => simp [dfsVal, specLeavesV]
    | str s => simp [dfsVal, specLeavesV]
    | arr vs => simp [dfsVal, specLeavesV]
  · intro parent _
    simp [dfsFields, specLeavesF]
  · intro parent f v rest pf ihv ihf h
    rcases (anyF_cons_false _ f v rest).mp h with ⟨hv, hrest⟩
    show dfsFields parent ((f, v) :: rest) skip = _
    rw [show dfsFields parent ((f, v) :: rest) skip =
        dfsVal pf v skip ++ dfsFields parent rest skip from rfl]
    rw [show specLeavesF parent ((f, v) :: rest) =
        specLeavesV pf v ++ specLeavesF parent rest from rfl]
    rw [ihv hv, ihf hrest]

theorem foldl_insStep_all_new :
    ∀ (l t : List (Str × Value)),
      (∀ k ∈ keysOf l, k ∉ keysOf t) → (keysOf l).Nodup →
      l.foldl insStep t = t ++ l := by
  intro l
  induction l with
  | nil => intro t _ _; simp
  | cons kv rest ih =>
    rcases kv with ⟨k, v⟩
    intro t hdisj hnodup
    have hkeys : keysOf ((k, v) :: rest) = k :: keysOf rest := rfl
    have hkt : k ∉ keysOf t := hdisj k (by rw [hkeys]; exact List.mem_cons_self k _)
    have hknotrest : k ∉ keysOf rest := by
      rw [hkeys] at hnodup
      exact (List.nodup_cons.mp hnodup).1
    have hnodup' : (keysOf rest).Nodup := by
      rw [hkeys] at hnodup
      exact (List.nodup_cons.mp hnodup).2
    have hstep : insStep t (k, v) = t ++ [(k, v)] := by
      show insertOrd t k v = _
      rw [insertOrd_eq, if_neg hkt]
    have hdisj' : ∀ q ∈ keysOf rest, q ∉ keysOf (t ++ [(k, v)]) := by
      intro q hq hmem
      rw [show keysOf (t ++ [(k, v)]) = keysOf t ++ [k] from by simp [keysOf]] at hmem
      rcases List.mem_append.mp hmem with h | h
      · exact hdisj q (by rw [hkeys]; exact List.mem_cons_of_mem _ hq) h
      · have hqk : q = k := by simpa using h
        exact hknotrest (hqk ▸ hq)
    rw [List.foldl_cons, hstep, ih (t ++ [(k, v)]) hdisj' hnodup']
    simp

/-- C7 counterexample: the input `{"a.b": 1, "a": {"b": 2}}` has no
empty strings, no empty objects and no arrays, yet its flattened
mapping has a different key list (one entry) than the depth-first
pre-order leaf list (two leaves, both at dotted path `a.b`), so the
flattened key order cannot equal the leaf traversal order as the claim
states. -/
theorem claim_C7_counterexample :
    anyF isEmptyStrB [("a.b".data, Value.num 1),
        ("a".data, Value.obj [("b".data, Value.num 2)])] = false ∧
    anyF isEmptyObjB [("a.b".data, Value.num 1),
        ("a".data, Value.obj [("b".data, Value.num 2)])] = false ∧
    anyF isArr [("a.b".data, Value.num 1),
        ("a".data, Value.obj [("b".data, Value.num 2)])] = false ∧
    keysOf (flatten_map [("a.b".data, Value.num 1),
        ("a".data, Value.obj [("b".data, Value.num 2)])] false) ≠
      keysOf (specLeaves [("a.b".data, Value.num 1),
        ("a".data, Value.obj [("b".data, Value.num 2)])]) := by
  refine ⟨by decide, by decide, by decide, ?_⟩
  decide

/-- C7 (amended): for every input object tree containing no empty
strings, no empty objects and no arrays, *and whose leaves' dotted
paths are pairwise distinct*, the flattened mapping equals the
depth-first pre-order leaf list of the tree — same entries in the same
order, each key being the leaf's ancestor field names joined with `.`.
Without the distinctness proviso the claim fails, because leaves with
colliding dotted paths are merged by overwriting (see the
counterexample). -/
theorem claim_C7 (m : List (Str × Value)) (skip : Bool)
    (hstr : anyF isEmptyStrB m = false)
    (hobj : anyF isEmptyObjB m = false)
    (harr : anyF isArr m = false)
    (hnodup : (keysOf (specLeaves m)).Nodup) :
    flatten_map m skip = specLeaves m := by
  have hdfs : dfsEntries m skip = specLeaves m := dfs_eq_specLeaves skip none m hobj
  rw [flatten_map_eq_foldl, hdfs]
  have h := foldl_insStep_all_new (specLeaves m) [] (by simp [keysOf]) hnodup
  simpa using h

/-- Witness for C7 at a concrete nested input. -/
theorem claim_C7_witness :
    anyF isEmptyStrB [("name".data, Value.str "Jonathan".data),
        ("birthday".data, Value.obj [("day".data, Value.num 0),
          ("year".data, Value.num 1980)])] = false ∧
    (keysOf (specLeaves [("name".data, Value.str "Jonathan".data),
        ("birthday".data, Value.obj [("day".data, Value.num 0),
          ("year".data, Value.num 1980)])])).Nodup ∧
    flatten_map [("name".data, Value.str "Jonathan".data),
        ("birthday".data, Value.obj [("day".data, Value.num 0),
          ("year".data, Value.num 1980)])] false =
      specLeaves [("name".data, Value.str "Jonathan".data),
        ("birthday".data, Value.obj [("day".data, Value.num 0),
          ("year".data, Value.num 1980)])] :=
  ⟨by decide, by decide,
    claim_C7 _ false (by decide) (by decide) (by decide) (by decide)⟩

/-! ## Lines of the output and empty-object markers (C8) -/

theorem lines_ne_nil (s : Str) : lines s ≠ [] := by
  induction s with
  | nil => simp [lines]
  | cons c rest ih =>
    rw [show lines (c :: rest) =
        (match lines rest with
          | [] => [[]]
          | l :: ls => if c = '\n' then [] :: l :: ls else (c :: l) :: ls) from rfl]
    cases h : lines rest with
    | nil => simp
    | cons l ls => by_cases hc : c = '\n' <;> simp [hc]

theorem lines_append (a b : Str) : lines (a ++ '\n' :: b) = lines a ++ lines b := by
  induction a with
  | nil =>
    show lines ('\n' :: b) = lines [] ++ lines b
    rw [show lines ('\n' :: b) =
        (match lines b with
          | [] => [[]]
          | l :: ls => if '\n' = '\n' then [] :: l :: ls else ('\n' :: l) :: ls) from rfl]
    cases h : lines b with
    | nil => exact absurd h (lines_ne_nil b)
    | cons l ls => simp [lines]
  | cons c a ih =>
    show lines (c :: (a ++ '\n' :: b)) = lines (c :: a) ++ lines b
    rw [show lines (c :: (a ++ '\n' :: b)) =
        (match lines (a ++ '\n' :: b) with
          | [] => [[]]
          | l :: ls => if c = '\n' then [] :: l :: ls else (c :: l) :: ls) from rfl]
    rw [show lines (c :: a) =
        (match lines a with
          | [] => [[]]
          | l :: ls => if c = '\n' then [] :: l :: ls else (c :: l) :: ls) from rfl]
    cases ha : lines a with
    | nil => exact absurd ha (lines_ne_nil a)
    | cons l ls =>
      rw [ih, ha]
      by_cases hc : c = '\n' <;> simp [hc]

theorem lines_no_newline (s : Str) (h : '\n' ∉ s) : lines s = [s] := by
  induction s with
  | nil => rfl
  | cons c rest ih =>
    have hc : c ≠ '\n' := fun he => h (he ▸ List.mem_cons_self c rest)
    have hrest : '\n' ∉ rest := fun hm => h (List.mem_cons_of_mem c hm)
    rw [show lines (c :: rest) =
        (match lines rest with
          | [] => [[]]
          | l :: ls => if c = '\n' then [] :: l :: ls else (c :: l) :: ls) from rfl]
    rw [ih hrest]
    simp [hc]

theorem line_mem_of_shape (res L tail : Str) (hL : '\n' ∉ L)
    (htail : tail = [] ∨ ∃ t, tail = '\n' :: t) :
    L ∈ lines (res ++ '\n' :: (L ++ tail)) := by
  rw [lines_append]
  rcases htail with h | ⟨t, h⟩
  · subst h
    rw [List.append_nil, lines_no_newline L hL]
    simp
  · subst h
    rw [lines_append, lines_no_newline L hL]
    simp

theorem line_mem_of_shape_head (L tail : Str) (hL : '\n' ∉ L)
    (htail : tail = [] ∨ ∃ t, tail = '\n' :: t) :
    L ∈ lines (L ++ tail) := by
  rcases htail with h | ⟨t, h⟩
  · subst h
    rw [List.append_nil, lines_no_newline L hL]
    simp
  · subst h
    rw [lines_append, lines_no_newline L hL]
    simp

theorem dfs_true_eq_filter :
    ∀ (parent : Option Str) (m : List (Str × Value)),
      dfsFields parent m true =
        (dfsFields parent m false).filter (fun kv => !isEmptyObjB kv.2) := by
  refine specLeavesF.induct
    (fun parent m => dfsFields parent m true =
      (dfsFields parent m false).filter (fun kv => !isEmptyObjB kv.2))
    (fun pf v => dfsVal pf v true =
      (dfsVal pf v false).filter (fun kv => !isEmptyObjB kv.2))
    ?_ ?_ ?_ ?_
  · intro pf src ih
    by_cases he : src.isEmpty = true
    · have hsrc : src = [] := List.isEmpty_iff.mp he
      subst hsrc
      simp [dfsVal, dfsFields, isEmptyObjB]
    · have h1 : (src.isEmpty && !true) = false := by simp
      have h2 : (src.isEmpty && !false) = false := by simp [he]
      simp only [dfsVal, h1, h2, Bool.false_eq_true, if_false]
      exact ih
  · intro pf v hno
    cases v with
    | obj fs => exact absurd rfl (fun he => hno fs he)
    | null => simp [dfsVal, isEmptyObjB]
    | bool b => simp [dfsVal, isEmptyObjB]
    | num n => simp [dfsVal, isEmptyObjB]
    | str s => simp [dfsVal, isEmptyObjB]
    | arr vs => simp [dfsVal, isEmptyObjB]
  · intro parent
    simp [dfsFields]
  · intro parent f v rest pf ihv ihf
    rw [show dfsFields parent ((f, v) :: rest) true =
        dfsVal pf v true ++ dfsFields parent rest true from rfl]
    rw [show dfsFields parent ((f, v) :: rest) false =
        dfsVal pf v false ++ dfsFields parent rest false from rfl]
    rw [List.filter_append, ihv, ihf]

theorem keysOf_foldl_insStep_sub (l : List (Str × Value)) :
    ∀ t q, q ∈ keysOf (l.foldl insStep t) → q ∈ keysOf t ∨ q ∈ keysOf l := by
  induction l with
  | nil => intro t q h; exact .inl h
  | cons kv rest ih =>
    intro t q h
    rcases kv with ⟨k, v⟩
    rw [List.foldl_cons] at h
    rcases ih _ q h with h1 | h1
    · show _ ∨ q ∈ k :: keysOf rest
      rw [show insStep t (k, v) = insertOrd t k v from rfl, keysOf_insertOrd] at h1
      by_cases hk : k ∈ keysOf t
      · rw [if_pos hk] at h1
        exact .inl h1
      · rw [if_neg hk] at h1
        rcases List.mem_append.mp h1 with h2 | h2
        · exact .inl h2
        · exact .inr (by simp at h2; simp [h2])
    · exact .inr (List.mem_cons_of_mem _ h1)

/-! ## Sufficiency of the fuel in `to_string` -/

theorem dfs_size_bound (skip : Bool) :
    ∀ (parent : Option Str) (source : List (Str × Value)),
      ∀ k v, (k, v) ∈ dfsFields parent source skip → sizeV v ≤ sizeF source := by
  have main :
      (∀ (parent : Option Str) (source : List (Str × Value)),
        ∀ k v, (k, v) ∈ dfsFields parent source skip → sizeV v ≤ sizeF source) ∧ True := by
    refine ⟨specLeavesF.induct
      (fun parent source => ∀ k v, (k, v) ∈ dfsFields parent source skip →
        sizeV v ≤ sizeF source)
      (fun pf w => ∀ k v, (k, v) ∈ dfsVal pf w skip → sizeV v ≤ sizeV w + 1)
      ?_ ?_ ?_ ?_, trivial⟩
    · intro pf src ih k v hmem
      by_cases hg : (src.isEmpty && !skip) = true
      · rw [show dfsVal pf (.obj src) skip =
            (if (src.isEmpty && !skip) = true then [(pf, Value.obj [])]
              else dfsFields (some pf) src skip) from by
            simp [dfsVal]] at hmem
        rw [if_pos hg] at hmem
        have : v = Value.obj [] := by
          rcases List.mem_singleton.mp hmem with h
          exact congrArg Prod.snd h
        subst this
        show sizeV (Value.obj []) ≤ sizeV (Value.obj src) + 1
        rw [show sizeV (Value.obj []) = 1 from rfl]
        omega
      · rw [show dfsVal pf (.obj src) skip =
            (if (src.isEmpty && !skip) = true then [(pf, Value.obj [])]
              else dfsFields (some pf) src skip) from by
            simp [dfsVal]] at hmem
        rw [if_neg hg] at hmem
        have h := ih k v hmem
        rw [show sizeV (Value.obj src) = 1 + sizeF src from rfl]
        omega
    · intro pf w hno k v hmem
      have hv : dfsVal pf w skip = [(pf, w)] := by
        cases w with
        | obj fs => exact absurd rfl (fun he => hno fs he)
        | null => rfl
        | bool b => rfl
        | num n => rfl
        | str s => rfl
        | arr vs => rfl
      rw [hv] at hmem
      have : v = w := by
        rcases List.mem_singleton.mp hmem with h
        exact congrArg Prod.snd h
      subst this
      omega
    · intro parent k v hmem
      simp [dfsFields] at hmem
    · intro parent f w rest pf ihv ihf k v hmem
      rw [show dfsFields parent ((f, w) :: rest) skip =
          dfsVal pf w skip ++ dfsFields parent rest skip from rfl] at hmem
      rw [show sizeF ((f, w) :: rest) = 1 + sizeV w + sizeF rest from rfl]
      rcases List.mem_append.mp hmem with h | h
      · have := ihv k v h
        omega
      · have := ihf k v h
        omega
  exact main.1

theorem mem_insertOrd (t : List (Str × Value)) (k0 : Str) (v0 : Value) (k : Str)
    (v : Value) (h : (k, v) ∈ insertOrd t k0 v0) : (k, v) ∈ t ∨ (k, v) = (k0, v0) := by
  rw [insertOrd_eq] at h
  by_cases hm : k0 ∈ keysOf t
  · rw [if_pos hm] at h
    rcases List.mem_map.mp h with ⟨p, hp, he⟩
    by_cases hpk : p.1 = k0
    · rw [if_pos hpk] at he
      exact .inr he.symm
    · rw [if_neg hpk] at he
      exact .inl (he ▸ hp)
  · rw [if_neg hm] at h
    rcases List.mem_append.mp h with h | h
    · exact .inl h
    · exact .inr (List.mem_singleton.mp h)

theorem mem_foldl_insStep (l : List (Str × Value)) :
    ∀ t k v, (k, v) ∈ l.foldl insStep t → (k, v) ∈ t ∨ (k, v) ∈ l := by
  induction l with
  | nil => intro t k v h; exact .inl h
  | cons kv rest ih =>
    intro t k v h
    rw [List.foldl_cons] at h
    rcases ih _ k v h with h1 | h1
    · rcases mem_insertOrd t kv.1 kv.2 k v h1 with h2 | h2
      · exact .inl h2
      · refine .inr (by rw [h2]; exact List.mem_cons_self _ _)
    · exact .inr (List.mem_cons_of_mem _ h1)

theorem mem_flatten_map (m : List (Str × Value)) (skip : Bool) (k : Str) (v : Value)
    (h : (k, v) ∈ flatten_map m skip) : (k, v) ∈ dfsEntries m skip := by
  rw [flatten_map_eq_foldl] at h
  rcases mem_foldl_insStep _ [] k v h with h1 | h1
  · simp at h1
  · exact h1

theorem flatten_size_bound (m : List (Str × Value)) (skip : Bool) (k : Str) (v : Value)
    (h : (k, v) ∈ flatten_map m skip) : sizeV v ≤ sizeF m :=
  dfs_size_bound skip none m k v (mem_flatten_map m skip k v h)

theorem elems2Loop_isSome (render : List (Str × Value) → Options → Option (Except Error Str))
    (opts : Options) (B : Nat)
    (hr : ∀ flds o, sizeF flds + 2 ≤ B → (render flds o).isSome) :
    ∀ vs : List Value, sizeL vs ≤ B → (elems2Loop render opts vs).isSome := by
  intro vs
  induction vs with
  | nil => intro _; simp [elems2Loop]
  | cons v rest ih =>
    intro hb
    have hsz : sizeL (v :: rest) = 1 + sizeV v + sizeL rest := rfl
    have hrest : sizeL rest ≤ B := by omega
    cases v with
    | null => simpa [elems2Loop] using ih hrest
    | bool b =>
      rw [show elems2Loop render opts (Value.bool b :: rest) =
          (elems2Loop render opts rest).map (Except.map fun out => boolStr b :: out)
          from rfl]
      cases hres : elems2Loop render opts rest with
      | none => exact absurd hres (by simpa [Option.isSome_iff_ne_none] using ih hrest)
      | some r => simp
    | num n =>
      rw [show elems2Loop render opts (Value.num n :: rest) =
          (elems2Loop render opts rest).map (Except.map fun out => intToStr n :: out)
          from rfl]
      cases hres : elems2Loop render opts rest with
      | none => exact absurd hres (by simpa [Option.isSome_iff_ne_none] using ih hrest)
      | some r => simp
    | str s =>
      rw [show elems2Loop render opts (Value.str s :: rest) =
          (elems2Loop render opts rest).map
            (Except.map fun out => ('"' :: esc s ++ ['"']) :: out) from rfl]
      cases hres : elems2Loop render opts rest with
      | none => exact absurd hres (by simpa [Option.isSome_iff_ne_none] using ih hrest)
      | some r => simp
    | arr ws =>
      rw [show elems2Loop render opts (Value.arr ws :: rest) =
          some (.error .tripleNestedArray) from rfl]
      simp
    | obj flds =>
      have hflds : sizeF flds + 2 ≤ B := by
        have : sizeV (Value.obj flds) = 1 + sizeF flds := rfl
        omega
      have hrend := hr flds { opts with inline_array := true } hflds
      rw [show elems2Loop render opts (Value.obj flds :: rest) =
          (match render flds { opts with inline_array := true } with
            | none => none
            | some (.error e) => some (.error e)
            | some (.ok sub) =>
              (elems2Loop render opts rest).map
                (Except.map fun out => surgery sub :: out)) from rfl]
      cases hres : render flds { opts with inline_array := true } with
      | none => exact absurd hres (by simpa [Option.isSome_iff_ne_none] using hrend)
      | some r =>
        cases r with
        | error e => simp
        | ok sub =>
          cases hres2 : elems2Loop render opts rest with
          | none => exact absurd hres2 (by simpa [Option.isSome_iff_ne_none] using ih hrest)
          | some r2 => simp

theorem elemsLoop_isSome (render : List (Str × Value) → Options → Option (Except Error Str))
    (opts : Options) (B : Nat)
    (hr : ∀ flds o, sizeF flds + 2 ≤ B → (render flds o).isSome) :
    ∀ vs : List Value, sizeL vs ≤ B → (elemsLoop render opts vs).isSome := by
  intro vs
  induction vs with
  | nil => intro _; simp [elemsLoop]
  | cons v rest ih =>
    intro hb
    have hsz : sizeL (v :: rest) = 1 + sizeV v + sizeL rest := rfl
    have hrest : sizeL rest ≤ B := by omega
    have ihs := ih hrest
    cases v with
    | null => simpa [elemsLoop] using ihs
    | bool b => simp only [elemsLoop]; simpa using ihs
    | num n => simp only [elemsLoop]; simpa using ihs
    | str s =>
      simp only [elemsLoop]
      by_cases hskip : (opts.skip_empty_string && s.isEmpty) = true
      · simpa [hskip] using ihs
      · simp only [hskip, Bool.false_eq_true, if_false]
        simpa using ihs
    | arr ws =>
      have hws : sizeL ws ≤ B := by
        have : sizeV (Value.arr ws) = 1 + sizeL ws := rfl
        omega
      have h2 := elems2Loop_isSome render opts B hr ws hws
      simp only [elemsLoop]
      cases hres : elems2Loop render opts ws with
      | none => exact absurd hres (by simpa [Option.isSome_iff_ne_none] using h2)
      | some r =>
        cases r with
        | error e => simp
        | ok out => simpa using ihs
    | obj flds =>
      have hflds : sizeF flds + 2 ≤ B := by
        have : sizeV (Value.obj flds) = 1 + sizeF flds := rfl
        omega
      have hrend := hr flds { opts with inline_array := true } hflds
      simp only [elemsLoop]
      cases hres : render flds { opts with inline_array := true } with
      | none => exact absurd hres (by simpa [Option.isSome_iff_ne_none] using hrend)
      | some r =>
        cases r with
        | error e => simp
        | ok sub => simpa using ihs

theorem renderEntry_isSome (render : List (Str × Value) → Options → Option (Except Error Str))
    (opts : Options) (B : Nat)
    (hr : ∀ flds o, sizeF flds + 2 ≤ B → (render flds o).isSome)
    (k : Str) (v : Value) (hv : sizeV v ≤ B) :
    (renderEntry render opts k v).isSome := by
  cases v with
  | null => simp [renderEntry]
  | bool b => simp [renderEntry]
  | num n => simp [renderEntry]
  | str s =>
    simp only [renderEntry]
    by_cases hskip : (opts.skip_empty_string && s.isEmpty) = true
    · simp [hskip]
    · simp only [hskip, Bool.false_eq_true, if_false]
      split <;> simp
  | arr vs =>
    have hvs : sizeL vs ≤ B := by
      have : sizeV (Value.arr vs) = 1 + sizeL vs := rfl
      omega
    have hel := elemsLoop_isSome render opts B hr vs hvs
    simp only [renderEntry]
    by_cases hemp : vs.isEmpty = true
    · simp [hemp]
    · simp only [hemp, Bool.false_eq_true, if_false]
      cases hres : elemsLoop render opts vs with
      | none => exact absurd hres (by simpa [Option.isSome_iff_ne_none] using hel)
      | some r =>
        cases r with
        | error e => simp
        | ok strs =>
          by_cases hin : (opts.inline_array ||
              decide (strs.foldl (fun t c => t + byteLen c) 0 ≤
                opts.max_inline_array_length)) = true
          · simp [hin]
          · simp [hin]
  | obj flds =>
    simp only [renderEntry]
    by_cases hg : (!opts.skip_empty_object && flds.isEmpty) = true
    · simp [hg]
    · simp [hg]

theorem entriesLoop_isSome (render : List (Str × Value) → Options → Option (Except Error Str))
    (opts : Options) (B : Nat)
    (hr : ∀ flds o, sizeF flds + 2 ≤ B → (render flds o).isSome) :
    ∀ (kvs : List (Str × Value)) (i : Nat) (res : Str),
      (∀ kv ∈ kvs, sizeV kv.2 ≤ B) → (entriesLoop render opts kvs i res).isSome := by
  intro kvs
  induction kvs with
  | nil => intro i res _; simp [entriesLoop]
  | cons kv rest ih =>
    intro i res hall
    rcases kv with ⟨k, v⟩
    have hv : sizeV v ≤ B := hall (k, v) (List.mem_cons_self _ _)
    have hrest : ∀ kv ∈ rest, sizeV kv.2 ≤ B :=
      fun kv hkv => hall kv (List.mem_cons_of_mem _ hkv)
    have hre := renderEntry_isSome render opts B hr k v hv
    simp only [entriesLoop]
    cases hres : renderEntry render opts k v with
    | none => exact absurd hres (by simpa [Option.isSome_iff_ne_none] using hre)
    | some r =>
      cases r with
      | error e => simp
      | ok piece =>
        cases piece with
        | none => exact ih (i + 1) res hrest
        | some text => exact ih (i + 1) _ hrest

theorem toStringFuel_isSome :
    ∀ (fuel : Nat) (m : List (Str × Value)) (opts : Options),
      sizeF m < fuel → (toStringFuel fuel m opts).isSome := by
  intro fuel
  induction fuel with
  | zero => intro m opts h; omega
  | succ f ih =>
    intro m opts h
    rw [show toStringFuel (f + 1) m opts =
        entriesLoop (fun flds o => toStringFuel f flds o) opts
          (flatten_map m opts.skip_empty_object) 0 [] from rfl]
    refine entriesLoop_isSome _ opts (sizeF m) ?_ _ 0 [] ?_
    · intro flds o hsz
      exact ih flds o (by omega)
    · intro kv hkv
      exact flatten_size_bound m opts.skip_empty_object kv.1 kv.2 hkv

theorem to_string_eq_fuel (m : List (Str × Value)) (opts : Options) :
    toStringFuel (sizeF m + 1) m opts = some (to_string m opts) := by
  have h := toStringFuel_isSome (sizeF m + 1) m opts (by omega)
  obtain ⟨r, hr⟩ := Option.isSome_iff_exists.mp h
  rw [to_string, hr]
  rfl

theorem to_string_eq_loop (m : List (Str × Value)) (opts : Options) :
    entriesLoop (fun flds o => toStringFuel (sizeF m) flds o) opts
      (flatten_map m opts.skip_empty_object) 0 [] = some (to_string m opts) := by
  have h := to_string_eq_fuel m opts
  rw [show toStringFuel (sizeF m + 1) m opts =
      entriesLoop (fun flds o => toStringFuel (sizeF m) flds o) opts
        (flatten_map m opts.skip_empty_object) 0 [] from rfl] at h
  exact h

theorem entriesLoop_grow
    (render : List (Str × Value) → Options → Option (Except Error Str))
    (opts : Options) :
    ∀ (kvs : List (Str × Value)) (i : Nat) (res out : Str), 1 ≤ i →
      entriesLoop render opts kvs i res = some (.ok out) →
      out = res ∨ ∃ t, out = res ++ '\n' :: t := by
  intro kvs
  induction kvs with
  | nil =>
    intro i res out _ h
    simp only [entriesLoop, Option.some.injEq, Except.ok.injEq] at h
    exact .inl h.symm
  | cons kv rest ih =>
    intro i res out hi h
    rcases kv with ⟨k, v⟩
    simp only [entriesLoop] at h
    cases hres : renderEntry render opts k v with
    | none => rw [hres] at h; exact absurd h (by simp)
    | some r =>
      rw [hres] at h
      cases r with
      | error e => exact absurd h (by simp)
      | ok piece =>
        cases piece with
        | none => exact ih (i + 1) res out (by omega) h
        | some text =>
          have hne : i ≠ 0 := by omega
          simp only [hne, ne_eq, not_false_iff, if_true] at h
          rcases ih (i + 1) _ out (by omega) h with h1 | ⟨t, h1⟩
          · right
            exact ⟨text, by rw [h1]; simp⟩
          · right
            refine ⟨text ++ '\n' :: t, ?_⟩
            rw [h1]
            simp

theorem entriesLoop_marker_line
    (render : List (Str × Value) → Options → Option (Except Error Str))
    (opts : Options) (hskip : opts.skip_empty_object = false)
    (p : Str) (hp : '\n' ∉ p) :
    ∀ (kvs : List (Str × Value)) (i : Nat) (res out : Str),
      (i = 0 → res = []) → (p, Value.obj []) ∈ kvs →
      entriesLoop render opts kvs i res = some (.ok out) →
      (p ++ " = {}".data) ∈ lines out := by
  have hLnl : '\n' ∉ p ++ " = {}".data := by
    intro hin
    rcases List.mem_append.mp hin with h | h
    · exact hp h
    · revert h
      decide
  intro kvs
  induction kvs with
  | nil => intro i res out _ hmem _; simp at hmem
  | cons kv rest ih =>
    intro i res out hres0 hmem h
    rcases kv with ⟨k, v⟩
    rcases List.mem_cons.mp hmem with heq | hmem'
    · injection heq with h1 h2
      subst h1
      subst h2
      have hrend : renderEntry render opts p (Value.obj []) =
          some (.ok (some (p ++ " = {}".data))) := by
        simp [renderEntry, hskip]
      simp only [entriesLoop, hrend] at h
      by_cases hi : i = 0
      · subst hi
        have hres : res = [] := hres0 rfl
        subst hres
        simp only [ne_eq, not_true_eq_false, if_false, List.nil_append] at h
        rcases entriesLoop_grow render opts rest _ _ out (by omega) h with
          h1 | ⟨t, h1⟩
        · subst h1
          simpa using line_mem_of_shape_head (p ++ " = {}".data) [] hLnl (.inl rfl)
        · subst h1
          simpa using
            line_mem_of_shape_head (p ++ " = {}".data) ('\n' :: t) hLnl (.inr ⟨t, rfl⟩)
      · simp only [hi, ne_eq, not_false_iff, if_true] at h
        rcases entriesLoop_grow render opts rest _ _ out (by omega) h with
          h1 | ⟨t, h1⟩
        · subst h1
          simpa using line_mem_of_shape res (p ++ " = {}".data) [] hLnl (.inl rfl)
        · subst h1
          simpa using
            line_mem_of_shape res (p ++ " = {}".data) ('\n' :: t) hLnl (.inr ⟨t, rfl⟩)
    · simp only [entriesLoop] at h
      cases hres : renderEntry render opts k v with
      | none => rw [hres] at h; exact absurd h (by simp)
      | some r =>
        rw [hres] at h
        cases r with
        | error e => exact absurd h (by simp)
        | ok piece =>
          cases piece with
          | none => exact ih (i + 1) res out (by omega) hmem' h
          | some text => exact ih (i + 1) _ out (by omega) hmem' h

theorem nodup_keys_val_inj (l : List (Str × Value)) (hnodup : (keysOf l).Nodup)
    (p : Str) (a b : Value) (ha : (p, a) ∈ l) (hb : (p, b) ∈ l) : a = b := by
  induction l with
  | nil => simp at ha
  | cons kv rest ih =>
    have hkeys : keysOf (kv :: rest) = kv.1 :: keysOf rest := rfl
    rw [hkeys] at hnodup
    have hnotin := (List.nodup_cons.mp hnodup).1
    have hrest := (List.nodup_cons.mp hnodup).2
    rcases List.mem_cons.mp ha with ha1 | ha1 <;> rcases List.mem_cons.mp hb with hb1 | hb1
    · rw [← ha1] at hb1
      injection hb1 with _ h
      exact h.symm
    · exfalso
      apply hnotin
      rw [← ha1]
      exact List.mem_map.mpr ⟨(p, b), hb1, rfl⟩
    · exfalso
      apply hnotin
      rw [← hb1]
      exact List.mem_map.mpr ⟨(p, a), ha1, rfl⟩
    · exact ih hrest ha1 hb1

/-- C8 counterexample: the input `{"a": {"b": {}}, "a.b": 5}` has an
originally-empty nested object at dotted path `a.b` and
`skip_empty_object` is off, yet no `a.b = {}` line is emitted: the
later leaf `"a.b": 5` overwrites the empty-object marker in the
flattened mapping, so the output is just `a.b = 5`. -/
theorem claim_C8_counterexample :
    Options.default.skip_empty_object = false ∧
    ("a.b".data, Value.obj []) ∈
      dfsEntries [("a".data, Value.obj [("b".data, Value.obj [])]),
        ("a.b".data, Value.num 5)] false ∧
    to_string [("a".data, Value.obj [("b".data, Value.obj [])]),
        ("a.b".data, Value.num 5)] Options.default = .ok "a.b = 5".data ∧
    ("a.b = {}".data ∈ lines "a.b = 5".data → False) := by
  refine ⟨rfl, ?_, rfl, by decide⟩
  rw [show dfsEntries [("a".data, Value.obj [("b".data, Value.obj [])]),
      ("a.b".data, Value.num 5)] false =
    [("a.b".data, Value.obj []), ("a.b".data, Value.num 5)] from rfl]
  exact List.Mem.head _

/-- C8 (amended): assume the depth-first dotted paths of the input are
pairwise distinct (without this, a colliding leaf can overwrite the
empty-object marker — see the counterexample) and consider an
originally-empty nested object at a dotted path `p` that contains no
newline character.  When `skip_empty_object` is false, every successful
`to_string` output contains the line `p = {}`; when `skip_empty_object`
is true, the key `p` is absent from the flattened mapping altogether,
so no entry is emitted for it. -/
theorem claim_C8 (m : List (Str × Value)) (opts : Options) (p : Str)
    (hnodup : (keysOf (dfsEntries m false)).Nodup)
    (hmem : (p, Value.obj []) ∈ dfsEntries m false)
    (hp : '\n' ∉ p) :
    (opts.skip_empty_object = false → ∀ out, to_string m opts = .ok out →
      (p ++ " = {}".data) ∈ lines out) ∧
    (opts.skip_empty_object = true → p ∉ keysOf (flatten_map m true)) := by
  constructor
  · intro hskip out hout
    have hflat : flatten_map m false = dfsEntries m false := by
      rw [flatten_map_eq_foldl]
      have h := foldl_insStep_all_new (dfsEntries m false) [] (by simp [keysOf]) hnodup
      simpa using h
    have hloop := to_string_eq_loop m opts
    rw [hskip, hflat, hout] at hloop
    exact entriesLoop_marker_line _ opts hskip p hp (dfsEntries m false) 0 [] out
      (fun _ => rfl) hmem hloop
  · intro _ hin
    have hex : ∃ v, (p, v) ∈ flatten_map m true := by
      rcases List.mem_map.mp hin with ⟨kv, hkv, he⟩
      exact ⟨kv.2, by rwa [show (p, kv.2) = kv from by rw [← he]] ⟩
    obtain ⟨v, hv⟩ := hex
    have hd : (p, v) ∈ dfsEntries m true := mem_flatten_map m true p v hv
    have hfil : (p, v) ∈ (dfsEntries m false).filter (fun kv => !isEmptyObjB kv.2) := by
      rwa [show dfsEntries m true =
        (dfsEntries m false).filter (fun kv => !isEmptyObjB kv.2) from
        dfs_true_eq_filter none m] at hd
    have hvmem : (p, v) ∈ dfsEntries m false := List.mem_of_mem_filter hfil
    have hvne : isEmptyObjB v = false := by
      have := List.of_mem_filter hfil
      simpa using this
    have heq : Value.obj [] = v := nodup_keys_val_inj _ hnodup p _ _ hmem hvmem
    rw [← heq] at hvne
    simp [isEmptyObjB] at hvne

/-- Witness for C8 at a concrete input with an empty nested object. -/
theorem claim_C8_witness :
    (keysOf (dfsEntries [("a".data, Value.obj [("b".data, Value.obj [])]),
        ("c".data, Value.num 1)] false)).Nodup ∧
    ("a.b = {}".data ∈ lines "a.b = {}\nc = 1".data) ∧
    "a.b".data ∉ keysOf (flatten_map [("a".data, Value.obj [("b".data, Value.obj [])]),
        ("c".data, Value.num 1)] true) :=
  ⟨by decide,
    (claim_C8 [("a".data, Value.obj [("b".data, Value.obj [])]),
        ("c".data, Value.num 1)] Options.default "a.b".data
      (by decide)
      (by rw [show dfsEntries [("a".data, Value.obj [("b".data, Value.obj [])]),
            ("c".data, Value.num 1)] false =
          [("a.b".data, Value.obj []), ("c".data, Value.num 1)] from rfl]
          exact List.Mem.head _)
      (by decide)).1 rfl "a.b = {}\nc = 1".data rfl,
    (claim_C8 [("a".data, Value.obj [("b".data, Value.obj [])]),
        ("c".data, Value.num 1)]
      { Options.default with skip_empty_object := true } "a.b".data
      (by decide)
      (by rw [show dfsEntries [("a".data, Value.obj [("b".data, Value.obj [])]),
            ("c".data, Value.num 1)] false =
          [("a.b".data, Value.obj []), ("c".data, Value.num 1)] from rfl]
          exact List.Mem.head _)
      (by decide)).2 rfl⟩

/-! ## The `ObjectReached` branch is unreachable (C9) -/

theorem dfs_obj_empty (skip : Bool) :
    ∀ (parent : Option Str) (m : List (Str × Value)),
      ∀ k v, (k, v) ∈ dfsFields parent m skip →
        ∀ fs, v = Value.obj fs → fs = [] ∧ skip = false := by
  refine specLeavesF.induct
    (fun parent m => ∀ k v, (k, v) ∈ dfsFields parent m skip →
      ∀ fs, v = Value.obj fs → fs = [] ∧ skip = false)
    (fun pf w => ∀ k v, (k, v) ∈ dfsVal pf w skip →
      ∀ fs, v = Value.obj fs → fs = [] ∧ skip = false)
    ?_ ?_ ?_ ?_
  · intro pf src ih k v hmem fs he
    rw [show dfsVal pf (.obj src) skip =
        (if (src.isEmpty && !skip) = true then [(pf, Value.obj [])]
          else dfsFields (some pf) src skip) from by simp [dfsVal]] at hmem
    by_cases hg : (src.isEmpty && !skip) = true
    · rw [if_pos hg] at hmem
      have hv : v = Value.obj [] := congrArg Prod.snd (List.mem_singleton.mp hmem)
      rw [hv] at he
      injection he with h1
      refine ⟨h1.symm, ?_⟩
      have h2 : src.isEmpty = true ∧ skip = false := by simpa using hg
      exact h2.2
    · rw [if_neg hg] at hmem
      exact ih k v hmem fs he
  · intro pf w hno k v hmem fs he
    have hv : dfsVal pf w skip = [(pf, w)] := by
      cases w with
      | obj gs => exact absurd rfl (fun h2 => hno gs h2)
      | null => rfl
      | bool b => rfl
      | num n => rfl
      | str s => rfl
      | arr vs => rfl
    rw [hv] at hmem
    have : v = w := congrArg Prod.snd (List.mem_singleton.mp hmem)
    subst this
    exact absurd he (fun h2 => hno fs h2)
  · intro parent k v hmem
    simp [dfsFields] at hmem
  · intro parent f w rest pf ihv ihf k v hmem fs he
    rw [show dfsFields parent ((f, w) :: rest) skip =
        dfsVal pf w skip ++ dfsFields parent rest skip from rfl] at hmem
    rcases List.mem_append.mp hmem with h | h
    · exact ihv k v h fs he
    · exact ihf k v h fs he

theorem flatten_obj_empty (m : List (Str × Value)) (skip : Bool) (k : Str) (v : Value)
    (h : (k, v) ∈ flatten_map m skip) (fs : List (Str × Value)) (he : v = Value.obj fs) :
    fs = [] ∧ skip = false :=
  dfs_obj_empty skip none m k v (mem_flatten_map m skip k v h) fs he

theorem noObjErr_map {α β : Type} (f : α → β) (x : Option (Except Error α))
    (h : noObjErr x) : noObjErr (x.map (Except.map f)) := by
  cases x with
  | none => trivial
  | some r =>
    cases r with
    | ok a => trivial
    | error e =>
      cases e with
      | tripleNestedArray => trivial
      | objectReached => exact h

theorem elems2Loop_no_objerr
    (render : List (Str × Value) → Options → Option (Except Error Str))
    (opts : Options)
    (hr : ∀ flds o, noObjErr (render flds o)) :
    ∀ vs : List Value, noObjErr (elems2Loop render opts vs) := by
  intro vs
  induction vs with
  | nil => trivial
  | cons v rest ih =>
    cases v with
    | null => simpa [elems2Loop] using ih
    | bool b =>
      rw [show elems2Loop render opts (Value.bool b :: rest) =
          (elems2Loop render opts rest).map (Except.map fun out => boolStr b :: out)
          from rfl]
      exact noObjErr_map _ _ ih
    | num n =>
      rw [show elems2Loop render opts (Value.num n :: rest) =
          (elems2Loop render opts rest).map (Except.map fun out => intToStr n :: out)
          from rfl]
      exact noObjErr_map _ _ ih
    | str s =>
      rw [show elems2Loop render opts (Value.str s :: rest) =
          (elems2Loop render opts rest).map
            (Except.map fun out => ('"' :: esc s ++ ['"']) :: out) from rfl]
      exact noObjErr_map _ _ ih
    | arr ws =>
      rw [show elems2Loop render opts (Value.arr ws :: rest) =
          some (.error .tripleNestedArray) from rfl]
      trivial
    | obj flds =>
      rw [show elems2Loop render opts (Value.obj flds :: rest) =
          (match render flds { opts with inline_array := true } with
            | none => none
            | some (.error e) => some (.error e)
            | some (.ok sub) =>
              (elems2Loop render opts rest).map
                (Except.map fun out => surgery sub :: out)) from rfl]
      cases hres : render flds { opts with inline_array := true } with
      | none => trivial
      | some r =>
        cases r with
        | error e =>
          have := hr flds { opts with inline_array := true }
          rw [hres] at this
          cases e with
          | tripleNestedArray => trivial
          | objectReached => exact this
        | ok sub => exact noObjErr_map _ _ ih

theorem elemsLoop_no_objerr
    (render : List (Str × Value) → Options → Option (Except Error Str))
    (opts : Options)
    (hr : ∀ flds o, noObjErr (render flds o)) :
    ∀ vs : List Value, noObjErr (elemsLoop render opts vs) := by
  intro vs
  induction vs with
  | nil => trivial
  | cons v rest ih =>
    cases v with
    | null => simpa [elemsLoop] using ih
    | bool b =>
      rw [show elemsLoop render opts (Value.bool b :: rest) =
          (elemsLoop render opts rest).map (Except.map fun strs => boolStr b :: strs)
          from rfl]
      exact noObjErr_map _ _ ih
    | num n =>
      rw [show elemsLoop render opts (Value.num n :: rest) =
          (elemsLoop render opts rest).map (Except.map fun strs => intToStr n :: strs)
          from rfl]
      exact noObjErr_map _ _ ih
    | str s =>
      rw [show elemsLoop render opts (Value.str s :: rest) =
          (if opts.skip_empty_string && s.isEmpty then elemsLoop render opts rest
            else (elemsLoop render opts rest).map
              (Except.map fun strs => ('"' :: esc s ++ ['"']) :: strs)) from by
        simp [elemsLoop]]
      by_cases hskip : (opts.skip_empty_string && s.isEmpty) = true
      · simpa [hskip] using ih
      · rw [if_neg (by simp [hskip])]
        exact noObjErr_map _ _ ih
    | arr ws =>
      rw [show elemsLoop render opts (Value.arr ws :: rest) =
          (match elems2Loop render opts ws with
            | none => none
            | some (.error e) => some (.error e)
            | some (.ok out) =>
              (elemsLoop render opts rest).map
                (Except.map fun strs =>
                  ('[' :: List.intercalate ", ".data out ++ [']']) :: strs)) from rfl]
      cases hres : elems2Loop render opts ws with
      | none => trivial
      | some r =>
        cases r with
        | error e =>
          have := elems2Loop_no_objerr render opts hr ws
          rw [hres] at this
          cases e with
          | tripleNestedArray => trivial
          | objectReached => exact this
        | ok out => exact noObjErr_map _ _ ih
    | obj flds =>
      rw [show elemsLoop render opts (Value.obj flds :: rest) =
          (match render flds { opts with inline_array := true } with
            | none => none
            | some (.error e) => some (.error e)
            | some (.ok sub) =>
              (elemsLoop render opts rest).map
                (Except.map fun strs => surgery sub :: strs)) from rfl]
      cases hres : render flds { opts with inline_array := true } with
      | none => trivial
      | some r =>
        cases r with
        | error e =>
          have := hr flds { opts with inline_array := true }
          rw [hres] at this
          cases e with
          | tripleNestedArray => trivial
          | objectReached => exact this
        | ok sub => exact noObjErr_map _ _ ih

theorem renderEntry_no_objerr
    (render : List (Str × Value) → Options → Option (Except Error Str))
    (opts : Options)
    (hr : ∀ flds o, noObjErr (render flds o)) (k : Str) (v : Value)
    (hobj : ∀ fs, v = Value.obj fs → fs = [] ∧ opts.skip_empty_object = false) :
    noObjErr (renderEntry render opts k v) := by
  cases v with
  | null => trivial
  | bool b => trivial
  | num n => trivial
  | str s =>
    rw [show renderEntry render opts k (Value.str s) =
        (if opts.skip_empty_string && s.isEmpty then some (.ok none)
          else if s.contains '\n' then
            some (.ok (some (k ++ " = \"\"\"\n".data ++ s ++ "\"\"\"".data)))
          else some (.ok (some (k ++ " = \"".data ++ esc s ++ ['"'])))) from by
      simp [renderEntry]]
    split
    · trivial
    · split <;> trivial
  | arr vs =>
    rw [show renderEntry render opts k (Value.arr vs) =
        (if vs.isEmpty then some (.ok (some (k ++ " = []".data)))
          else
            match elemsLoop render opts vs with
            | none => none
            | some (.error e) => some (.error e)
            | some (.ok strs) =>
              let total := strs.foldl (fun t c => t + byteLen c) 0
              if opts.inline_array || decide (total ≤ opts.max_inline_array_length) then
                some (.ok (some (k ++ " = [".data ++
                  List.intercalate ", ".data strs ++ [']'])))
              else
                some (.ok (some (k ++ " = [\n".data ++ opts.tab ++
                  List.intercalate (",\n".data ++ opts.tab) strs ++ "\n]".data)))) from by
      simp [renderEntry]]
    split
    · trivial
    · cases hres : elemsLoop render opts vs with
      | none => trivial
      | some r =>
        cases r with
        | error e =>
          have := elemsLoop_no_objerr render opts hr vs
          rw [hres] at this
          cases e with
          | tripleNestedArray => trivial
          | objectReached => exact this
        | ok strs =>
          show noObjErr (if _ then _ else _)
          split <;> trivial
  | obj fs =>
    have h := hobj fs rfl
    rw [show renderEntry render opts k (Value.obj fs) =
        (if !opts.skip_empty_object && fs.isEmpty then
          some (.ok (some (k ++ " = {}".data)))
        else some (.error .objectReached)) from by simp [renderEntry]]
    rw [if_pos (by simp [h.1, h.2])]
    trivial

theorem entriesLoop_no_objerr
    (render : List (Str × Value) → Options → Option (Except Error Str))
    (opts : Options)
    (hr : ∀ flds o, noObjErr (render flds o)) :
    ∀ (kvs : List (Str × Value)) (i : Nat) (res : Str),
      (∀ kv ∈ kvs, ∀ fs, kv.2 = Value.obj fs → fs = [] ∧ opts.skip_empty_object = false) →
      noObjErr (entriesLoop render opts kvs i res) := by
  intro kvs
  induction kvs with
  | nil => intro i res _; trivial
  | cons kv rest ih =>
    intro i res hall
    rcases kv with ⟨k, v⟩
    have hhead := hall (k, v) (List.mem_cons_self _ _)
    have hrest := fun kv hkv => hall kv (List.mem_cons_of_mem _ hkv)
    have hre := renderEntry_no_objerr render opts hr k v hhead
    simp only [entriesLoop]
    cases hres : renderEntry render opts k v with
    | none => trivial
    | some r =>
      rw [hres] at hre
      cases r with
      | error e =>
        cases e with
        | tripleNestedArray => trivial
        | objectReached => exact hre
      | ok piece =>
        cases piece with
        | none => exact ih (i + 1) res hrest
        | some text => exact ih (i + 1) _ hrest

theorem toStringFuel_no_objerr :
    ∀ (fuel : Nat) (m : List (Str × Value)) (opts : Options),
      noObjErr (toStringFuel fuel m opts) := by
  intro fuel
  induction fuel with
  | zero => intro m opts; trivial
  | succ f ih =>
    intro m opts
    rw [show toStringFuel (f + 1) m opts =
        entriesLoop (fun flds o => toStringFuel f flds o) opts
          (flatten_map m opts.skip_empty_object) 0 [] from rfl]
    refine entriesLoop_no_objerr _ opts (fun flds o => ih flds o) _ 0 [] ?_
    intro kv hkv fs he
    exact flatten_obj_empty m opts.skip_empty_object kv.1 kv.2 hkv fs he

/-- C9: `to_string` never returns the `ObjectReached` error, because
every `Object` value present in the mapping produced by `flatten_map`
is an empty object, inserted only when `skip_empty_object` is false,
so the formatter's non-empty-object branch is unreachable through the
public entry point. -/
theorem claim_C9 (m : List (Str × Value)) (opts : Options) :
    to_string m opts ≠ .error .objectReached ∧
    (∀ k v, (k, v) ∈ flatten_map m opts.skip_empty_object →
      ∀ fs, v = Value.obj fs → fs = [] ∧ opts.skip_empty_object = false) := by
  refine ⟨?_, fun k v hkv fs he =>
    flatten_obj_empty m opts.skip_empty_object k v hkv fs he⟩
  intro hcontra
  have h := toStringFuel_no_objerr (sizeF m + 1) m opts
  rw [to_string_eq_fuel m opts, hcontra] at h
  exact h

/-! ## Triple-nested arrays (C5): locating chains in the tree -/

theorem anyF_of_mem (p : Value → Bool) (fs : List (Str × Value)) (k : Str) (w : Value)
    (hmem : (k, w) ∈ fs) (hw : anyV p w = true) : anyF p fs = true := by
  induction fs with
  | nil => simp at hmem
  | cons kv rest ih =>
    rcases List.mem_cons.mp hmem with h | h
    · rcases kv with ⟨k0, v0⟩
      injection h with h1 h2
      rw [show anyF p ((k0, v0) :: rest) = (anyV p v0 || anyF p rest) from rfl]
      rw [← h2, hw]
      simp
    · rcases kv with ⟨k0, v0⟩
      rw [show anyF p ((k0, v0) :: rest) = (anyV p v0 || anyF p rest) from rfl]
      rw [ih h]
      simp

theorem anyL_of_mem (p : Value → Bool) (vs : List Value) (w : Value)
    (hmem : w ∈ vs) (hw : anyV p w = true) : anyL p vs = true := by
  induction vs with
  | nil => simp at hmem
  | cons v rest ih =>
    rcases List.mem_cons.mp hmem with h | h
    · rw [show anyL p (v :: rest) = (anyV p v || anyL p rest) from rfl, ← h, hw]
      simp
    · rw [show anyL p (v :: rest) = (anyV p v || anyL p rest) from rfl, ih h]
      simp

theorem anyV_of_subval (p : Value → Bool) (v w : Value) (hsub : SubVal v w)
    (hv : anyV p v = true) : anyV p w = true := by
  induction hsub with
  | refl => exact hv
  | inObj k w fs hmem _ ih =>
    have h1 := anyF_of_mem p fs k w hmem ih
    rw [show anyV p (Value.obj fs) = (p (Value.obj fs) || anyF p fs) from rfl, h1]
    simp

theorem dfs_subval (skip : Bool) :
    ∀ (parent : Option Str) (m : List (Str × Value)),
      ∀ k v, (k, v) ∈ dfsFields parent m skip →
        v = Value.obj [] ∨ ∃ kk w, (kk, w) ∈ m ∧ SubVal v w := by
  refine specLeavesF.induct
    (fun parent m => ∀ k v, (k, v) ∈ dfsFields parent m skip →
      v = Value.obj [] ∨ ∃ kk w, (kk, w) ∈ m ∧ SubVal v w)
    (fun pf w => ∀ k v, (k, v) ∈ dfsVal pf w skip →
      v = Value.obj [] ∨ SubVal v w)
    ?_ ?_ ?_ ?_
  · intro pf src ih k v hmem
    rw [show dfsVal pf (.obj src) skip =
        (if (src.isEmpty && !skip) = true then [(pf, Value.obj [])]
          else dfsFields (some pf) src skip) from by simp [dfsVal]] at hmem
    by_cases hg : (src.isEmpty && !skip) = true
    · rw [if_pos hg] at hmem
      exact .inl (congrArg Prod.snd (List.mem_singleton.mp hmem))
    · rw [if_neg hg] at hmem
      rcases ih k v hmem with h | ⟨kk, w, hw, hsub⟩
      · exact .inl h
      · exact .inr (SubVal.inObj v kk w src hw hsub)
  · intro pf w hno k v hmem
    have hv : dfsVal pf w skip = [(pf, w)] := by
      cases w with
      | obj gs => exact absurd rfl (fun h2 => hno gs h2)
      | null => rfl
      | bool b => rfl
      | num n => rfl
      | str s => rfl
      | arr vs => rfl
    rw [hv] at hmem
    have : v = w := congrArg Prod.snd (List.mem_singleton.mp hmem)
    exact .inr (this ▸ SubVal.refl v)
  · intro parent k v hmem
    simp [dfsFields] at hmem
  · intro parent f w rest pf ihv ihf k v hmem
    rw [show dfsFields parent ((f, w) :: rest) skip =
        dfsVal pf w skip ++ dfsFields parent rest skip from rfl] at hmem
    rcases List.mem_append.mp hmem with h | h
    · rcases ihv k v h with h1 | h1
      · exact .inl h1
      · exact .inr ⟨f, w, List.mem_cons_self _ _, h1⟩
    · rcases ihf k v h with h1 | ⟨kk, w', hw, hsub⟩
      · exact .inl h1
      · exact .inr ⟨kk, w', List.mem_cons_of_mem _ hw, hsub⟩

theorem flat_value_triple_to_map (m : List (Str × Value)) (skip : Bool) (k : Str)
    (v : Value) (hmem : (k, v) ∈ flatten_map m skip)
    (hv : anyV tripleHead v = true) : mapHasTriple m = true := by
  rcases dfs_subval skip none m k v (mem_flatten_map m skip k v hmem) with h | ⟨kk, w, hw, hsub⟩
  · subst h
    simp [anyV, anyF, tripleHead] at hv
  · exact anyF_of_mem tripleHead m kk w hw (anyV_of_subval tripleHead v w hsub hv)

theorem map_err_inv {α β : Type} (f : α → β) (x : Option (Except Error α)) (e : Error)
    (h : x.map (Except.map f) = some (.error e)) : x = some (.error e) := by
  cases x with
  | none => simp at h
  | some r =>
    cases r with
    | ok a => simp [Except.map] at h
    | error e2 =>
      have : e2 = e := by simpa [Except.map] using h
      rw [this]

theorem elems2Loop_err
    (render : List (Str × Value) → Options → Option (Except Error Str))
    (opts : Options) :
    ∀ (ws : List Value) (e : Error), elems2Loop render opts ws = some (.error e) →
      ∃ v ∈ ws, (∃ flds, v = Value.obj flds ∧
          render flds { opts with inline_array := true } = some (.error e)) ∨
        (∃ ts, v = Value.arr ts ∧ e = .tripleNestedArray) := by
  intro ws
  induction ws with
  | nil => intro e h; simp [elems2Loop] at h
  | cons v rest ih =>
    intro e h
    have tail : elems2Loop render opts rest = some (.error e) →
        ∃ v2 ∈ v :: rest, (∃ flds, v2 = Value.obj flds ∧
            render flds { opts with inline_array := true } = some (.error e)) ∨
          (∃ ts, v2 = Value.arr ts ∧ e = .tripleNestedArray) := by
      intro h2
      rcases ih e h2 with ⟨v2, hv2, hc⟩
      exact ⟨v2, List.mem_cons_of_mem _ hv2, hc⟩
    cases v with
    | null => exact tail (by simpa [elems2Loop] using h)
    | bool b =>
      have h2 : (elems2Loop render opts rest).map
          (Except.map fun out => boolStr b :: out) = some (.error e) := by
        simpa [elems2Loop] using h
      exact tail (map_err_inv _ _ e h2)
    | num n =>
      have h2 : (elems2Loop render opts rest).map
          (Except.map fun out => intToStr n :: out) = some (.error e) := by
        simpa [elems2Loop] using h
      exact tail (map_err_inv _ _ e h2)
    | str s =>
      have h2 : (elems2Loop render opts rest).map
          (Except.map fun out => ('"' :: esc s ++ ['"']) :: out) = some (.error e) := by
        simpa [elems2Loop] using h
      exact tail (map_err_inv _ _ e h2)
    | arr ts =>
      have he : e = Error.tripleNestedArray := by
        have h2 := h
        rw [show elems2Loop render opts (Value.arr ts :: rest) =
            some (.error .tripleNestedArray) from rfl] at h2
        simpa using h2.symm
      exact ⟨Value.arr ts, List.mem_cons_self _ _, .inr ⟨ts, rfl, he⟩⟩
    | obj flds =>
      rw [show elems2Loop render opts (Value.obj flds :: rest) =
          (match render flds { opts with inline_array := true } with
            | none => none
            | some (.error e) => some (.error e)
            | some (.ok sub) =>
              (elems2Loop render opts rest).map
                (Except.map fun out => surgery sub :: out)) from rfl] at h
      cases hres : render flds { opts with inline_array := true } with
      | none => rw [hres] at h; simp at h
      | some r =>
        rw [hres] at h
        cases r with
        | error e2 =>
          have he : e2 = e := by simpa using h
          exact ⟨Value.obj flds, List.mem_cons_self _ _,
            .inl ⟨flds, rfl, he ▸ hres⟩⟩
        | ok sub => exact tail (map_err_inv _ _ e h)

theorem elemsLoop_err
    (render : List (Str × Value) → Options → Option (Except Error Str))
    (opts : Options) :
    ∀ (vs : List Value) (e : Error), elemsLoop render opts vs = some (.error e) →
      ∃ v ∈ vs, (∃ flds, v = Value.obj flds ∧
          render flds { opts with inline_array := true } = some (.error e)) ∨
        (∃ ws, v = Value.arr ws ∧ elems2Loop render opts ws = some (.error e)) := by
  intro vs
  induction vs with
  | nil => intro e h; simp [elemsLoop] at h
  | cons v rest ih =>
    intro e h
    have tail : elemsLoop render opts rest = some (.error e) →
        ∃ v2 ∈ v :: rest, (∃ flds, v2 = Value.obj flds ∧
            render flds { opts with inline_array := true } = some (.error e)) ∨
          (∃ ws, v2 = Value.arr ws ∧ elems2Loop render opts ws = some (.error e)) := by
      intro h2
      rcases ih e h2 with ⟨v2, hv2, hc⟩
      exact ⟨v2, List.mem_cons_of_mem _ hv2, hc⟩
    cases v with
    | null => exact tail (by simpa [elemsLoop] using h)
    | bool b =>
      have h2 : (elemsLoop render opts rest).map
          (Except.map fun strs => boolStr b :: strs) = some (.error e) := by
        simpa [elemsLoop] using h
      exact tail (map_err_inv _ _ e h2)
    | num n =>
      have h2 : (elemsLoop render opts rest).map
          (Except.map fun strs => intToStr n :: strs) = some (.error e) := by
        simpa [elemsLoop] using h
      exact tail (map_err_inv _ _ e h2)
    | str s =>
      rw [show elemsLoop render opts (Value.str s :: rest) =
          (if opts.skip_empty_string && s.isEmpty then elemsLoop render opts rest
            else (elemsLoop render opts rest).map
              (Except.map fun strs => ('"' :: esc s ++ ['"']) :: strs)) from by
        simp [elemsLoop]] at h
      by_cases hskip : (opts.skip_empty_string && s.isEmpty) = true
      · rw [if_pos hskip] at h
        exact tail h
      · rw [if_neg hskip] at h
        exact tail (map_err_inv _ _ e h)
    | arr ws =>
      rw [show elemsLoop render opts (Value.arr ws :: rest) =
          (match elems2Loop render opts ws with
            | none => none
            | some (.error e) => some (.error e)
            | some (.ok out) =>
              (elemsLoop render opts rest).map
                (Except.map fun strs =>
                  ('[' :: List.intercalate ", ".data out ++ [']']) :: strs))
          from rfl] at h
      cases hres : elems2Loop render opts ws with
      | none => rw [hres] at h; simp at h
      | some r =>
        rw [hres] at h
        cases r with
        | error e2 =>
          have he : e2 = e := by simpa using h
          exact ⟨Value.arr ws, List.mem_cons_self _ _, .inr ⟨ws, rfl, he ▸ hres⟩⟩
        | ok out => exact tail (map_err_inv _ _ e h)
    | obj flds =>
      rw [show elemsLoop render opts (Value.obj flds :: rest) =
          (match render flds { opts with inline_array := true } with
            | none => none
            | some (.error e) => some (.error e)
            | some (.ok sub) =>
              (elemsLoop render opts rest).map
                (Except.map fun strs => surgery sub :: strs)) from rfl] at h
      cases hres : render flds { opts with inline_array := true } with
      | none => rw [hres] at h; simp at h
      | some r =>
        rw [hres] at h
        cases r with
        | error e2 =>
          have he : e2 = e := by simpa using h
          exact ⟨Value.obj flds, List.mem_cons_self _ _,
            .inl ⟨flds, rfl, he ▸ hres⟩⟩
        | ok sub => exact tail (map_err_inv _ _ e h)

theorem renderEntry_err
    (render : List (Str × Value) → Options → Option (Except Error Str))
    (opts : Options) (k : Str) (v : Value) (e : Error)
    (h : renderEntry render opts k v = some (.error e)) :
    (∃ vs, v = Value.arr vs ∧ elemsLoop render opts vs = some (.error e)) ∨
      (∃ fs, v = Value.obj fs ∧ e = .objectReached) := by
  cases v with
  | null => simp [renderEntry] at h
  | bool b => simp [renderEntry] at h
  | num n => simp [renderEntry] at h
  | str s =>
    rw [show renderEntry render opts k (Value.str s) =
        (if opts.skip_empty_string && s.isEmpty then some (.ok none)
          else if s.contains '\n' then
            some (.ok (some (k ++ " = \"\"\"\n".data ++ s ++ "\"\"\"".data)))
          else some (.ok (some (k ++ " = \"".data ++ esc s ++ ['"'])))) from by
      simp [renderEntry]] at h
    split at h <;> simp at h
    split at h <;> simp at h
  | arr vs =>
    rw [show renderEntry render opts k (Value.arr vs) =
        (if vs.isEmpty then some (.ok (some (k ++ " = []".data)))
          else
            match elemsLoop render opts vs with
            | none => none
            | some (.error e) => some (.error e)
            | some (.ok strs) =>
              let total := strs.foldl (fun t c => t + byteLen c) 0
              if opts.inline_array || decide (total ≤ opts.max_inline_array_length) then
                some (.ok (some (k ++ " = [".data ++
                  List.intercalate ", ".data strs ++ [']'])))
              else
                some (.ok (some (k ++ " = [\n".data ++ opts.tab ++
                  List.intercalate (",\n".data ++ opts.tab) strs ++ "\n]".data))))
        from by simp [renderEntry]] at h
    split at h
    · simp at h
    · cases hres : elemsLoop render opts vs with
      | none => rw [hres] at h; simp at h
      | some r =>
        rw [hres] at h
        cases r with
        | error e2 =>
          have he : e2 = e := by simpa using h
          exact .inl ⟨vs, rfl, he ▸ hres⟩
        | ok strs =>
          exfalso
          have h2 : (if (opts.inline_array ||
                decide ((strs.foldl (fun t c => t + byteLen c) 0) ≤
                  opts.max_inline_array_length)) = true then
              some (Except.ok (some (k ++ " = [".data ++
                List.intercalate ", ".data strs ++ [']'])))
            else some (Except.ok (some (k ++ " = [\n".data ++ opts.tab ++
                List.intercalate (",\n".data ++ opts.tab) strs ++ "\n]".data)))) =
              some (Except.error e) := h
          split at h2 <;> simp at h2
  | obj fs =>
    rw [show renderEntry render opts k (Value.obj fs) =
        (if !opts.skip_empty_object && fs.isEmpty then
          some (.ok (some (k ++ " = {}".data)))
        else some (.error .objectReached)) from by simp [renderEntry]] at h
    split at h
    · simp at h
    · have he : Error.objectReached = e := by simpa using h
      exact .inr ⟨fs, rfl, he.symm⟩

theorem entriesLoop_err
    (render : List (Str × Value) → Options → Option (Except Error Str))
    (opts : Options) :
    ∀ (kvs : List (Str × Value)) (i : Nat) (res : Str) (e : Error),
      entriesLoop render opts kvs i res = some (.error e) →
      ∃ kv ∈ kvs, renderEntry render opts kv.1 kv.2 = some (.error e) := by
  intro kvs
  induction kvs with
  | nil => intro i res e h; simp [entriesLoop] at h
  | cons kv rest ih =>
    intro i res e h
    rcases kv with ⟨k, v⟩
    simp only [entriesLoop] at h
    cases hres : renderEntry render opts k v with
    | none => rw [hres] at h; simp at h
    | some r =>
      rw [hres] at h
      cases r with
      | error e2 =>
        have he : e2 = e := by simpa using h
        exact ⟨(k, v), List.mem_cons_self _ _, he ▸ hres⟩
      | ok piece =>
        cases piece with
        | none =>
          rcases ih (i + 1) res e h with ⟨kv2, hkv2, hr2⟩
          exact ⟨kv2, List.mem_cons_of_mem _ hkv2, hr2⟩
        | some text =>
          rcases ih (i + 1) _ e h with ⟨kv2, hkv2, hr2⟩
          exact ⟨kv2, List.mem_cons_of_mem _ hkv2, hr2⟩

theorem toStringFuel_triple_sound :
    ∀ (fuel : Nat) (m : List (Str × Value)) (opts : Options),
      toStringFuel fuel m opts = some (.error .tripleNestedArray) →
      mapHasTriple m = true := by
  intro fuel
  induction fuel with
  | zero => intro m opts h; simp [toStringFuel] at h
  | succ f ih =>
    intro m opts h
    rw [show toStringFuel (f + 1) m opts =
        entriesLoop (fun flds o => toStringFuel f flds o) opts
          (flatten_map m opts.skip_empty_object) 0 [] from rfl] at h
    obtain ⟨⟨k, v⟩, hkv, hre⟩ :=
      entriesLoop_err _ opts _ 0 [] .tripleNestedArray h
    rcases renderEntry_err _ opts k v _ hre with ⟨vs, hveq, hel⟩ | ⟨fs, hveq, habs⟩
    · subst hveq
      apply flat_value_triple_to_map m _ k _ hkv
      rcases elemsLoop_err _ opts vs _ hel with ⟨w, hw, hc⟩
      have objCase : ∀ flds, (fun flds o => toStringFuel f flds o) flds
          { opts with inline_array := true } = some (.error .tripleNestedArray) →
          anyV tripleHead (Value.obj flds) = true := by
        intro flds hrend
        have hmap := ih flds _ hrend
        rw [show anyV tripleHead (Value.obj flds) =
            (tripleHead (Value.obj flds) || anyF tripleHead flds) from rfl]
        rw [show mapHasTriple flds = anyF tripleHead flds from rfl] at hmap
        rw [hmap]
        simp
      rcases hc with ⟨flds, hweq, hrend⟩ | ⟨ws, hweq, h2⟩
      · subst hweq
        have hv := objCase flds hrend
        have h3 := anyL_of_mem tripleHead vs _ hw hv
        rw [show anyV tripleHead (Value.arr vs) =
            (tripleHead (Value.arr vs) || anyL tripleHead vs) from rfl, h3]
        simp
      · subst hweq
        rcases elems2Loop_err _ opts ws _ h2 with ⟨u, hu, hc2⟩
        rcases hc2 with ⟨flds, hueq, hrend⟩ | ⟨ts, hueq, _⟩
        · subst hueq
          have hv := objCase flds hrend
          have h3 := anyL_of_mem tripleHead ws _ hu hv
          have h4 : anyV tripleHead (Value.arr ws) = true := by
            rw [show anyV tripleHead (Value.arr ws) =
                (tripleHead (Value.arr ws) || anyL tripleHead ws) from rfl, h3]
            simp
          have h5 := anyL_of_mem tripleHead vs _ hw h4
          rw [show anyV tripleHead (Value.arr vs) =
              (tripleHead (Value.arr vs) || anyL tripleHead vs) from rfl, h5]
          simp
        · subst hueq
          have hany : ws.any isArr = true :=
            List.any_eq_true.mpr ⟨Value.arr ts, hu, rfl⟩
          have htriple : tripleHead (Value.arr vs) = true := by
            rw [show tripleHead (Value.arr vs) = vs.any arrInArr from rfl]
            refine List.any_eq_true.mpr ⟨Value.arr ws, hw, ?_⟩
            rw [show arrInArr (Value.arr ws) = ws.any isArr from rfl]
            exact hany
          rw [show anyV tripleHead (Value.arr vs) =
              (tripleHead (Value.arr vs) || anyL tripleHead vs) from rfl, htriple]
          simp
    · cases habs

theorem to_string_triple_sound (m : List (Str × Value)) (opts : Options)
    (h : to_string m opts = .error .tripleNestedArray) : mapHasTriple m = true := by
  apply toStringFuel_triple_sound (sizeF m + 1) m opts
  rw [to_string_eq_fuel m opts, h]

theorem ncF_mem (m : List (Str × Value)) (hnc : ncF m = true) (k : Str) (w : Value)
    (hmem : (k, w) ∈ m) : ncV w = true := by
  induction m with
  | nil => simp at hmem
  | cons kv rest ih =>
    rcases kv with ⟨k0, v0⟩
    have h2 : ncV v0 = true ∧ ncF rest = true := by
      have := hnc
      rw [show ncF ((k0, v0) :: rest) = (ncV v0 && ncF rest) from rfl] at this
      simpa using this
    rcases List.mem_cons.mp hmem with h | h
    · injection h with h3 h4
      rw [h4]
      exact h2.1
    · exact ih h2.2 h

theorem dfs_ncV (skip : Bool) :
    ∀ (parent : Option Str) (m : List (Str × Value)), ncF m = true →
      ∀ k v, (k, v) ∈ dfsFields parent m skip → ncV v = true := by
  refine specLeavesF.induct
    (fun parent m => ncF m = true →
      ∀ k v, (k, v) ∈ dfsFields parent m skip → ncV v = true)
    (fun pf w => ncV w = true →
      ∀ k v, (k, v) ∈ dfsVal pf w skip → ncV v = true)
    ?_ ?_ ?_ ?_
  · intro pf src ih hnc k v hmem
    rw [show dfsVal pf (.obj src) skip =
        (if (src.isEmpty && !skip) = true then [(pf, Value.obj [])]
          else dfsFields (some pf) src skip) from by simp [dfsVal]] at hmem
    by_cases hg : (src.isEmpty && !skip) = true
    · rw [if_pos hg] at hmem
      have hv : v = Value.obj [] := congrArg Prod.snd (List.mem_singleton.mp hmem)
      rw [hv]
      rfl
    · rw [if_neg hg] at hmem
      have hncf : ncF src = true := by
        rw [show ncV (Value.obj src) = ncF src from rfl] at hnc
        exact hnc
      exact ih hncf k v hmem
  · intro pf w hno hnc k v hmem
    have hv : dfsVal pf w skip = [(pf, w)] := by
      cases w with
      | obj gs => exact absurd rfl (fun h2 => hno gs h2)
      | null => rfl
      | bool b => rfl
      | num n => rfl
      | str s => rfl
      | arr vs => rfl
    rw [hv] at hmem
    have : v = w := congrArg Prod.snd (List.mem_singleton.mp hmem)
    rw [this]
    exact hnc
  · intro parent _ k v hmem
    simp [dfsFields] at hmem
  · intro parent f w rest pf ihv ihf hnc k v hmem
    have h2 : ncV w = true ∧ ncF rest = true := by
      have := hnc
      rw [show ncF ((f, w) :: rest) = (ncV w && ncF rest) from rfl] at this
      simpa using this
    rw [show dfsFields parent ((f, w) :: rest) skip =
        dfsVal pf w skip ++ dfsFields parent rest skip from rfl] at hmem
    rcases List.mem_append.mp hmem with h | h
    · exact ihv h2.1 k v h
    · exact ihf h2.2 k v h

theorem ncL_mem (vs : List Value) (hnc : ncL vs = true) (v : Value) (hmem : v ∈ vs) :
    (∀ fs, v = Value.obj fs → NCm fs = true) ∧
    (∀ ws, v = Value.arr ws → ncL ws = true) := by
  induction vs with
  | nil => simp at hmem
  | cons v0 rest ih =>
    have hsplit : (match v0 with
        | Value.obj fs =>
          (decide (keysOf (dfsFields none fs false)).Nodup && ncF fs) = true
        | Value.arr ws => ncL ws = true
        | _ => True) ∧ ncL rest = true := by
      cases v0 with
      | obj fs =>
        have := hnc
        rw [show ncL (Value.obj fs :: rest) =
            ((decide (keysOf (dfsFields none fs false)).Nodup && ncF fs) && ncL rest)
            from rfl] at this
        simpa using (Bool.and_eq_true_iff.mp this)
      | arr ws =>
        have := hnc
        rw [show ncL (Value.arr ws :: rest) = (ncL ws && ncL rest) from rfl] at this
        simpa using (Bool.and_eq_true_iff.mp this)
      | null => exact ⟨trivial, by simpa [ncL] using hnc⟩
      | bool b => exact ⟨trivial, by simpa [ncL] using hnc⟩
      | num n => exact ⟨trivial, by simpa [ncL] using hnc⟩
      | str s => exact ⟨trivial, by simpa [ncL] using hnc⟩
    rcases List.mem_cons.mp hmem with h | h
    · subst h
      constructor
      · intro fs he
        subst he
        have h2 := hsplit.1
        rw [show NCm fs =
            (decide (keysOf (dfsFields none fs false)).Nodup && ncF fs) from rfl]
        exact h2
      · intro ws he
        subst he
        exact hsplit.1
    · exact ih hsplit.2 h

theorem dfs_any_triple (skip : Bool) :
    ∀ (parent : Option Str) (m : List (Str × Value)), anyF tripleHead m = true →
      ∃ k v, (k, v) ∈ dfsFields parent m skip ∧ anyV tripleHead v = true := by
  refine specLeavesF.induct
    (fun parent m => anyF tripleHead m = true →
      ∃ k v, (k, v) ∈ dfsFields parent m skip ∧ anyV tripleHead v = true)
    (fun pf w => anyV tripleHead w = true →
      ∃ k v, (k, v) ∈ dfsVal pf w skip ∧ anyV tripleHead v = true)
    ?_ ?_ ?_ ?_
  · intro pf src ih hw
    have hsrc : anyF tripleHead src = true := by
      have := hw
      rw [show anyV tripleHead (Value.obj src) =
          (tripleHead (Value.obj src) || anyF tripleHead src) from rfl] at this
      simpa [tripleHead] using this
    have hne : src ≠ [] := by
      intro he
      rw [he] at hsrc
      simp [anyF] at hsrc
    have hg : (src.isEmpty && !skip) = false := by
      simp [List.isEmpty_iff, hne]
    obtain ⟨k, v, hmem, hv⟩ := ih hsrc
    refine ⟨k, v, ?_, hv⟩
    rw [show dfsVal pf (.obj src) skip =
        (if (src.isEmpty && !skip) = true then [(pf, Value.obj [])]
          else dfsFields (some pf) src skip) from by simp [dfsVal]]
    rw [if_neg (by simp [hg])]
    exact hmem
  · intro pf w hno hw
    have hv : dfsVal pf w skip = [(pf, w)] := by
      cases w with
      | obj gs => exact absurd rfl (fun h2 => hno gs h2)
      | null => rfl
      | bool b => rfl
      | num n => rfl
      | str s => rfl
      | arr vs => rfl
    exact ⟨pf, w, by rw [hv]; exact List.mem_singleton.mpr rfl, hw⟩
  · intro parent h
    simp [anyF] at h
  · intro parent f w rest pf ihv ihf h
    have hor : anyV tripleHead w = true ∨ anyF tripleHead rest = true := by
      have := h
      rw [show anyF tripleHead ((f, w) :: rest) =
          (anyV tripleHead w || anyF tripleHead rest) from rfl] at this
      exact Bool.or_eq_true_iff.mp this
    rcases hor with h1 | h1
    · obtain ⟨k, v, hmem, hv⟩ := ihv h1
      refine ⟨k, v, ?_, hv⟩
      rw [show dfsFields parent ((f, w) :: rest) skip =
          dfsVal pf w skip ++ dfsFields parent rest skip from rfl]
      exact List.mem_append_left _ hmem
    · obtain ⟨k, v, hmem, hv⟩ := ihf h1
      refine ⟨k, v, ?_, hv⟩
      rw [show dfsFields parent ((f, w) :: rest) skip =
          dfsVal pf w skip ++ dfsFields parent rest skip from rfl]
      exact List.mem_append_right _ hmem

theorem dfs_keys_nodup_any_skip (m : List (Str × Value)) (skip : Bool)
    (h : (keysOf (dfsEntries m false)).Nodup) :
    (keysOf (dfsEntries m skip)).Nodup := by
  cases skip with
  | false => exact h
  | true =>
    rw [show dfsEntries m true =
        (dfsEntries m false).filter (fun kv => !isEmptyObjB kv.2) from
      dfs_true_eq_filter none m]
    exact List.Nodup.sublist (List.Sublist.map _ (List.filter_sublist _)) h

theorem flatten_eq_dfs_of_nodup (m : List (Str × Value)) (skip : Bool)
    (h : (keysOf (dfsEntries m skip)).Nodup) :
    flatten_map m skip = dfsEntries m skip := by
  rw [flatten_map_eq_foldl]
  have h2 := foldl_insStep_all_new (dfsEntries m skip) [] (by simp [keysOf]) h
  simpa using h2

theorem map_ok_inv {α β : Type} (f : α → β) (x : Option (Except Error α)) (b : β)
    (h : x.map (Except.map f) = some (.ok b)) : ∃ a, x = some (.ok a) := by
  cases x with
  | none => simp at h
  | some r =>
    cases r with
    | ok a => exact ⟨a, rfl⟩
    | error e => simp [Except.map] at h

theorem entriesLoop_ok_mem
    (render : List (Str × Value) → Options → Option (Except Error Str))
    (opts : Options) :
    ∀ (kvs : List (Str × Value)) (i : Nat) (res out : Str),
      entriesLoop render opts kvs i res = some (.ok out) →
      ∀ kv ∈ kvs, ∃ r, renderEntry render opts kv.1 kv.2 = some (.ok r) := by
  intro kvs
  induction kvs with
  | nil => intro i res out _ kv hkv; simp at hkv
  | cons kv0 rest ih =>
    intro i res out h kv hkv
    rcases kv0 with ⟨k, v⟩
    simp only [entriesLoop] at h
    cases hres : renderEntry render opts k v with
    | none => rw [hres] at h; simp at h
    | some r =>
      rw [hres] at h
      cases r with
      | error e => simp at h
      | ok piece =>
        rcases List.mem_cons.mp hkv with h1 | h1
        · subst h1
          exact ⟨piece, hres⟩
        · cases piece with
          | none => exact ih (i + 1) res out h kv h1
          | some text => exact ih (i + 1) _ out h kv h1

theorem elems2Loop_ok_facts
    (render : List (Str × Value) → Options → Option (Except Error Str))
    (opts : Options) :
    ∀ (ws : List Value) (out : List Str),
      elems2Loop render opts ws = some (.ok out) →
      ∀ u ∈ ws,
        (∀ ts, u = Value.arr ts → False) ∧
        (∀ flds, u = Value.obj flds →
          ∃ sub, render flds { opts with inline_array := true } = some (.ok sub)) := by
  intro ws
  induction ws with
  | nil => intro out _ u hu; simp at hu
  | cons v rest ih =>
    intro out h u hu
    have step : (∀ u2 ∈ rest, (∀ ts, u2 = Value.arr ts → False) ∧
        (∀ flds, u2 = Value.obj flds →
          ∃ sub, render flds { opts with inline_array := true } = some (.ok sub))) →
        u ∈ rest → _ := fun hall h2 => hall u h2
    cases v with
    | null =>
      have h2 : elems2Loop render opts rest = some (.ok out) := by
        simpa [elems2Loop] using h
      rcases List.mem_cons.mp hu with h1 | h1
      · subst h1
        exact ⟨fun ts he => Value.noConfusion he, fun flds he => Value.noConfusion he⟩
      · exact ih out h2 u h1
    | bool b =>
      have h2 : (elems2Loop render opts rest).map
          (Except.map fun o2 => boolStr b :: o2) = some (.ok out) := by
        simpa [elems2Loop] using h
      obtain ⟨out2, hout2⟩ := map_ok_inv _ _ _ h2
      rcases List.mem_cons.mp hu with h1 | h1
      · subst h1
        exact ⟨fun ts he => Value.noConfusion he, fun flds he => Value.noConfusion he⟩
      · exact ih out2 hout2 u h1
    | num n =>
      have h2 : (elems2Loop render opts rest).map
          (Except.map fun o2 => intToStr n :: o2) = some (.ok out) := by
        simpa [elems2Loop] using h
      obtain ⟨out2, hout2⟩ := map_ok_inv _ _ _ h2
      rcases List.mem_cons.mp hu with h1 | h1
      · subst h1
        exact ⟨fun ts he => Value.noConfusion he, fun flds he => Value.noConfusion he⟩
      · exact ih out2 hout2 u h1
    | str s =>
      have h2 : (elems2Loop render opts rest).map
          (Except.map fun o2 => ('"' :: esc s ++ ['"']) :: o2) = some (.ok out) := by
        simpa [elems2Loop] using h
      obtain ⟨out2, hout2⟩ := map_ok_inv _ _ _ h2
      rcases List.mem_cons.mp hu with h1 | h1
      · subst h1
        exact ⟨fun ts he => Value.noConfusion he, fun flds he => Value.noConfusion he⟩
      · exact ih out2 hout2 u h1
    | arr ts =>
      exfalso
      rw [show elems2Loop render opts (Value.arr ts :: rest) =
          some (.error .tripleNestedArray) from rfl] at h
      simp at h
    | obj flds0 =>
      rw [show elems2Loop render opts (Value.obj flds0 :: rest) =
          (match render flds0 { opts with inline_array := true } with
            | none => none
            | some (.error e) => some (.error e)
            | some (.ok sub) =>
              (elems2Loop render opts rest).map
                (Except.map fun o2 => surgery sub :: o2)) from rfl] at h
      cases hres : render flds0 { opts with inline_array := true } with
      | none => rw [hres] at h; simp at h
      | some r =>
        rw [hres] at h
        cases r with
        | error e => simp at h
        | ok sub =>
          obtain ⟨out2, hout2⟩ := map_ok_inv _ _ _ h
          rcases List.mem_cons.mp hu with h1 | h1
          · subst h1
            refine ⟨fun ts he => Value.noConfusion he, fun flds he => ?_⟩
            have : flds = flds0 := by injection he.symm
            subst this
            exact ⟨sub, hres⟩
          · exact ih out2 hout2 u h1

theorem elemsLoop_ok_facts
    (render : List (Str × Value) → Options → Option (Except Error Str))
    (opts : Options) :
    ∀ (vs : List Value) (strs : List Str),
      elemsLoop render opts vs = some (.ok strs) →
      ∀ u ∈ vs,
        (∀ ws, u = Value.arr ws →
          ∃ out2, elems2Loop render opts ws = some (.ok out2)) ∧
        (∀ flds, u = Value.obj flds →
          ∃ sub, render flds { opts with inline_array := true } = some (.ok sub)) := by
  intro vs
  induction vs with
  | nil => intro strs _ u hu; simp at hu
  | cons v rest ih =>
    intro strs h u hu
    cases v with
    | null =>
      have h2 : elemsLoop render opts rest = some (.ok strs) := by
        simpa [elemsLoop] using h
      rcases List.mem_cons.mp hu with h1 | h1
      · subst h1
        exact ⟨fun ts he => Value.noConfusion he, fun flds he => Value.noConfusion he⟩
      · exact ih strs h2 u h1
    | bool b =>
      have h2 : (elemsLoop render opts rest).map
          (Except.map fun o2 => boolStr b :: o2) = some (.ok strs) := by
        simpa [elemsLoop] using h
      obtain ⟨out2, hout2⟩ := map_ok_inv _ _ _ h2
      rcases List.mem_cons.mp hu with h1 | h1
      · subst h1
        exact ⟨fun ts he => Value.noConfusion he, fun flds he => Value.noConfusion he⟩
      · exact ih out2 hout2 u h1
    | num n =>
      have h2 : (elemsLoop render opts rest).map
          (Except.map fun o2 => intToStr n :: o2) = some (.ok strs) := by
        simpa [elemsLoop] using h
      obtain ⟨out2, hout2⟩ := map_ok_inv _ _ _ h2
      rcases List.mem_cons.mp hu with h1 | h1
      · subst h1
        exact ⟨fun ts he => Value.noConfusion he, fun flds he => Value.noConfusion he⟩
      · exact ih out2 hout2 u h1
    | str s =>
      rw [show elemsLoop render opts (Value.str s :: rest) =
          (if opts.skip_empty_string && s.isEmpty then elemsLoop render opts rest
            else (elemsLoop render opts rest).map
              (Except.map fun o2 => ('"' :: esc s ++ ['"']) :: o2)) from by
        simp [elemsLoop]] at h
      have hrest : ∃ out2, elemsLoop render opts rest = some (.ok out2) := by
        by_cases hskip : (opts.skip_empty_string && s.isEmpty) = true
        · rw [if_pos hskip] at h
          exact ⟨strs, h⟩
        · rw [if_neg hskip] at h
          exact map_ok_inv _ _ _ h
      obtain ⟨out2, hout2⟩ := hrest
      rcases List.mem_cons.mp hu with h1 | h1
      · subst h1
        exact ⟨fun ts he => Value.noConfusion he, fun flds he => Value.noConfusion he⟩
      · exact ih out2 hout2 u h1
    | arr ws0 =>
      rw [show elemsLoop render opts (Value.arr ws0 :: rest) =
          (match elems2Loop render opts ws0 with
            | none => none
            | some (.error e) => some (.error e)
            | some (.ok out) =>
              (elemsLoop render opts rest).map
                (Except.map fun o2 =>
                  ('[' :: List.intercalate ", ".data out ++ [']']) :: o2))
          from rfl] at h
      cases hres : elems2Loop render opts ws0 with
      | none => rw [hres] at h; simp at h
      | some r =>
        rw [hres] at h
        cases r with
        | error e => simp at h
        | ok out =>
          obtain ⟨out2, hout2⟩ := map_ok_inv _ _ _ h
          rcases List.mem_cons.mp hu with h1 | h1
          · subst h1
            refine ⟨fun ws he => ?_, fun flds he => Value.noConfusion he⟩
            have : ws = ws0 := by injection he.symm
            subst this
            exact ⟨out, hres⟩
          · exact ih out2 hout2 u h1
    | obj flds0 =>
      rw [show elemsLoop render opts (Value.obj flds0 :: rest) =
          (match render flds0 { opts with inline_array := true } with
            | none => none
            | some (.error e) => some (.error e)
            | some (.ok sub) =>
              (elemsLoop render opts rest).map
                (Except.map fun o2 => surgery sub :: o2)) from rfl] at h
      cases hres : render flds0 { opts with inline_array := true } with
      | none => rw [hres] at h; simp at h
      | some r =>
        rw [hres] at h
        cases r with
        | error e => simp at h
        | ok sub =>
          obtain ⟨out2, hout2⟩ := map_ok_inv _ _ _ h
          rcases List.mem_cons.mp hu with h1 | h1
          · subst h1
            refine ⟨fun ts he => Value.noConfusion he, fun flds he => ?_⟩
            have : flds = flds0 := by injection he.symm
            subst this
            exact ⟨sub, hres⟩
          · exact ih out2 hout2 u h1

theorem anyL_false_of_pointwise (p : Value → Bool) (vs : List Value)
    (h : ∀ v ∈ vs, anyV p v = false) : anyL p vs = false := by
  induction vs with
  | nil => rfl
  | cons v rest ih =>
    rw [show anyL p (v :: rest) = (anyV p v || anyL p rest) from rfl]
    rw [h v (List.mem_cons_self _ _), ih (fun u hu => h u (List.mem_cons_of_mem _ hu))]
    rfl

theorem NCm_split (m : List (Str × Value)) (h : NCm m = true) :
    (keysOf (dfsEntries m false)).Nodup ∧ ncF m = true := by
  rw [show NCm m =
      (decide (keysOf (dfsFields none m false)).Nodup && ncF m) from rfl] at h
  rcases Bool.and_eq_true_iff.mp h with ⟨h1, h2⟩
  exact ⟨of_decide_eq_true h1, h2⟩

theorem elems2Loop_ok_no_triple
    (render : List (Str × Value) → Options → Option (Except Error Str))
    (opts : Options)
    (hrd : ∀ flds o, NCm flds = true →
      (∃ s, render flds o = some (.ok s)) → anyF tripleHead flds = false)
    (ws : List Value) (out : List Str) (hnc : ncL ws = true)
    (hok : elems2Loop render opts ws = some (.ok out)) :
    ws.any isArr = false ∧ ws.any arrInArr = false ∧ anyL tripleHead ws = false := by
  have hfacts := elems2Loop_ok_facts render opts ws out hok
  have pointwise : ∀ u ∈ ws, isArr u = false ∧ arrInArr u = false ∧
      anyV tripleHead u = false := by
    intro u hu
    have hf := hfacts u hu
    have hn := ncL_mem ws hnc u hu
    cases u with
    | null => exact ⟨rfl, rfl, rfl⟩
    | bool b => exact ⟨rfl, rfl, rfl⟩
    | num n => exact ⟨rfl, rfl, rfl⟩
    | str s => exact ⟨rfl, rfl, rfl⟩
    | arr ts => exact absurd rfl (fun he => hf.1 ts he)
    | obj flds =>
      obtain ⟨sub, hsub⟩ := hf.2 flds rfl
      have hncm := hn.1 flds rfl
      have hanyF := hrd flds _ hncm ⟨sub, hsub⟩
      refine ⟨rfl, rfl, ?_⟩
      rw [show anyV tripleHead (Value.obj flds) =
          (tripleHead (Value.obj flds) || anyF tripleHead flds) from rfl, hanyF]
      rfl
  refine ⟨?_, ?_, ?_⟩
  · rw [Bool.eq_false_iff]
    intro hc
    obtain ⟨u, hu, hiu⟩ := List.any_eq_true.mp hc
    rw [(pointwise u hu).1] at hiu
    cases hiu
  · rw [Bool.eq_false_iff]
    intro hc
    obtain ⟨u, hu, hiu⟩ := List.any_eq_true.mp hc
    rw [(pointwise u hu).2.1] at hiu
    cases hiu
  · exact anyL_false_of_pointwise _ _ (fun u hu => (pointwise u hu).2.2)

theorem elemsLoop_ok_no_triple
    (render : List (Str × Value) → Options → Option (Except Error Str))
    (opts : Options)
    (hrd : ∀ flds o, NCm flds = true →
      (∃ s, render flds o = some (.ok s)) → anyF tripleHead flds = false)
    (vs : List Value) (strs : List Str) (hnc : ncL vs = true)
    (hok : elemsLoop render opts vs = some (.ok strs)) :
    vs.any arrInArr = false ∧ anyL tripleHead vs = false := by
  have hfacts := elemsLoop_ok_facts render opts vs strs hok
  have pointwise : ∀ u ∈ vs, arrInArr u = false ∧ anyV tripleHead u = false := by
    intro u hu
    have hf := hfacts u hu
    have hn := ncL_mem vs hnc u hu
    cases u with
    | null => exact ⟨rfl, rfl⟩
    | bool b => exact ⟨rfl, rfl⟩
    | num n => exact ⟨rfl, rfl⟩
    | str s => exact ⟨rfl, rfl⟩
    | obj flds =>
      obtain ⟨sub, hsub⟩ := hf.2 flds rfl
      have hncm := hn.1 flds rfl
      have hanyF := hrd flds _ hncm ⟨sub, hsub⟩
      refine ⟨rfl, ?_⟩
      rw [show anyV tripleHead (Value.obj flds) =
          (tripleHead (Value.obj flds) || anyF tripleHead flds) from rfl, hanyF]
      rfl
    | arr ws =>
      obtain ⟨out2, hout2⟩ := hf.1 ws rfl
      have hncl : ncL ws = true := hn.2 ws rfl
      obtain ⟨h1, h2, h3⟩ :=
        elems2Loop_ok_no_triple render opts hrd ws out2 hncl hout2
      constructor
      · rw [show arrInArr (Value.arr ws) = ws.any isArr from rfl]
        exact h1
      · rw [show anyV tripleHead (Value.arr ws) =
            (tripleHead (Value.arr ws) || anyL tripleHead ws) from rfl]
        rw [show tripleHead (Value.arr ws) = ws.any arrInArr from rfl, h2, h3]
        rfl
  constructor
  · rw [Bool.eq_false_iff]
    intro hc
    obtain ⟨u, hu, hiu⟩ := List.any_eq_true.mp hc
    rw [(pointwise u hu).1] at hiu
    cases hiu
  · exact anyL_false_of_pointwise _ _ (fun u hu => (pointwise u hu).2)

theorem renderEntry_ok_no_triple
    (render : List (Str × Value) → Options → Option (Except Error Str))
    (opts : Options)
    (hrd : ∀ flds o, NCm flds = true →
      (∃ s, render flds o = some (.ok s)) → anyF tripleHead flds = false)
    (k : Str) (v : Value) (r : Option Str) (hnc : ncV v = true)
    (hok : renderEntry render opts k v = some (.ok r)) :
    anyV tripleHead v = false := by
  cases v with
  | null => rfl
  | bool b => rfl
  | num n => rfl
  | str s => rfl
  | obj fs =>
    rw [show renderEntry render opts k (Value.obj fs) =
        (if !opts.skip_empty_object && fs.isEmpty then
          some (.ok (some (k ++ " = {}".data)))
        else some (.error .objectReached)) from by simp [renderEntry]] at hok
    by_cases hg : (!opts.skip_empty_object && fs.isEmpty) = true
    · have hfs : fs = [] := by
        rcases Bool.and_eq_true_iff.mp hg with ⟨_, h2⟩
        exact List.isEmpty_iff.mp h2
      subst hfs
      rfl
    · rw [if_neg hg] at hok
      simp at hok
  | arr vs =>
    rw [show renderEntry render opts k (Value.arr vs) =
        (if vs.isEmpty then some (.ok (some (k ++ " = []".data)))
          else
            match elemsLoop render opts vs with
            | none => none
            | some (.error e) => some (.error e)
            | some (.ok strs) =>
              let total := strs.foldl (fun t c => t + byteLen c) 0
              if opts.inline_array || decide (total ≤ opts.max_inline_array_length) then
                some (.ok (some (k ++ " = [".data ++
                  List.intercalate ", ".data strs ++ [']'])))
              else
                some (.ok (some (k ++ " = [\n".data ++ opts.tab ++
                  List.intercalate (",\n".data ++ opts.tab) strs ++ "\n]".data))))
        from by simp [renderEntry]] at hok
    by_cases hemp : vs.isEmpty = true
    · have hvs : vs = [] := List.isEmpty_iff.mp hemp
      subst hvs
      rfl
    · rw [if_neg hemp] at hok
      cases hres : elemsLoop render opts vs with
      | none => rw [hres] at hok; simp at hok
      | some rr =>
        rw [hres] at hok
        cases rr with
        | error e => simp at hok
        | ok strs =>
          have hncl : ncL vs = true := by
            rw [show ncV (Value.arr vs) = ncL vs from rfl] at hnc
            exact hnc
          obtain ⟨h1, h2⟩ :=
            elemsLoop_ok_no_triple render opts hrd vs strs hncl hres
          rw [show anyV tripleHead (Value.arr vs) =
              (tripleHead (Value.arr vs) || anyL tripleHead vs) from rfl]
          rw [show tripleHead (Value.arr vs) = vs.any arrInArr from rfl, h1, h2]
          rfl

theorem toStringFuel_ok_no_triple :
    ∀ (fuel : Nat) (m : List (Str × Value)) (opts : Options) (out : Str),
      NCm m = true → toStringFuel fuel m opts = some (.ok out) →
      mapHasTriple m = false := by
  intro fuel
  induction fuel with
  | zero => intro m opts out _ h; simp [toStringFuel] at h
  | succ f ih =>
    intro m opts out hnc h
    have hrd : ∀ flds o, NCm flds = true →
        (∃ s, (fun flds o => toStringFuel f flds o) flds o = some (.ok s)) →
        anyF tripleHead flds = false := by
      intro flds o hn ⟨s, hs⟩
      exact ih flds o s hn hs
    obtain ⟨hnodupF, hncF⟩ := NCm_split m hnc
    have hnodup : (keysOf (dfsEntries m opts.skip_empty_object)).Nodup :=
      dfs_keys_nodup_any_skip m _ hnodupF
    have hflat : flatten_map m opts.skip_empty_object =
        dfsEntries m opts.skip_empty_object :=
      flatten_eq_dfs_of_nodup m _ hnodup
    rw [show toStringFuel (f + 1) m opts =
        entriesLoop (fun flds o => toStringFuel f flds o) opts
          (flatten_map m opts.skip_empty_object) 0 [] from rfl] at h
    cases hmt : mapHasTriple m with
    | false => rfl
    | true =>
      exfalso
      obtain ⟨k, v, hmem, hv⟩ :=
        dfs_any_triple opts.skip_empty_object none m hmt
      have hmem2 : (k, v) ∈ flatten_map m opts.skip_empty_object := by
        rw [hflat]
        exact hmem
      obtain ⟨r, hok⟩ := entriesLoop_ok_mem _ opts _ 0 [] out h (k, v) hmem2
      have hncv : ncV v = true := dfs_ncV opts.skip_empty_object none m hncF k v hmem
      have := renderEntry_ok_no_triple _ opts hrd k v r hncv hok
      rw [this] at hv
      cases hv

theorem to_string_ok_or_triple (m : List (Str × Value)) (opts : Options) :
    (∃ out, to_string m opts = .ok out) ∨
      to_string m opts = .error .tripleNestedArray := by
  cases hts : to_string m opts with
  | ok out => exact .inl ⟨out, rfl⟩
  | error e =>
    cases e with
    | tripleNestedArray => exact .inr rfl
    | objectReached =>
      exfalso
      have h := toStringFuel_no_objerr (sizeF m + 1) m opts
      rw [to_string_eq_fuel m opts, hts] at h
      exact h

/-- C5 counterexample: the input `{"a": {"b": [[[1]]]}, "a.b": 5}`
contains an array nested three levels deep, yet `to_string` succeeds
with output `a.b = 5`: the colliding leaf `"a.b": 5` overwrites the
entry holding the triple-nested array during flattening, so the
offending array is silently dropped instead of raising
`TripleNestedArray`. -/
theorem claim_C5_counterexample :
    mapHasTriple [("a".data, Value.obj [("b".data,
        Value.arr [Value.arr [Value.arr [Value.num 1]]])]),
      ("a.b".data, Value.num 5)] = true ∧
    to_string [("a".data, Value.obj [("b".data,
        Value.arr [Value.arr [Value.arr [Value.num 1]]])]),
      ("a.b".data, Value.num 5)] Options.default = .ok "a.b = 5".data :=
  ⟨by decide, rfl⟩

/-- C5 (amended): `to_string` returns the `TripleNestedArray` error
*only if* the input contains an array directly nested three levels deep
(never spuriously, and never a crash), and it *does* return that error
for every such input *provided* the input's depth-first dotted paths
are pairwise distinct, hereditarily through objects nested inside
arrays.  Without the distinctness proviso a colliding key can
overwrite the entry holding the offending array, which is then
silently dropped (see the counterexample). -/
theorem claim_C5 (m : List (Str × Value)) (opts : Options) :
    (mapHasTriple m = false → to_string m opts ≠ .error .tripleNestedArray) ∧
    (NCm m = true → mapHasTriple m = true →
      to_string m opts = .error .tripleNestedArray) := by
  constructor
  · intro hno hc
    rw [to_string_triple_sound m opts hc] at hno
    cases hno
  · intro hnc hmt
    rcases to_string_ok_or_triple m opts with ⟨out, hout⟩ | h
    · exfalso
      have hfuel := to_string_eq_fuel m opts
      rw [hout] at hfuel
      have := toStringFuel_ok_no_triple (sizeF m + 1) m opts out hnc hfuel
      rw [this] at hmt
      cases hmt
    · exact h

/-- Witness for C5: a two-level array is accepted, a three-level array
raises the error. -/
theorem claim_C5_witness :
    to_string [("a".data, Value.arr [Value.arr [Value.num 1]])] Options.default ≠
      .error .tripleNestedArray ∧
    to_string [("a".data, Value.arr [Value.arr [Value.arr [Value.num 1]]])]
      Options.default = .error .tripleNestedArray :=
  ⟨(claim_C5 _ Options.default).1 (by decide),
   (claim_C5 _ Options.default).2 (by decide) (by decide)⟩

/-! ## Entry separators are index-based (C1) -/

/-- C1: the separating newline before an emitted entry is decided by
the entry's *index* in the flattened mapping (`i != 0`), not by an
"is this the first emitted entry" flag.  When the first flattened entry
is skipped — here the `Null` under key `a` — the first emitted entry
has index 1 and is preceded by a newline, so the output starts with a
stray leading newline, contradicting the claim that the emitted lines
are exactly the rendered entries joined by single newlines with no
leading newline. -/
theorem claim_C1 :
    to_string [("a".data, Value.null), ("b".data, Value.bool true)] Options.default =
      .ok "\nb = true".data ∧
    "\nb = true".data ≠ "b = true".data :=
  ⟨rfl, by decide⟩

/-! ## String rendering in arrays never uses the block form (C3) -/

/-- C3 counterexample: the array element `"x\ny"` contains a literal
newline, yet it renders in single-quote form with the raw newline
inside the quotes — the output contains no `"""` at all, contradicting
the claim that newline-containing strings render in triple-quote block
form also as array elements. -/
theorem claim_C3_counterexample :
    to_string [("a".data, Value.arr [Value.str "x\ny".data])] Options.default =
      .ok "a = [\"x\ny\"]".data ∧
    (findSub "\"\"\"".data "a = [\"x\ny\"]".data).isSome = false :=
  ⟨rfl, by decide⟩

/-- C3 (amended): a *top-level* string value follows the claimed rule —
skipped when empty under `skip_empty_string`, rendered as a
triple-quote block when it contains a newline, and in single-quote form
with internal quotes escaped otherwise.  String *array elements*
however (at both nesting depths) always render in single-quote escaped
form, regardless of newlines; the depth-2 form ignores
`skip_empty_string` as well (see C2). -/
theorem claim_C3 (render : List (Str × Value) → Options → Option (Except Error Str))
    (opts : Options) (k : Str) (s : Str) (rest : List Value) :
    renderEntry render opts k (Value.str s) =
      some (.ok (if opts.skip_empty_string = true ∧ s = [] then none
        else some (if '\n' ∈ s then
            k ++ " = \"\"\"\n".data ++ s ++ "\"\"\"".data
          else k ++ " = \"".data ++ esc s ++ ['"']))) ∧
    elemsLoop render opts (Value.str s :: rest) =
      (if opts.skip_empty_string = true ∧ s = [] then elemsLoop render opts rest
        else (elemsLoop render opts rest).map
          (Except.map fun strs => ('"' :: esc s ++ ['"']) :: strs)) ∧
    elems2Loop render opts (Value.str s :: rest) =
      (elems2Loop render opts rest).map
        (Except.map fun out => ('"' :: esc s ++ ['"']) :: out) := by
  refine ⟨?_, ?_, rfl⟩
  · rw [show renderEntry render opts k (Value.str s) =
        (if opts.skip_empty_string && s.isEmpty then some (.ok none)
          else if s.contains '\n' then
            some (.ok (some (k ++ " = \"\"\"\n".data ++ s ++ "\"\"\"".data)))
          else some (.ok (some (k ++ " = \"".data ++ esc s ++ ['"'])))) from by
      simp [renderEntry]]
    by_cases hskip : opts.skip_empty_string = true ∧ s = []
    · rw [if_pos (by simp [hskip.1, hskip.2]), if_pos hskip]
    · rw [if_neg (by
        intro hc
        rcases Bool.and_eq_true_iff.mp hc with ⟨h1, h2⟩
        exact hskip ⟨h1, List.isEmpty_iff.mp h2⟩), if_neg hskip]
      by_cases hnl : '\n' ∈ s
      · rw [if_pos (List.elem_iff.mpr hnl), if_pos hnl]
      · rw [if_neg (fun hc => hnl (List.elem_iff.mp hc)), if_neg hnl]
  · rw [show elemsLoop render opts (Value.str s :: rest) =
        (if opts.skip_empty_string && s.isEmpty then elemsLoop render opts rest
          else (elemsLoop render opts rest).map
            (Except.map fun strs => ('"' :: esc s ++ ['"']) :: strs)) from by
      simp [elemsLoop]]
    by_cases hskip : opts.skip_empty_string = true ∧ s = []
    · rw [if_pos (by simp [hskip.1, hskip.2]), if_pos hskip]
    · rw [if_neg (by
        intro hc
        rcases Bool.and_eq_true_iff.mp hc with ⟨h1, h2⟩
        exact hskip ⟨h1, List.isEmpty_iff.mp h2⟩), if_neg hskip]

/-! ## The inline-array budget counts UTF-8 bytes (C6) -/

theorem foldl_byteLen_sum (strs : List Str) :
    strs.foldl (fun t c => t + byteLen c) 0 = (strs.map byteLen).sum := by
  have h : ∀ a, strs.foldl (fun t c => t + byteLen c) a = a + (strs.map byteLen).sum := by
    induction strs with
    | nil => intro a; simp
    | cons x rest ih =>
      intro a
      rw [List.foldl_cons, ih (a + byteLen x)]
      simp
      omega
  simpa using h 0

/-- C6 counterexample: the array `["é"]` renders its element as `"é"`,
three *characters* but four UTF-8 *bytes*.  With
`max_inline_array_length = 3` the claim (sum of character lengths ≤
threshold) predicts the inline form `k = ["é"]`, but the code compares
`String::len`, i.e. bytes, and renders the multi-line form. -/
theorem claim_C6_counterexample :
    ({ Options.default with max_inline_array_length := 3 } : Options).inline_array
        = false ∧
    (("\"é\"".data : Str).length ≤ 3 ∧ byteLen "\"é\"".data = 4) ∧
    to_string [("k".data, Value.arr [Value.str "é".data])]
        { Options.default with max_inline_array_length := 3 } =
      .ok "k = [\n\t\"é\"\n]".data ∧
    "k = [\n\t\"é\"\n]".data ≠ "k = [\"é\"]".data :=
  ⟨rfl, ⟨by decide, by decide⟩, rfl, by decide⟩

/-- C6 (amended): a non-empty array entry is rendered inline as
`key = [e1, e2, ...]` exactly when `inline_array` is set or the sum of
the rendered elements' lengths *in UTF-8 bytes* (Rust `String::len`,
not character count) is at most `max_inline_array_length`; otherwise it
renders multi-line with each element prefixed by one tab unit,
comma-separated, and the closing bracket on its own line.  An empty
array renders as `key = []`. -/
theorem claim_C6 (render : List (Str × Value) → Options → Option (Except Error Str))
    (opts : Options) (k : Str) :
    (∀ vs strs, vs ≠ [] → elemsLoop render opts vs = some (.ok strs) →
      renderEntry render opts k (Value.arr vs) = some (.ok (some (
        if opts.inline_array = true ∨
            (strs.map byteLen).sum ≤ opts.max_inline_array_length then
          k ++ " = [".data ++ List.intercalate ", ".data strs ++ "]".data
        else
          k ++ " = [\n".data ++ opts.tab ++
            List.intercalate (",\n".data ++ opts.tab) strs ++ "\n]".data)))) ∧
    renderEntry render opts k (Value.arr []) = some (.ok (some (k ++ " = []".data))) := by
  constructor
  · intro vs strs hne hok
    rw [show renderEntry render opts k (Value.arr vs) =
        (if vs.isEmpty then some (.ok (some (k ++ " = []".data)))
          else
            match elemsLoop render opts vs with
            | none => none
            | some (.error e) => some (.error e)
            | some (.ok strs) =>
              let total := strs.foldl (fun t c => t + byteLen c) 0
              if opts.inline_array || decide (total ≤ opts.max_inline_array_length) then
                some (.ok (some (k ++ " = [".data ++
                  List.intercalate ", ".data strs ++ [']'])))
              else
                some (.ok (some (k ++ " = [\n".data ++ opts.tab ++
                  List.intercalate (",\n".data ++ opts.tab) strs ++ "\n]".data))))
        from by simp [renderEntry]]
    rw [if_neg (by simp [hne])]
    rw [hok]
    show (if (opts.inline_array ||
        decide ((strs.foldl (fun t c => t + byteLen c) 0) ≤
          opts.max_inline_array_length)) = true then
        some (Except.ok (some (k ++ " = [".data ++
          List.intercalate ", ".data strs ++ [']'])))
      else some (Except.ok (some (k ++ " = [\n".data ++ opts.tab ++
        List.intercalate (",\n".data ++ opts.tab) strs ++ "\n]".data)))) = _
    rw [foldl_byteLen_sum]
    by_cases hc : opts.inline_array = true ∨
        (strs.map byteLen).sum ≤ opts.max_inline_array_length
    · rw [if_pos (by
        rcases hc with h | h
        · simp [h]
        · simp [h]), if_pos hc]
    · rw [if_neg (by
        intro h2
        rcases Bool.or_eq_true_iff.mp h2 with h | h
        · exact hc (.inl h)
        · exact hc (.inr (of_decide_eq_true h))), if_neg hc]
  · rfl

/-- Witness for C6 at a concrete one-element array. -/
theorem claim_C6_witness :
    ([Value.num 1] ≠ ([] : List Value)) ∧
    elemsLoop (fun flds o => toStringFuel 1 flds o) Options.default [Value.num 1] =
      some (.ok [['1']]) ∧
    renderEntry (fun flds o => toStringFuel 1 flds o) Options.default "k".data
        (Value.arr [Value.num 1]) = some (.ok (some (
      if Options.default.inline_array = true ∨
          ([['1']].map byteLen).sum ≤ Options.default.max_inline_array_length then
        "k".data ++ " = [".data ++ List.intercalate ", ".data [['1']] ++ "]".data
      else
        "k".data ++ " = [\n".data ++ Options.default.tab ++
          List.intercalate (",\n".data ++ Options.default.tab) [['1']] ++
          "\n]".data))) :=
  ⟨List.cons_ne_nil _ _, rfl,
    (claim_C6 (fun flds o => toStringFuel 1 flds o) Options.default "k".data).1
      [Value.num 1] [['1']] (List.cons_ne_nil _ _) rfl⟩

/-! ## Empty-string skipping and `= ""` (C2) -/

theorem esc_ne_nil (s : Str) (h : s ≠ []) : esc s ≠ [] := by
  cases s with
  | nil => exact absurd rfl h
  | cons c rest =>
    rw [show esc (c :: rest) = (if c = '"' then ['\\', '"'] else [c]) ++ esc rest
      from rfl]
    by_cases hc : c = '"' <;> simp [hc]

theorem esc_last_quote (s : Str) (h : (esc s).getLast? = some '"') :
    ∃ t, esc s = t ++ ['\\', '"'] := by
  induction s with
  | nil => simp [esc] at h
  | cons c rest ih =>
    rw [show esc (c :: rest) = (if c = '"' then ['\\', '"'] else [c]) ++ esc rest
      from rfl] at h ⊢
    by_cases hrest : esc rest = []
    · rw [hrest] at h ⊢
      by_cases hc : c = '"'
      · exact ⟨[], by simp [hc]⟩
      · rw [if_neg hc] at h ⊢
        simp at h
        exact absurd h hc
    · rw [List.getLast?_append_of_ne_nil _ hrest] at h
      obtain ⟨t, ht⟩ := ih h
      refine ⟨(if c = '"' then ['\\', '"'] else [c]) ++ t, ?_⟩
      rw [ht]
      simp

theorem natToStrAux_ne_nil (fuel n : Nat) (h : 0 < fuel) : natToStrAux fuel n ≠ [] := by
  cases fuel with
  | zero => omega
  | succ f =>
    rw [show natToStrAux (f + 1) n =
        (if n < 10 then [digitChar n]
          else natToStrAux f (n / 10) ++ [digitChar (n % 10)]) from rfl]
    by_cases hn : n < 10 <;> simp [hn]

theorem natToStrAux_last (fuel n : Nat) (h : 0 < fuel) :
    ∃ d, d < 10 ∧ (natToStrAux fuel n).getLast? = some (digitChar d) := by
  cases fuel with
  | zero => omega
  | succ f =>
    rw [show natToStrAux (f + 1) n =
        (if n < 10 then [digitChar n]
          else natToStrAux f (n / 10) ++ [digitChar (n % 10)]) from rfl]
    by_cases hn : n < 10
    · exact ⟨n, hn, by simp [hn]⟩
    · refine ⟨n % 10, Nat.mod_lt _ (by omega), ?_⟩
      rw [if_neg hn]
      simp

theorem intToStr_last (n : Int) :
    ∃ d, d < 10 ∧ (intToStr n).getLast? = some (digitChar d) := by
  cases n with
  | ofNat m => exact natToStrAux_last (m + 1) m (by omega)
  | negSucc m =>
    rw [show intToStr (Int.negSucc m) = '-' :: natToStr (m + 1) from rfl]
    obtain ⟨d, hd, hlast⟩ := natToStrAux_last (m + 2) (m + 1) (by omega)
    refine ⟨d, hd, ?_⟩
    rw [show ('-' :: natToStr (m + 1)) = ['-'] ++ natToStrAux (m + 2) (m + 1) from rfl]
    rw [List.getLast?_append_of_ne_nil _ (natToStrAux_ne_nil (m + 2) (m + 1) (by omega))]
    exact hlast

theorem digitChar_ne_quote (d : Nat) (h : d < 10) : digitChar d ≠ '"' := by
  interval_cases d <;> decide

theorem digitChar_ne_brace (d : Nat) (h : d < 10) : digitChar d ≠ '}' := by
  interval_cases d <;> decide

theorem not_suffix_of_last {s : Str} {c : Char} (h : s.getLast? = some c)
    (hc : c ≠ '"') : ¬∃ t, s = t ++ ('=' :: ' ' :: '"' :: '"' :: []) := by
  rintro ⟨t, rfl⟩
  rw [List.getLast?_append_of_ne_nil _ (by simp)] at h
  simp at h
  exact hc h.symm

theorem map_ok_inv2 {α β : Type} (f : α → β) (x : Option (Except Error α)) (b : β)
    (h : x.map (Except.map f) = some (.ok b)) :
    ∃ a, x = some (.ok a) ∧ b = f a := by
  cases x with
  | none => simp at h
  | some r =>
    cases r with
    | ok a =>
      refine ⟨a, rfl, ?_⟩
      have h2 : (Except.ok a : Except Error α).map f = (Except.ok b : Except Error β) := by
        simpa using h
      simpa [Except.map] using h2.symm
    | error e => simp [Except.map] at h

/-- Every rendered depth-1 array element produced by a successful
`elemsLoop` run has one of the five source shapes; quoted-string
elements come from a non-empty string whenever `skip_empty_string`
is set (line 143 of the source skips the empty ones). -/
theorem elemsLoop_mem_shape (render : List (Str × Value) → Options → Option (Except Error Str))
    (opts : Options) :
    ∀ vs strs, elemsLoop render opts vs = some (.ok strs) →
      ∀ x ∈ strs,
        (∃ b, x = boolStr b) ∨ (∃ n, x = intToStr n) ∨
        (∃ s, x = '"' :: esc s ++ ['"'] ∧ (opts.skip_empty_string = true → s ≠ [])) ∨
        (∃ sub, x = surgery sub) ∨
        (∃ out, x = '[' :: List.intercalate ", ".data out ++ [']']) := by
  intro vs
  induction vs with
  | nil =>
    intro strs h x hx
    rw [show elemsLoop render opts [] = some (.ok []) from rfl] at h
    simp at h
    subst h
    cases hx
  | cons v rest ih =>
    intro strs h x hx
    cases v with
    | null =>
      rw [show elemsLoop render opts (.null :: rest) = elemsLoop render opts rest
        from rfl] at h
      exact ih strs h x hx
    | bool b =>
      rw [show elemsLoop render opts (.bool b :: rest) =
          (elemsLoop render opts rest).map (Except.map fun strs => boolStr b :: strs)
        from rfl] at h
      obtain ⟨out, hout, hb⟩ := map_ok_inv2 _ _ _ h
      subst hb
      cases hx with
      | head => exact Or.inl ⟨b, rfl⟩
      | tail _ hmem => exact ih out hout x hmem
    | num n =>
      rw [show elemsLoop render opts (.num n :: rest) =
          (elemsLoop render opts rest).map (Except.map fun strs => intToStr n :: strs)
        from rfl] at h
      obtain ⟨out, hout, hb⟩ := map_ok_inv2 _ _ _ h
      subst hb
      cases hx with
      | head => exact Or.inr (Or.inl ⟨n, rfl⟩)
      | tail _ hmem => exact ih out hout x hmem
    | str s =>
      rw [show elemsLoop render opts (.str s :: rest) =
          (if opts.skip_empty_string && s.isEmpty then elemsLoop render opts rest
           else (elemsLoop render opts rest).map
             (Except.map fun strs => ('"' :: esc s ++ ['"']) :: strs)) from rfl] at h
      by_cases hc : opts.skip_empty_string && s.isEmpty
      · rw [if_pos hc] at h
        exact ih strs h x hx
      · rw [if_neg hc] at h
        obtain ⟨out, hout, hb⟩ := map_ok_inv2 _ _ _ h
        subst hb
        cases hx with
        | head =>
          refine Or.inr (Or.inr (Or.inl ⟨s, rfl, fun hsk hs => ?_⟩))
          subst hs
          simp [hsk] at hc
        | tail _ hmem => exact ih out hout x hmem
    | obj flds =>
      rw [show elemsLoop render opts (.obj flds :: rest) =
          (match render flds { opts with inline_array := true } with
           | none => none
           | some (.error e) => some (.error e)
           | some (.ok sub) =>
             (elemsLoop render opts rest).map
               (Except.map fun strs => surgery sub :: strs)) from rfl] at h
      cases hr : render flds { opts with inline_array := true } with
      | none => rw [hr] at h; simp at h
      | some r =>
        cases r with
        | error e => rw [hr] at h; simp at h
        | ok sub =>
          rw [hr] at h
          obtain ⟨out, hout, hb⟩ := map_ok_inv2 _ _ _ h
          subst hb
          cases hx with
          | head => exact Or.inr (Or.inr (Or.inr (Or.inl ⟨sub, rfl⟩)))
          | tail _ hmem => exact ih out hout x hmem
    | arr vs2 =>
      rw [show elemsLoop render opts (.arr vs2 :: rest) =
          (match elems2Loop render opts vs2 with
           | none => none
           | some (.error e) => some (.error e)
           | some (.ok out) =>
             (elemsLoop render opts rest).map
               (Except.map fun strs =>
                 ('[' :: List.intercalate ", ".data out ++ [']']) :: strs))
        from rfl] at h
      cases hr : elems2Loop render opts vs2 with
      | none => rw [hr] at h; simp at h
      | some r =>
        cases r with
        | error e => rw [hr] at h; simp at h
        | ok out2 =>
          rw [hr] at h
          obtain ⟨out, hout, hb⟩ := map_ok_inv2 _ _ _ h
          subst hb
          cases hx with
          | head => exact Or.inr (Or.inr (Or.inr (Or.inr ⟨out2, rfl⟩)))
          | tail _ hmem => exact ih out hout x hmem

theorem intToStr_ne_nil (n : Int) : intToStr n ≠ [] := by
  cases n with
  | ofNat m => exact natToStrAux_ne_nil (m + 1) m (by omega)
  | negSucc m =>
    rw [show intToStr (Int.negSucc m) = '-' :: natToStr (m + 1) from rfl]
    simp

theorem last_of_append_tail {k tailp : Str} {c : Char} (h : tailp.getLast? = some c) :
    (k ++ tailp).getLast? = some c := by
  rcases tailp with _ | ⟨a, as⟩
  · simp at h
  · rw [List.getLast?_append_of_ne_nil _ (by simp)]
    exact h

theorem suffix_extend {p b : Str} (a : Str) (h : p <:+ b) : p <:+ a ++ b :=
  h.trans (List.suffix_append a b)

/-- A piece emitted by `renderEntry` never ends in the four characters
of `= ""` when `skip_empty_string` is set: every shape's tail is pinned
down (final letter, digit, bracket or brace; for quoted strings the
escaping of line 135 makes a bare `"` impossible right before the
closing quote of a non-empty string). -/
theorem renderEntry_no_empty_eq
    (render : List (Str × Value) → Options → Option (Except Error Str))
    (opts : Options) (hskip : opts.skip_empty_string = true) :
    ∀ (k : Str) (v : Value) (piece : Str),
      renderEntry render opts k v = some (.ok (some piece)) →
      ∀ t, piece ≠ t ++ ('=' :: ' ' :: '"' :: '"' :: []) := by
  intro k v piece h
  cases v with
  | null =>
    rw [show renderEntry render opts k .null = some (.ok none) from rfl] at h
    simp at h
  | bool b =>
    rw [show renderEntry render opts k (.bool b) =
        some (.ok (some (k ++ " = ".data ++ boolStr b))) from rfl] at h
    have hp : k ++ " = ".data ++ boolStr b = piece := by simpa using h
    subst hp
    intro t ht
    cases b
    · exact not_suffix_of_last (last_of_append_tail
        (show (boolStr false).getLast? = some 'e' by decide)) (by decide) ⟨t, ht⟩
    · exact not_suffix_of_last (last_of_append_tail
        (show (boolStr true).getLast? = some 'e' by decide)) (by decide) ⟨t, ht⟩
  | num n =>
    rw [show renderEntry render opts k (.num n) =
        some (.ok (some (k ++ " = ".data ++ intToStr n))) from rfl] at h
    have hp : k ++ " = ".data ++ intToStr n = piece := by simpa using h
    subst hp
    intro t ht
    obtain ⟨d, hd, hl⟩ := intToStr_last n
    exact not_suffix_of_last (last_of_append_tail hl) (digitChar_ne_quote d hd) ⟨t, ht⟩
  | str s =>
    rw [show renderEntry render opts k (.str s) =
        (if opts.skip_empty_string && s.isEmpty then some (.ok none)
         else if s.contains '\n' then
           some (.ok (some (k ++ " = \"\"\"\n".data ++ s ++ "\"\"\"".data)))
         else some (.ok (some (k ++ " = \"".data ++ esc s ++ ['"'])))) from rfl] at h
    by_cases hse : s.isEmpty = true
    · rw [if_pos (by simp [hskip, hse])] at h
      simp at h
    · rw [if_neg (by simp [hskip, hse])] at h
      by_cases hnl : s.contains '\n' = true
      · rw [if_pos hnl] at h
        have hp : k ++ " = \"\"\"\n".data ++ s ++ "\"\"\"".data = piece := by simpa using h
        subst hp
        intro t ht
        have hsfx1 : ('=' :: ' ' :: '"' :: '"' :: []) <:+
            (k ++ " = \"\"\"\n".data ++ s ++ "\"\"\"".data) := ⟨t, ht.symm⟩
        have hsfx2 : ('"' :: '"' :: '"' :: []) <:+
            (k ++ " = \"\"\"\n".data ++ s ++ "\"\"\"".data) := by
          have h0 : ('"' :: '"' :: '"' :: []) <:+ ("\"\"\"".data : Str) := ⟨[], rfl⟩
          exact suffix_extend _ h0
        rcases List.suffix_or_suffix_of_suffix hsfx1 hsfx2 with hss | hss
        · exact absurd hss (by decide)
        · exact absurd hss (by decide)
      · rw [if_neg hnl] at h
        have hp : k ++ " = \"".data ++ esc s ++ ['"'] = piece := by simpa using h
        subst hp
        intro t ht
        have hs2 : s ≠ [] := fun hnil => hse (by rw [hnil]; rfl)
        have hne : esc s ≠ [] := esc_ne_nil s hs2
        have hdec : (esc s).dropLast ++ [(esc s).getLast hne] = esc s :=
          List.dropLast_append_getLast hne
        have hrewr : (k ++ " = \"".data ++ esc s ++ ['"']) =
            (k ++ " = \"".data ++ (esc s).dropLast) ++ [(esc s).getLast hne, '"'] := by
          conv_lhs => rw [← hdec]
          simp
        have hsfx2 : [(esc s).getLast hne, '"'] <:+ (k ++ " = \"".data ++ esc s ++ ['"']) := by
          rw [hrewr]
          exact List.suffix_append _ _
        have hsfx1 : ('=' :: ' ' :: '"' :: '"' :: []) <:+
            (k ++ " = \"".data ++ esc s ++ ['"']) := ⟨t, ht.symm⟩
        rcases List.suffix_or_suffix_of_suffix hsfx1 hsfx2 with hss | hss
        · have hlen := hss.length_le
          simp at hlen
        · obtain ⟨u, hu⟩ := hss
          have hu2 : (u ++ [(esc s).getLast hne]) ++ ['"'] = ['=', ' ', '"'] ++ ['"'] := by
            simpa using hu
          have hu3 := (List.append_inj' hu2 rfl).1
          have hlcq : (esc s).getLast hne = '"' := by
            have h4 := congrArg List.getLast? hu3
            simpa [List.getLast?_concat] using h4
          have hq : (esc s).getLast? = some '"' := by
            rw [List.getLast?_eq_getLast _ hne, hlcq]
          obtain ⟨t2, ht2⟩ := esc_last_quote s hq
          have hrewr3 : (k ++ " = \"".data ++ esc s ++ ['"']) =
              (k ++ " = \"".data ++ t2) ++ ('\\' :: '"' :: '"' :: []) := by
            rw [ht2]
            simp
          have hsfx3 : ('\\' :: '"' :: '"' :: []) <:+
              (k ++ " = \"".data ++ esc s ++ ['"']) := by
            rw [hrewr3]
            exact List.suffix_append _ _
          rcases List.suffix_or_suffix_of_suffix hsfx1 hsfx3 with hss2 | hss2
          · exact absurd hss2 (by decide)
          · exact absurd hss2 (by decide)
  | arr vs =>
    rw [show renderEntry render opts k (.arr vs) =
        (if vs.isEmpty then some (.ok (some (k ++ " = []".data)))
         else
           match elemsLoop render opts vs with
           | none => none
           | some (.error e) => some (.error e)
           | some (.ok strs) =>
             let total := strs.foldl (fun t c => t + byteLen c) 0
             if opts.inline_array || decide (total ≤ opts.max_inline_array_length) then
               some (.ok (some (k ++ " = [".data ++ List.intercalate ", ".data strs ++ [']'])))
             else
               some (.ok (some (k ++ " = [\n".data ++ opts.tab ++
                 List.intercalate (",\n".data ++ opts.tab) strs ++ "\n]".data)))) from rfl] at h
    by_cases hve : vs.isEmpty = true
    · rw [if_pos hve] at h
      have hp : k ++ " = []".data = piece := by simpa using h
      subst hp
      intro t ht
      exact not_suffix_of_last (last_of_append_tail
        (show (" = []".data : Str).getLast? = some ']' by decide)) (by decide) ⟨t, ht⟩
    · rw [if_neg hve] at h
      cases hr : elemsLoop render opts vs with
      | none => rw [hr] at h; simp at h
      | some r =>
        cases r with
        | error e => rw [hr] at h; simp at h
        | ok strs =>
          rw [hr] at h
          have h2 : (if (opts.inline_array ||
                decide (strs.foldl (fun t c => t + byteLen c) 0 ≤
                  opts.max_inline_array_length)) = true then
              some (.ok (some (k ++ " = [".data ++
                List.intercalate ", ".data strs ++ [']'])))
            else
              some (.ok (some (k ++ " = [\n".data ++ opts.tab ++
                List.intercalate (",\n".data ++ opts.tab) strs ++ "\n]".data)))) =
              some (Except.ok (some piece) : Except Error (Option Str)) := h
          by_cases hc : (opts.inline_array ||
              decide (strs.foldl (fun t c => t + byteLen c) 0 ≤
                opts.max_inline_array_length)) = true
          · rw [if_pos hc] at h2
            have hp : k ++ " = [".data ++ List.intercalate ", ".data strs ++ [']'] = piece := by
              simpa using h2
            subst hp
            intro t ht
            exact not_suffix_of_last (last_of_append_tail
              (show ([']'] : Str).getLast? = some ']' by decide)) (by decide) ⟨t, ht⟩
          · rw [if_neg hc] at h2
            have hp : k ++ " = [\n".data ++ opts.tab ++
                List.intercalate (",\n".data ++ opts.tab) strs ++ "\n]".data = piece := by
              simpa using h2
            subst hp
            intro t ht
            exact not_suffix_of_last (last_of_append_tail
              (show ("\n]".data : Str).getLast? = some ']' by decide)) (by decide) ⟨t, ht⟩
  | obj flds =>
    rw [show renderEntry render opts k (.obj flds) =
        (if !opts.skip_empty_object && flds.isEmpty then
          some (.ok (some (k ++ " = {}".data)))
        else some (.error .objectReached)) from rfl] at h
    by_cases hc : (!opts.skip_empty_object && flds.isEmpty) = true
    · rw [if_pos hc] at h
      have hp : k ++ " = {}".data = piece := by simpa using h
      subst hp
      intro t ht
      exact not_suffix_of_last (last_of_append_tail
        (show (" = {}".data : Str).getLast? = some '}' by decide)) (by decide) ⟨t, ht⟩
    · rw [if_neg hc] at h
      simp at h

/-- Lines of the entry loop's output: if every rendered entry text is
newline-free and never ends in the four characters of `= ""`, then no
line of the accumulated output ends in them either — each piece then
lands on a line of its own. -/
theorem entriesLoop_lines
    (render : List (Str × Value) → Options → Option (Except Error Str))
    (opts : Options) :
    ∀ (kvs : List (Str × Value)) (i : Nat) (res out : Str),
      (∀ p ∈ kvs, ∀ piece,
        renderEntry render opts p.1 p.2 = some (.ok (some piece)) →
        '\n' ∉ piece ∧ ∀ t, piece ≠ t ++ ('=' :: ' ' :: '"' :: '"' :: [])) →
      (i = 0 → res = []) →
      (∀ l ∈ lines res, ∀ t, l ≠ t ++ ('=' :: ' ' :: '"' :: '"' :: [])) →
      entriesLoop render opts kvs i res = some (.ok out) →
      ∀ l ∈ lines out, ∀ t, l ≠ t ++ ('=' :: ' ' :: '"' :: '"' :: []) := by
  intro kvs
  induction kvs with
  | nil =>
    intro i res out _ _ hlines h
    simp only [entriesLoop, Option.some.injEq, Except.ok.injEq] at h
    exact h ▸ hlines
  | cons kv rest ih =>
    intro i res out hpieces hres0 hlines h
    rcases kv with ⟨k, v⟩
    simp only [entriesLoop] at h
    cases hres : renderEntry render opts k v with
    | none => rw [hres] at h; exact absurd h (by simp)
    | some r =>
      rw [hres] at h
      cases r with
      | error e => exact absurd h (by simp)
      | ok piece =>
        cases piece with
        | none =>
          exact ih (i + 1) res out
            (fun p hp => hpieces p (List.Mem.tail _ hp)) (by omega) hlines h
        | some text =>
          obtain ⟨htnl, htsuf⟩ := hpieces (k, v) (List.Mem.head _) text hres
          have hlt : ∀ l ∈ lines text, ∀ t,
              l ≠ t ++ ('=' :: ' ' :: '"' :: '"' :: []) := by
            rw [lines_no_newline text htnl]
            intro l hl
            cases hl with
            | head => exact htsuf
            | tail _ h2 => cases h2
          by_cases hi : i = 0
          · subst hi
            have hres2 : res = [] := hres0 rfl
            subst hres2
            simp only [ne_eq, not_true_eq_false, if_false, List.nil_append] at h
            exact ih _ text out
              (fun p hp => hpieces p (List.Mem.tail _ hp)) (by omega) hlt h
          · simp only [hi, ne_eq, not_false_iff, if_true] at h
            have hl2 : ∀ l ∈ lines (res ++ ['\n'] ++ text), ∀ t,
                l ≠ t ++ ('=' :: ' ' :: '"' :: '"' :: []) := by
              rw [show res ++ ['\n'] ++ text = res ++ '\n' :: text from by simp]
              rw [lines_append]
              intro l hl
              rcases List.mem_append.mp hl with h1 | h1
              · exact hlines l h1
              · exact hlt l h1
            exact ih (i + 1) _ out
              (fun p hp => hpieces p (List.Mem.tail _ hp)) (by omega) hl2 h

/-- C2 counterexample, both divergences.  First: with
`skip_empty_string = true` the input `{"a": [[""]]}` renders as
`a = [[""]]` — the depth-2 element loop (source line 144) pushes the
empty quoted string without any emptiness check, so a rendered array
element *is* the empty quoted string `""`.  Second: the line-level
reading also fails on its own — the newline-containing value
`x = ""` + newline + `y` hits the triple-quote branch (source line
107), whose raw unescaped content makes the output contain the
interior line `x = ""`, which ends in the four characters `= ""`. -/
theorem claim_C2_counterexample :
    to_string [("a".data, Value.arr [Value.arr [Value.str []]])]
        { Options.default with skip_empty_string := true }
      = .ok "a = [[\"\"]]".data ∧
    elems2Loop (toStringFuel 1)
        { Options.default with skip_empty_string := true } [Value.str []]
      = some (.ok [['"', '"']]) ∧
    to_string [("k".data, Value.str "x = \"\"\ny".data)]
        { Options.default with skip_empty_string := true }
      = .ok "k = \"\"\"\nx = \"\"\ny\"\"\"".data ∧
    "x = \"\"".data ∈ lines "k = \"\"\"\nx = \"\"\ny\"\"\"".data ∧
    "x = \"\"".data = "x ".data ++ ('=' :: ' ' :: '"' :: '"' :: []) :=
  ⟨rfl, rfl, rfl,
   by
    rw [show lines "k = \"\"\"\nx = \"\"\ny\"\"\"".data =
        ["k = \"\"\"".data, "x = \"\"".data, "y\"\"\"".data] from rfl]
    exact List.Mem.tail _ (List.Mem.head _),
   rfl⟩

/-- C2 (amended): when `skip_empty_string` is true, (i) no element
string produced by the depth-1 element loop is the empty quoted string
`""` (empty strings inside *second-level* arrays are not skipped and do
render as `""` — first counterexample); (ii) no entry text produced by
the per-entry formatter ends in the four characters `= ""`; and
(iii) whenever every rendered entry text is newline-free, no line of
`to_string`'s output ends in `= ""` — raw multi-line triple-quoted
content can inject such a line (second counterexample), so the
newline-freedom proviso is necessary. -/
theorem claim_C2 (render : List (Str × Value) → Options → Option (Except Error Str))
    (opts : Options) (hskip : opts.skip_empty_string = true) :
    (∀ vs strs, elemsLoop render opts vs = some (.ok strs) →
      ('"' :: '"' :: []) ∉ strs) ∧
    (∀ (k : Str) (v : Value) (piece : Str),
      renderEntry render opts k v = some (.ok (some piece)) →
      ∀ t, piece ≠ t ++ ('=' :: ' ' :: '"' :: '"' :: [])) ∧
    (∀ (m : List (Str × Value)) (out : Str),
      (∀ p ∈ flatten_map m opts.skip_empty_object, ∀ piece,
        renderEntry (fun flds o => toStringFuel (sizeF m) flds o) opts p.1 p.2
          = some (.ok (some piece)) → '\n' ∉ piece) →
      to_string m opts = .ok out →
      ∀ l ∈ lines out, ∀ t, l ≠ t ++ ('=' :: ' ' :: '"' :: '"' :: [])) := by
  refine ⟨?_, ?_, ?_⟩
  · intro vs strs h hmem
    rcases elemsLoop_mem_shape render opts vs strs h _ hmem with
      ⟨b, hb⟩ | ⟨n, hn⟩ | ⟨s, hs, hsne⟩ | ⟨sub, hsub⟩ | ⟨out, hout⟩
    · cases b <;> exact absurd hb (by decide)
    · obtain ⟨d, hd, hl⟩ := intToStr_last n
      rw [← hn] at hl
      have h0 : (('"' :: '"' :: [] : Str)).getLast? = some '"' := rfl
      rw [h0] at hl
      injection hl with h1
      exact digitChar_ne_quote d hd h1.symm
    · have hs2 := hsne hskip
      injection hs with h1 h2
      cases hesc : esc s with
      | nil => exact esc_ne_nil s hs2 hesc
      | cons a as =>
        rw [hesc] at h2
        injection h2 with g1 g2
        simp at g2
    · have hh : (surgery sub).head? = some '{' := rfl
      rw [← hsub] at hh
      exact absurd hh (by decide)
    · injection hout with h1 _
      exact absurd h1 (by decide)
  · exact renderEntry_no_empty_eq render opts hskip
  · intro m out hnl hout
    have hloop := to_string_eq_loop m opts
    rw [hout] at hloop
    refine entriesLoop_lines _ opts (flatten_map m opts.skip_empty_object) 0 [] out
      (fun p hp piece hpiece =>
        ⟨hnl p hp piece hpiece,
         renderEntry_no_empty_eq _ opts hskip p.1 p.2 piece hpiece⟩)
      (fun _ => rfl) ?_ hloop
    intro l hl t heq
    rw [show lines ([] : Str) = [[]] from rfl] at hl
    have hl0 : l = [] := by
      cases hl with
      | head => rfl
      | tail _ h2 => cases h2
    subst hl0
    have hlen := congrArg List.length heq
    simp at hlen

/-- C2 witness: a concrete run of each conjunct of `claim_C2` at the
default options with `skip_empty_string` set. -/
theorem claim_C2_witness :
    ('"' :: '"' :: []) ∉ [['"', 'x', '"']] ∧
    (∀ t, "b = true".data ≠ t ++ ('=' :: ' ' :: '"' :: '"' :: [])) ∧
    (∀ l ∈ lines "a = true".data, ∀ t,
      l ≠ t ++ ('=' :: ' ' :: '"' :: '"' :: [])) :=
  ⟨(claim_C2 (toStringFuel 1) { Options.default with skip_empty_string := true }
      rfl).1 [Value.str ['x']] [['"', 'x', '"']] rfl,
   (claim_C2 (toStringFuel 1) { Options.default with skip_empty_string := true }
      rfl).2.1 "b".data (Value.bool true) "b = true".data rfl,
   (claim_C2 (toStringFuel 1) { Options.default with skip_empty_string := true }
      rfl).2.2 [("a".data, Value.bool true)] "a = true".data
    (fun p hp piece hpiece => by
      rw [show flatten_map [("a".data, Value.bool true)]
          ({ Options.default with skip_empty_string := true } : Options).skip_empty_object
          = [("a".data, Value.bool true)] from rfl] at hp
      cases hp with
      | head =>
        rw [show renderEntry
            (fun flds o => toStringFuel (sizeF [("a".data, Value.bool true)]) flds o)
            { Options.default with skip_empty_string := true }
            ("a".data, Value.bool true).1 ("a".data, Value.bool true).2
            = some (.ok (some "a = true".data)) from rfl] at hpiece
        have hp2 : "a = true".data = piece := by simpa using hpiece
        rw [← hp2]
        decide
      | tail _ h2 => cases h2)
    rfl⟩

/-! ## The `to_array_object_string` collapse (C4) -/

theorem intercalate_nl_cons_cons (x y : Str) (l : List Str) :
    List.intercalate ['\n'] (x :: y :: l) = x ++ '\n' :: List.intercalate ['\n'] (y :: l) := by
  simp [List.intercalate, List.intersperse]

theorem mkDoc_eq (k v : Str) (rest : List (Str × Str)) :
    mkDoc ((k, v) :: rest) = k ++ " = ".data ++ docTail v rest := by
  induction rest generalizing k v with
  | nil => simp [mkDoc, mkLine, docTail, List.intercalate]
  | cons p rest ih =>
    obtain ⟨k2, v2⟩ := p
    have h1 : mkDoc ((k, v) :: (k2, v2) :: rest) =
        mkLine (k, v) ++ '\n' :: mkDoc ((k2, v2) :: rest) := by
      rw [mkDoc, mkDoc, List.map_cons, List.map_cons]
      exact intercalate_nl_cons_cons _ _ _
    rw [h1, ih]
    rw [show docTail v ((k2, v2) :: rest) =
        (v ++ ('\n' :: k2)) ++ " = ".data ++ docTail v2 rest from rfl]
    simp [mkLine]

theorem findSub_cons_pos (sep : Str) (c : Char) (cs : Str)
    (h : sep.isPrefixOf (c :: cs) = true) :
    findSub sep (c :: cs) = some ([], (c :: cs).drop sep.length) := by
  rw [show findSub sep (c :: cs) =
      (if sep.isPrefixOf (c :: cs) then some ([], (c :: cs).drop sep.length)
       else (findSub sep cs).map fun p => (c :: p.1, p.2)) from rfl, if_pos h]

theorem findSub_cons_neg (sep : Str) (c : Char) (cs : Str)
    (h : ¬sep.isPrefixOf (c :: cs) = true) :
    findSub sep (c :: cs) = (findSub sep cs).map fun p => (c :: p.1, p.2) := by
  rw [show findSub sep (c :: cs) =
      (if sep.isPrefixOf (c :: cs) then some ([], (c :: cs).drop sep.length)
       else (findSub sep cs).map fun p => (c :: p.1, p.2)) from rfl, if_neg h]

theorem findSub_eq_none (s : Str) (h : ∀ u w, s ≠ u ++ " = ".data ++ w) :
    findSub " = ".data s = none := by
  induction s with
  | nil => rfl
  | cons c cs ih =>
    have hnp : ¬" = ".data.isPrefixOf (c :: cs) = true := by
      intro hp
      obtain ⟨tl, htl⟩ := List.isPrefixOf_iff_prefix.mp hp
      exact h [] tl (by rw [← htl]; simp)
    rw [findSub_cons_neg _ _ _ hnp,
      ih (fun u w hw => h (c :: u) w (by rw [show (c :: cs : Str) = c :: cs from rfl, hw]; simp))]
    rfl

theorem findSub_clean (k : Str) (rest : Str)
    (hk : ∀ c ∈ k, ¬rustIsWhitespace c = true ∧ c ≠ '=') :
    findSub " = ".data (k ++ " = ".data ++ rest) = some (k, rest) := by
  induction k with
  | nil =>
    show findSub " = ".data (' ' :: '=' :: ' ' :: rest) = some ([], rest)
    rw [findSub_cons_pos " = ".data ' ' ('=' :: ' ' :: rest) (by simp [List.isPrefixOf])]
    rfl
  | cons a k' ih =>
    show findSub " = ".data (a :: (k' ++ " = ".data ++ rest)) = some (a :: k', rest)
    have hnp : ¬" = ".data.isPrefixOf (a :: (k' ++ " = ".data ++ rest)) = true := by
      intro hp
      obtain ⟨tl, htl⟩ := List.isPrefixOf_iff_prefix.mp hp
      have h1 : ' ' = a := by
        have h2 := congrArg List.head? htl
        simpa using h2
      exact (hk a (List.Mem.head _)).1 (by rw [← h1]; decide)
    rw [findSub_cons_neg _ _ _ hnp, ih (fun c hc => hk c (List.Mem.tail _ hc))]
    rfl

theorem findSub_doc (v k2 tl2 : Str) (hv : ∀ u w, v ≠ u ++ " = ".data ++ w)
    (hk : ∀ c ∈ k2, ¬rustIsWhitespace c = true ∧ c ≠ '=') :
    findSub " = ".data ((v ++ ('\n' :: k2)) ++ " = ".data ++ tl2) =
      some (v ++ ('\n' :: k2), tl2) := by
  induction v with
  | nil =>
    show findSub " = ".data ('\n' :: (k2 ++ " = ".data ++ tl2)) = some ('\n' :: k2, tl2)
    have hnp : ¬" = ".data.isPrefixOf ('\n' :: (k2 ++ " = ".data ++ tl2)) = true := by
      intro hp
      obtain ⟨tl, htl⟩ := List.isPrefixOf_iff_prefix.mp hp
      have h1 : ' ' = '\n' := by
        have h2 := congrArg List.head? htl
        simpa using h2
      exact absurd h1 (by decide)
    rw [findSub_cons_neg _ _ _ hnp, findSub_clean k2 tl2 hk]
    rfl
  | cons c v' ih =>
    show findSub " = ".data (c :: ((v' ++ ('\n' :: k2)) ++ " = ".data ++ tl2)) =
      some (c :: (v' ++ ('\n' :: k2)), tl2)
    have hnp : ¬" = ".data.isPrefixOf
        (c :: ((v' ++ ('\n' :: k2)) ++ " = ".data ++ tl2)) = true := by
      intro hp
      obtain ⟨tl, htl⟩ := List.isPrefixOf_iff_prefix.mp hp
      have htl2 : ' ' :: '=' :: ' ' :: tl =
          c :: ((v' ++ ('\n' :: k2)) ++ " = ".data ++ tl2) := htl
      injection htl2 with h1 h2
      cases v' with
      | nil =>
        have h2b : '=' :: ' ' :: tl = '\n' :: (k2 ++ " = ".data ++ tl2) := h2
        injection h2b with h3 _
        exact absurd h3 (by decide)
      | cons x w2 =>
        have h2b : '=' :: ' ' :: tl =
            x :: ((w2 ++ ('\n' :: k2)) ++ " = ".data ++ tl2) := h2
        injection h2b with h3 h4
        cases w2 with
        | nil =>
          have h4b : ' ' :: tl = '\n' :: (k2 ++ " = ".data ++ tl2) := h4
          injection h4b with h5 _
          exact absurd h5 (by decide)
        | cons y w3 =>
          have h4b : ' ' :: tl = y :: ((w3 ++ ('\n' :: k2)) ++ " = ".data ++ tl2) := h4
          injection h4b with h5 _
          apply hv [] w3
          rw [← h1, ← h3, ← h5]
          rfl
    rw [findSub_cons_neg _ _ _ hnp,
      ih (fun u w hw => hv (c :: u) w (by rw [show (c :: v' : Str) = c :: v' from rfl, hw]; simp))]
    rfl

theorem rsplitOnce_eq_none (s : Str) (h : '\n' ∉ s) : rsplitOnce '\n' s = none := by
  induction s with
  | nil => rfl
  | cons x xs ih =>
    rw [show rsplitOnce '\n' (x :: xs) =
        (match rsplitOnce '\n' xs with
         | some p => some (x :: p.1, p.2)
         | none => if x = '\n' then some ([], xs) else none) from rfl]
    rw [ih (fun hm => h (List.Mem.tail _ hm))]
    rw [if_neg (fun hx => h (by rw [← hx]; exact List.Mem.head _))]

theorem rsplitOnce_last (v k2 : Str) (hv : '\n' ∉ v) (hk2 : '\n' ∉ k2) :
    rsplitOnce '\n' (v ++ ('\n' :: k2)) = some (v, k2) := by
  induction v with
  | nil =>
    show rsplitOnce '\n' ('\n' :: k2) = some ([], k2)
    rw [show rsplitOnce '\n' ('\n' :: k2) =
        (match rsplitOnce '\n' k2 with
         | some p => some ('\n' :: p.1, p.2)
         | none => if '\n' = '\n' then some ([], k2) else none) from rfl]
    rw [rsplitOnce_eq_none k2 hk2, if_pos rfl]
  | cons c v' ih =>
    show rsplitOnce '\n' (c :: (v' ++ ('\n' :: k2))) = some (c :: v', k2)
    rw [show rsplitOnce '\n' (c :: (v' ++ ('\n' :: k2))) =
        (match rsplitOnce '\n' (v' ++ ('\n' :: k2)) with
         | some p => some (c :: p.1, p.2)
         | none => if c = '\n' then some ([], v' ++ ('\n' :: k2)) else none) from rfl]
    rw [ih (fun hm => hv (List.Mem.tail _ hm))]

theorem replaceNl_append (a b : Str) : replaceNl (a ++ b) = replaceNl a ++ replaceNl b := by
  induction a with
  | nil => rfl
  | cons c t ih =>
    rw [show replaceNl ((c :: t) ++ b) =
        (if c = '\n' then ", ".data else [c]) ++ replaceNl (t ++ b) from rfl]
    rw [show replaceNl (c :: t) =
        (if c = '\n' then ", ".data else [c]) ++ replaceNl t from rfl]
    rw [ih]
    simp

theorem replaceNl_id (s : Str) (h : '\n' ∉ s) : replaceNl s = s := by
  induction s with
  | nil => rfl
  | cons c t ih =>
    rw [show replaceNl (c :: t) =
        (if c = '\n' then ", ".data else [c]) ++ replaceNl t from rfl]
    rw [if_neg (fun hc => h (by rw [← hc]; exact List.Mem.head _))]
    rw [ih (fun hm => h (List.Mem.tail _ hm))]
    rfl

theorem replaceNl_docTail (v : Str) (rest : List (Str × Str)) (hv : '\n' ∉ v)
    (hrest : ∀ p ∈ rest, (∀ c ∈ p.1, ¬rustIsWhitespace c = true) ∧ '\n' ∉ p.2) :
    replaceNl (docTail v rest) = collapseTail v rest := by
  induction rest generalizing v with
  | nil => exact replaceNl_id v hv
  | cons p rest ih =>
    obtain ⟨k2, v2⟩ := p
    rw [show docTail v ((k2, v2) :: rest) =
        (v ++ ('\n' :: k2)) ++ " = ".data ++ docTail v2 rest from rfl]
    rw [replaceNl_append, replaceNl_append, replaceNl_append]
    rw [replaceNl_id v hv]
    rw [show replaceNl ('\n' :: k2) = ", ".data ++ replaceNl k2 from rfl]
    have hk2nl : '\n' ∉ k2 := by
      intro hm
      exact (hrest (k2, v2) (List.Mem.head _)).1 '\n' hm (by decide)
    rw [replaceNl_id k2 hk2nl]
    rw [show replaceNl " = ".data = " = ".data from rfl]
    rw [ih v2 (hrest (k2, v2) (List.Mem.head _)).2 (fun p hp => hrest p (List.Mem.tail _ hp))]
    rw [show collapseTail v ((k2, v2) :: rest) =
        (v ++ (',' :: ' ' :: k2)) ++ " = ".data ++ collapseTail v2 rest from rfl]
    simp

theorem dropWhile_cons_neg (p : Char → Bool) (c : Char) (t : Str) (h : ¬p c = true) :
    List.dropWhile p (c :: t) = c :: t := by
  simp [List.dropWhile_cons, h]

theorem trim_eq_self_of (s : Str) (c d : Char) (hh : s.head? = some c)
    (hwc : ¬rustIsWhitespace c = true) (hl : s.getLast? = some d)
    (hwd : ¬rustIsWhitespace d = true) : trim s = s := by
  cases s with
  | nil => simp at hh
  | cons a t =>
    have hac : a = c := by simpa using hh
    subst hac
    rw [show trim (a :: t) =
        ((List.dropWhile rustIsWhitespace (a :: t)).reverse.dropWhile
          rustIsWhitespace).reverse from rfl]
    rw [dropWhile_cons_neg _ _ _ hwc]
    have hrev : (a :: t).reverse.head? = some d := by
      rw [List.head?_reverse]
      exact hl
    cases hre : (a :: t).reverse with
    | nil => simp at hre
    | cons b u =>
      rw [hre] at hrev
      have hbd : b = d := by simpa using hrev
      subst hbd
      rw [dropWhile_cons_neg _ _ _ hwd]
      rw [← hre]
      rw [List.reverse_reverse]

theorem trim_self_facts (v : Str) (hne : v ≠ []) (htrim : trim v = v) :
    ∃ c, v.head? = some c ∧ ¬rustIsWhitespace c = true ∧
      ∃ d, v.getLast? = some d ∧ ¬rustIsWhitespace d = true := by
  cases v with
  | nil => exact absurd rfl hne
  | cons a t =>
    have hhead : ¬rustIsWhitespace a = true := by
      intro hw
      have h1 : trim (a :: t) =
          ((List.dropWhile rustIsWhitespace t).reverse.dropWhile
            rustIsWhitespace).reverse := by
        rw [show trim (a :: t) =
            ((List.dropWhile rustIsWhitespace (a :: t)).reverse.dropWhile
              rustIsWhitespace).reverse from rfl]
        rw [show List.dropWhile rustIsWhitespace (a :: t) =
            List.dropWhile rustIsWhitespace t from by simp [List.dropWhile_cons, hw]]
      have hlen : (trim (a :: t)).length ≤ t.length := by
        rw [h1]
        calc ((List.dropWhile rustIsWhitespace t).reverse.dropWhile
              rustIsWhitespace).reverse.length
            = ((List.dropWhile rustIsWhitespace t).reverse.dropWhile
              rustIsWhitespace).length := List.length_reverse _
          _ ≤ (List.dropWhile rustIsWhitespace t).reverse.length :=
              (List.dropWhile_sublist _).length_le
          _ = (List.dropWhile rustIsWhitespace t).length := List.length_reverse _
          _ ≤ t.length := (List.dropWhile_sublist _).length_le
      rw [htrim] at hlen
      simp at hlen
    have hdrop : List.dropWhile rustIsWhitespace (a :: t) = a :: t :=
      dropWhile_cons_neg _ _ _ hhead
    obtain ⟨b, u, hre⟩ : ∃ b u, (a :: t).reverse = b :: u := by
      cases hx : (a :: t).reverse with
      | nil => simp at hx
      | cons b u => exact ⟨b, u, rfl⟩
    have hlastw : ¬rustIsWhitespace b = true := by
      intro hw
      have h1 : trim (a :: t) = (List.dropWhile rustIsWhitespace u).reverse := by
        rw [show trim (a :: t) =
            ((List.dropWhile rustIsWhitespace (a :: t)).reverse.dropWhile
              rustIsWhitespace).reverse from rfl, hdrop, hre]
        rw [show List.dropWhile rustIsWhitespace (b :: u) =
            List.dropWhile rustIsWhitespace u from by simp [List.dropWhile_cons, hw]]
      have hlen : (trim (a :: t)).length ≤ u.length := by
        rw [h1]
        calc (List.dropWhile rustIsWhitespace u).reverse.length
            = (List.dropWhile rustIsWhitespace u).length := List.length_reverse _
          _ ≤ u.length := (List.dropWhile_sublist _).length_le
      rw [htrim] at hlen
      have hlen2 : (a :: t).length = u.length + 1 := by
        have h3 := congrArg List.length hre
        simpa using h3
      omega
    have hb : (a :: t).getLast? = some b := by
      rw [← List.head?_reverse, hre]
      rfl
    exact ⟨a, rfl, hhead, b, hb, hlastw⟩

theorem trim_all_nonws (s : Str) (h : ∀ c ∈ s, ¬rustIsWhitespace c = true) : trim s = s := by
  cases s with
  | nil => rfl
  | cons a t =>
    refine trim_eq_self_of (a :: t) a ((a :: t).getLast (by simp)) rfl
      (h a (List.Mem.head _)) ?_ (h _ (List.getLast_mem _))
    exact List.getLast?_eq_getLast _ _

theorem trim_token (v k2 : Str) (hvne : v ≠ []) (hvt : trim v = v)
    (hk2ne : k2 ≠ []) (hk2 : ∀ c ∈ k2, ¬rustIsWhitespace c = true) :
    trim (v ++ ('\n' :: k2)) = v ++ ('\n' :: k2) := by
  obtain ⟨c, hc, hwc, d0, hd0, hwd0⟩ := trim_self_facts v hvne hvt
  refine trim_eq_self_of _ c (k2.getLast hk2ne) ?_ hwc ?_ (hk2 _ (List.getLast_mem _))
  · cases v with
    | nil => exact absurd rfl hvne
    | cons a t => simpa using hc
  · rw [List.getLast?_append_of_ne_nil _ (by simp : ('\n' :: k2 : Str) ≠ [])]
    rw [show ('\n' :: k2 : Str) = ['\n'] ++ k2 from rfl,
      List.getLast?_append_of_ne_nil _ hk2ne]
    exact List.getLast?_eq_getLast _ _

theorem docTail_length (v : Str) (rest : List (Str × Str)) :
    rest.length ≤ (docTail v rest).length := by
  induction rest generalizing v with
  | nil => simp [docTail]
  | cons p rest ih =>
    obtain ⟨k2, v2⟩ := p
    rw [show docTail v ((k2, v2) :: rest) =
        (v ++ ('\n' :: k2)) ++ " = ".data ++ docTail v2 rest from rfl]
    have h1 := ih v2
    simp [List.length_append]
    omega

theorem splitAux_doc (rest : List (Str × Str)) : ∀ (v : Str) (fuel : Nat),
    rest.length < fuel →
    (∀ u w, v ≠ u ++ " = ".data ++ w) →
    (∀ p ∈ rest, ∀ c ∈ p.1, ¬rustIsWhitespace c = true ∧ c ≠ '=') →
    (∀ p ∈ rest, ∀ u w, p.2 ≠ u ++ " = ".data ++ w) →
    splitAux " = ".data fuel (docTail v rest) = tokAfter v rest := by
  induction rest with
  | nil =>
    intro v fuel hfuel hv _ _
    cases fuel with
    | zero => omega
    | succ f =>
      rw [show docTail v [] = v from rfl]
      rw [show splitAux " = ".data (f + 1) v =
          (match findSub " = ".data v with
           | none => [v]
           | some (before, after) => before :: splitAux " = ".data f after) from rfl]
      rw [findSub_eq_none v hv]
      rfl
  | cons p rest ih =>
    intro v fuel hfuel hv hkeys hvals
    obtain ⟨k2, v2⟩ := p
    cases fuel with
    | zero => simp at hfuel
    | succ f =>
      rw [show docTail v ((k2, v2) :: rest) =
          (v ++ ('\n' :: k2)) ++ " = ".data ++ docTail v2 rest from rfl]
      rw [show splitAux " = ".data (f + 1)
            ((v ++ ('\n' :: k2)) ++ " = ".data ++ docTail v2 rest) =
          (match findSub " = ".data ((v ++ ('\n' :: k2)) ++ " = ".data ++ docTail v2 rest) with
           | none => [(v ++ ('\n' :: k2)) ++ " = ".data ++ docTail v2 rest]
           | some (before, after) => before :: splitAux " = ".data f after) from rfl]
      rw [findSub_doc v k2 (docTail v2 rest) hv
        (fun c hc => hkeys (k2, v2) (List.Mem.head _) c hc)]
      show (v ++ ('\n' :: k2)) :: splitAux " = ".data f (docTail v2 rest) =
        tokAfter v ((k2, v2) :: rest)
      rw [show tokAfter v ((k2, v2) :: rest) = (v ++ ('\n' :: k2)) :: tokAfter v2 rest from rfl]
      rw [ih v2 f (by simp at hfuel ⊢; omega)
        (hvals (k2, v2) (List.Mem.head _))
        (fun p hp => hkeys p (List.Mem.tail _ hp))
        (fun p hp => hvals p (List.Mem.tail _ hp))]

theorem split_doc (k1 v1 : Str) (rest : List (Str × Str))
    (hk1 : ∀ c ∈ k1, ¬rustIsWhitespace c = true ∧ c ≠ '=')
    (hv1 : ∀ u w, v1 ≠ u ++ " = ".data ++ w)
    (hkeys : ∀ p ∈ rest, ∀ c ∈ p.1, ¬rustIsWhitespace c = true ∧ c ≠ '=')
    (hvals : ∀ p ∈ rest, ∀ u w, p.2 ≠ u ++ " = ".data ++ w) :
    splitSep " = ".data (mkDoc ((k1, v1) :: rest)) = k1 :: tokAfter v1 rest := by
  rw [mkDoc_eq]
  rw [show splitSep " = ".data (k1 ++ " = ".data ++ docTail v1 rest) =
      splitAux " = ".data ((k1 ++ " = ".data ++ docTail v1 rest).length + 1)
        (k1 ++ " = ".data ++ docTail v1 rest) from rfl]
  rw [show splitAux " = ".data ((k1 ++ " = ".data ++ docTail v1 rest).length + 1)
        (k1 ++ " = ".data ++ docTail v1 rest) =
      (match findSub " = ".data (k1 ++ " = ".data ++ docTail v1 rest) with
       | none => [k1 ++ " = ".data ++ docTail v1 rest]
       | some (before, after) =>
         before :: splitAux " = ".data (k1 ++ " = ".data ++ docTail v1 rest).length after)
      from rfl]
  rw [findSub_clean k1 (docTail v1 rest) hk1]
  show k1 :: splitAux " = ".data (k1 ++ " = ".data ++ docTail v1 rest).length
      (docTail v1 rest) = k1 :: tokAfter v1 rest
  rw [splitAux_doc rest v1 (k1 ++ " = ".data ++ docTail v1 rest).length
    (by have h1 := docTail_length v1 rest; simp [List.length_append]; omega)
    hv1 hkeys hvals]

theorem map_trim_tokAfter (rest : List (Str × Str)) : ∀ v : Str, v ≠ [] → trim v = v →
    (∀ p ∈ rest, (p.1 ≠ [] ∧ ∀ c ∈ p.1, ¬rustIsWhitespace c = true) ∧
      (p.2 ≠ [] ∧ trim p.2 = p.2)) →
    (tokAfter v rest).map trim = tokAfter v rest := by
  induction rest with
  | nil =>
    intro v _ hvt _
    rw [show tokAfter v [] = [v] from rfl]
    simp [hvt]
  | cons p rest ih =>
    intro v hvne hvt hclean
    obtain ⟨k2, v2⟩ := p
    rw [show tokAfter v ((k2, v2) :: rest) = (v ++ ('\n' :: k2)) :: tokAfter v2 rest from rfl]
    rw [List.map_cons]
    rw [trim_token v k2 hvne hvt (hclean (k2, v2) (List.Mem.head _)).1.1
      (hclean (k2, v2) (List.Mem.head _)).1.2]
    rw [ih v2 (hclean (k2, v2) (List.Mem.head _)).2.1
      (hclean (k2, v2) (List.Mem.head _)).2.2
      (fun p hp => hclean p (List.Mem.tail _ hp))]

theorem surgeryGo_doc (rest : List (Str × Str)) : ∀ (v res : Str), res ≠ [] →
    '\n' ∉ v → trim v = v →
    (∀ p ∈ rest, (p.1 ≠ [] ∧ ∀ c ∈ p.1, ¬rustIsWhitespace c = true) ∧
      ('\n' ∉ p.2 ∧ trim p.2 = p.2)) →
    surgeryGo (tokAfter v rest) res = res ++ " = ".data ++ collapseTail v rest := by
  induction rest with
  | nil =>
    intro v res hres hv _ _
    rw [show tokAfter v [] = [v] from rfl]
    rw [show surgeryGo [v] res =
        (match rsplitOnce '\n' v with
         | some (val, nextKey) =>
           surgeryGo [] (res ++ " = ".data ++ trim val ++ ", ".data ++ trim nextKey)
         | none =>
           if res.isEmpty then surgeryGo [] v
           else surgeryGo [] (res ++ " = ".data ++ v)) from rfl]
    rw [rsplitOnce_eq_none v hv]
    have hresb : ¬res.isEmpty = true := by
      cases res with
      | nil => exact absurd rfl hres
      | cons a t => simp
    show (if res.isEmpty = true then surgeryGo [] v
      else surgeryGo [] (res ++ " = ".data ++ v)) = res ++ " = ".data ++ collapseTail v []
    rw [if_neg hresb]
    rfl
  | cons p rest ih =>
    intro v res hres hv hvt hclean
    obtain ⟨k2, v2⟩ := p
    rw [show tokAfter v ((k2, v2) :: rest) = (v ++ ('\n' :: k2)) :: tokAfter v2 rest from rfl]
    rw [show surgeryGo ((v ++ ('\n' :: k2)) :: tokAfter v2 rest) res =
        (match rsplitOnce '\n' (v ++ ('\n' :: k2)) with
         | some (val, nextKey) =>
           surgeryGo (tokAfter v2 rest) (res ++ " = ".data ++ trim val ++ ", ".data ++ trim nextKey)
         | none =>
           if res.isEmpty then surgeryGo (tokAfter v2 rest) (v ++ ('\n' :: k2))
           else surgeryGo (tokAfter v2 rest) (res ++ " = ".data ++ (v ++ ('\n' :: k2))))
        from rfl]
    have hk2nl : '\n' ∉ k2 := fun hm =>
      (hclean (k2, v2) (List.Mem.head _)).1.2 '\n' hm (by decide)
    rw [rsplitOnce_last v k2 hv hk2nl]
    show surgeryGo (tokAfter v2 rest)
        (res ++ " = ".data ++ trim v ++ ", ".data ++ trim k2) =
      res ++ " = ".data ++ collapseTail v ((k2, v2) :: rest)
    rw [hvt, trim_all_nonws k2 (hclean (k2, v2) (List.Mem.head _)).1.2]
    rw [ih v2 (res ++ " = ".data ++ v ++ ", ".data ++ k2) (by simp [hres])
      (hclean (k2, v2) (List.Mem.head _)).2.1
      (hclean (k2, v2) (List.Mem.head _)).2.2
      (fun p hp => hclean p (List.Mem.tail _ hp))]
    rw [show collapseTail v ((k2, v2) :: rest) =
        (v ++ (',' :: ' ' :: k2)) ++ " = ".data ++ collapseTail v2 rest from rfl]
    simp

/-- The heart of the C4 refinement: on a well-formed sub-document whose
keys contain no whitespace or `=` and whose rendered values are trimmed
single-line strings free of `" = "`, the split/trim/reassemble surgery
of `to_array_object_string` agrees with the spec's description —
wrapping in braces and replacing each newline with `", "`. -/
theorem surgery_eq_specCollapse (k1 v1 : Str) (rest : List (Str × Str))
    (hk1 : cleanKey k1) (hv1 : cleanVal v1)
    (hrest : ∀ p ∈ rest, cleanKey p.1 ∧ cleanVal p.2) :
    surgery (mkDoc ((k1, v1) :: rest)) = specCollapse (mkDoc ((k1, v1) :: rest)) := by
  obtain ⟨hk1ne, hk1c⟩ := hk1
  obtain ⟨hv1ne, hv1t, hv1nl, hv1sep⟩ := hv1
  have hk1nl : '\n' ∉ k1 := fun hm => (hk1c '\n' hm).1 (by decide)
  rw [show surgery (mkDoc ((k1, v1) :: rest)) =
      "\x7b ".data ++ surgeryGo ((splitSep " = ".data (mkDoc ((k1, v1) :: rest))).map trim) []
        ++ " \x7d".data from rfl]
  rw [split_doc k1 v1 rest hk1c hv1sep (fun p hp => (hrest p hp).1.2)
    (fun p hp => (hrest p hp).2.2.2.2)]
  rw [List.map_cons]
  rw [trim_all_nonws k1 (fun c hc => (hk1c c hc).1)]
  rw [map_trim_tokAfter rest v1 hv1ne hv1t
    (fun p hp => ⟨⟨(hrest p hp).1.1, fun c hc => ((hrest p hp).1.2 c hc).1⟩,
      ⟨(hrest p hp).2.1, (hrest p hp).2.2.1⟩⟩)]
  rw [show surgeryGo (k1 :: tokAfter v1 rest) [] =
      (match rsplitOnce '\n' k1 with
       | some (val, nextKey) =>
         surgeryGo (tokAfter v1 rest) ([] ++ " = ".data ++ trim val ++ ", ".data ++ trim nextKey)
       | none =>
         if ([] : Str).isEmpty then surgeryGo (tokAfter v1 rest) k1
         else surgeryGo (tokAfter v1 rest) ([] ++ " = ".data ++ k1)) from rfl]
  rw [rsplitOnce_eq_none k1 hk1nl]
  show "\x7b ".data ++ surgeryGo (tokAfter v1 rest) k1 ++ " \x7d".data =
    specCollapse (mkDoc ((k1, v1) :: rest))
  rw [surgeryGo_doc rest v1 k1 hk1ne hv1nl hv1t
    (fun p hp => ⟨⟨(hrest p hp).1.1, fun c hc => ((hrest p hp).1.2 c hc).1⟩,
      ⟨(hrest p hp).2.2.2.1, (hrest p hp).2.2.1⟩⟩)]
  rw [show specCollapse (mkDoc ((k1, v1) :: rest)) =
      "\x7b ".data ++ replaceNl (mkDoc ((k1, v1) :: rest)) ++ " \x7d".data from rfl]
  rw [mkDoc_eq]
  rw [replaceNl_append, replaceNl_append]
  rw [replaceNl_id k1 hk1nl]
  rw [show replaceNl " = ".data = " = ".data from rfl]
  rw [replaceNl_docTail v1 rest hv1nl
    (fun p hp => ⟨fun c hc => ((hrest p hp).1.2 c hc).1, (hrest p hp).2.2.2.1⟩)]

theorem no_sep_of_no_space (v : Str) (h : ' ' ∉ v) :
    ∀ u w, v ≠ u ++ " = ".data ++ w := by
  intro u w heq
  apply h
  rw [heq]
  exact List.mem_append.mpr (Or.inl (List.mem_append.mpr (Or.inr (by decide))))

/-- C4 counterexample: for the object `{"p": "x\ny"}` as an array
element, the sub-document is the triple-quoted `p = """` + newline +
`x` + newline + `y"""`; the code's split-on-`" = "` surgery keeps the
newline that follows `"""` and turns only the *last* newline into
`", "`, while the spec's collapse replaces every newline with `", "` —
the two disagree. -/
theorem claim_C4_counterexample :
    to_array_object_string [("p".data, Value.str "x\ny".data)] Options.default
      = .ok "\x7b p = \"\"\"\nx, y\"\"\" \x7d".data ∧
    to_string [("p".data, Value.str "x\ny".data)]
        { Options.default with inline_array := true }
      = .ok "p = \"\"\"\nx\ny\"\"\"".data ∧
    specCollapse "p = \"\"\"\nx\ny\"\"\"".data = "\x7b p = \"\"\", x, y\"\"\" \x7d".data ∧
    ("\x7b p = \"\"\"\nx, y\"\"\" \x7d".data : Str) ≠ "\x7b p = \"\"\", x, y\"\"\" \x7d".data :=
  ⟨rfl, rfl, rfl, by decide⟩

/-- C4 (amended): for an object rendered as an array element whose own
pipeline output is a well-formed sub-document — one `key = value` line
per entry, keys free of whitespace and `=`, values non-empty trimmed
single-line strings not containing `" = "` — `to_array_object_string`
returns exactly the spec's collapse: braces around the sub-document
with every newline replaced by `", "`.  For values that themselves
contain newlines (triple-quoted blocks) the code's surgery differs from
the claimed newline replacement (see the counterexample). -/
theorem claim_C4 (m : List (Str × Value)) (opts : Options)
    (k1 v1 : Str) (rest : List (Str × Str))
    (hsub : toStringFuel (sizeF m + 1) m { opts with inline_array := true }
      = some (.ok (mkDoc ((k1, v1) :: rest))))
    (hk1 : cleanKey k1) (hv1 : cleanVal v1)
    (hrest : ∀ p ∈ rest, cleanKey p.1 ∧ cleanVal p.2) :
    to_array_object_string m opts = .ok (specCollapse (mkDoc ((k1, v1) :: rest))) := by
  rw [show to_array_object_string m opts =
      (match toStringFuel (sizeF m + 1) m { opts with inline_array := true } with
       | none => .ok []
       | some (.error e) => .error e
       | some (.ok sub) => .ok (surgery sub)) from rfl]
  rw [hsub]
  show Except.ok (surgery (mkDoc ((k1, v1) :: rest))) = _
  rw [surgery_eq_specCollapse k1 v1 rest hk1 hv1 hrest]

/-- C4 witness: the two-entry object `{"a": 1, "b": true}` formatted as
an array element collapses to `{ a = 1, b = true }`, matching the
spec's newline replacement. -/
theorem claim_C4_witness :
    to_array_object_string [("a".data, Value.num 1), ("b".data, Value.bool true)]
      Options.default = .ok (specCollapse (mkDoc [("a".data, "1".data), ("b".data, "true".data)])) :=
  claim_C4 [("a".data, Value.num 1), ("b".data, Value.bool true)] Options.default
    "a".data "1".data [("b".data, "true".data)]
    rfl
    ⟨by decide, by decide⟩
    ⟨by decide, by decide, by decide, no_sep_of_no_space _ (by decide)⟩
    (fun p hp => by
      cases hp with
      | head =>
        exact ⟨⟨by decide, by decide⟩,
          ⟨by decide, by decide, by decide, no_sep_of_no_space _ (by decide)⟩⟩
      | tail _ hp2 => cases hp2)
